import Mathlib

/-! # go-speedio: the token-bucket limiter and the meter

A shallow embedding of `limiter.go` and `limiter_config.go`, of `meter.go` and
`meter_config.go`, of the errors of `error.go`, of the constructors and the
`Read`, `Write` and `Close` methods of `limiter_reader.go` and
`limiter_writer.go`, and of the constructors of `meter_reader.go` and
`meter_writer.go`.

Modelling conventions.

* The limiter is embedded twice.  `limiter64` follows `limiter.go` operation by
  operation in `float64` arithmetic (`F64`): a finite `float64` is the rational
  it denotes, every operation rounds its exact result to the nearest `float64`
  (53-bit significand, ties to even, subnormal numbers, overflow to an
  infinity), the infinities and NaN propagate as in IEEE 754, and a product and
  a sum are rounded one after the other (no fused multiply-add).  The sign of a
  zero is not kept: the code compares and converts zeros and divides only by
  positive values.  A conversion of a `float64` to `int` or `time.Duration` is
  the one the compiler emits on amd64 (the fraction is discarded, a value that
  does not fit gives the smallest `int64`), and so is the conversion to
  `infounit.ByteCount`, a `uint64`.  The statements about the values `set` and
  `request` return for given arguments are about `limiter64`.
* `limiter` is the limiter in exact arithmetic: its `float64` values are
  rationals (`ℚ`), every operation is the mathematical one, `int` and
  `time.Duration` are unbounded integers (`Int`), and a conversion of a floating
  value to an integer type discards the fraction (`truncate`).  The statements
  about the accounting of tokens over sequences of calls, and those about the
  readers and writers, are about `limiter`.
* A `time.Duration` counts nanoseconds.  A `time.Time` is an `Int`, the number
  of nanoseconds since the zero time (`time.Time{}`), so `IsZero` is `t = 0`.
  `Time.Sub` saturates at the smallest and largest `time.Duration`, as the
  standard library does.
* In the meter a `time.Duration` is an `int64`: the sum `start + resolution` of
  `record` and the difference `sampleEnd - sample` of `bitRate` wrap around
  modulo `2^64` (`wrap64`).  The counter `totalBytes` is a `uint64`: a natural
  number below `2^64`, additions wrapping around.  The volumes of the buckets
  and the bit rate are rationals; the division of `bitRate` gives an infinity or
  a NaN when the window width is zero (`BitRate.quotient`).
* The mutex only serialises calls; each method is a function from the state
  before the call to the state after it.
* The ring of the meter is a function from slot numbers to buckets; the
  pointers `cur`, `last` and `first` are slot numbers, `nil` is `none`.
* An error value is a `GoError`; `errors.Is` is `errorsIs`.  An underlying
  reader or writer is a function from its state and its argument to its new
  state, the count it returns and its error.
* A loop of the program is a function with a bound on its iterations; it
  returns `none` when the bound was too small.
-/

namespace speedio

/-! ## Numeric conversions and time -/

/-- Conversion of a floating value to an integer type: the fraction is
discarded (rounding towards zero). -/
def truncate (q : ℚ) : Int := Int.tdiv q.num q.den

/-- The constant `time.Second`. -/
def Second : Int := 1000000000

/-- The constant `time.Millisecond`. -/
def Millisecond : Int := 1000000

/-- Smallest representable `time.Duration`. -/
def minDuration : Int := -9223372036854775808

/-- Largest representable `time.Duration`. -/
def maxDuration : Int := 9223372036854775807

/-- The method `Duration.Seconds`: whole seconds plus the fractional rest. -/
def Duration.Seconds (d : Int) : ℚ :=
  ((Int.tdiv d Second : Int) : ℚ) + ((Int.tmod d Second : Int) : ℚ) / 1000000000

/-- The method `Time.IsZero`. -/
def Time.IsZero (t : Int) : Bool := t == 0

/-- The method `Time.Sub`: the difference `t - u`, saturated to the range of
`time.Duration`. -/
def Time.Sub (t u : Int) : Int :=
  if t - u < minDuration then minDuration
  else if maxDuration < t - u then maxDuration
  else t - u

/-- The method `Time.Add`. -/
def Time.Add (t : Int) (d : Int) : Int := t + d

/-- The value an `int64` (a `time.Duration`) holds when the result `x` of an
addition or a subtraction is stored in it: `x` itself when it fits, else `x`
wrapped around modulo `2^64`. -/
def wrap64 (x : Int) : Int :=
  (x + 9223372036854775808) % 18446744073709551616 - 9223372036854775808

/-- The conversion `infounit.ByteCount(x)` of a floating value: a whole number
of bytes. -/
def ByteCount (q : ℚ) : Int := truncate q

/-! ## The limiter -/

/-- The errors `limiter.set` builds with `fmt.Errorf`, one constructor per
call site. -/
inductive LimiterError where
  | negativeBitRate
  | zeroBitRate
  | negativeResolution
  | zeroResolution
  | negativeMaxWait
  | zeroMaxWait
  | rateOrResolutionTooSmall
  | rateOrMaxWaitTooSmall
  deriving DecidableEq, Repr

/-- The struct `limiter` (without its mutex), its floating fields being exact
rationals. -/
structure limiter where
  /-- bytes per second -/
  rate : ℚ
  /-- bytes -/
  burst : ℚ
  minPartial : Int
  /-- nanoseconds per byte -/
  rateCoef : ℚ
  lastTime : Int
  /-- bytes -/
  lastToken : ℚ
  deriving DecidableEq, Repr

namespace limiter

/-- The zero value `&limiter{}`. -/
def zero : limiter :=
  { rate := 0, burst := 0, minPartial := 0, rateCoef := 0, lastTime := 0, lastToken := 0 }

/-- The method `limiter.set`, in exact arithmetic. -/
def set (l : limiter) (tc : Int) (rate : ℚ) (resolution maxWait : Int) :
    Except LimiterError limiter :=
  if rate < 0 then .error .negativeBitRate
  else if rate = 0 then .error .zeroBitRate
  else if resolution < 0 then .error .negativeResolution
  else if resolution = 0 then .error .zeroResolution
  else if maxWait < 0 then .error .negativeMaxWait
  else if maxWait = 0 then .error .zeroMaxWait
  else
    let newRate := rate / 8
    let newBurst := newRate * Duration.Seconds resolution
    let newMinPartial := truncate (newRate * Duration.Seconds maxWait)
    if ByteCount newBurst < 1 then .error .rateOrResolutionTooSmall
    else if newMinPartial < 1 then .error .rateOrMaxWaitTooSmall
    else
      let l1 :=
        if !Time.IsZero l.lastTime && !Time.IsZero tc then
          let l2 := { l with lastTime := tc }
          let l3 := { l2 with
            lastToken := l2.lastToken + Duration.Seconds (Time.Sub tc l2.lastTime) * l2.rate }
          if l3.burst < l3.lastToken then { l3 with lastToken := l3.burst } else l3
        else l
      .ok { l1 with
        rate := newRate
        burst := newBurst
        minPartial := newMinPartial
        rateCoef := (Second : ℚ) / newRate }

/-- The method `limiter.refund`. -/
def refund (l : limiter) (bc : Int) : limiter :=
  { l with lastToken := l.lastToken + (bc : ℚ) }

/-- The method `limiter.request`, in exact arithmetic: the state after the call,
the duration to wait and the number of bytes allowed. -/
def request (l : limiter) (tc : Int) (bc : Int) : limiter × Int × Int :=
  let allowed := l.lastToken + l.rate * Duration.Seconds (Time.Sub tc l.lastTime)
  let allowed := if l.burst < allowed then l.burst else allowed
  let allowedBytes := truncate allowed
  if bc ≤ allowedBytes then
    ({ l with lastTime := tc, lastToken := allowed - (bc : ℚ) }, 0, bc)
  else if l.minPartial ≤ allowedBytes then
    ({ l with lastTime := tc, lastToken := allowed - (allowedBytes : ℚ) }, 0, allowedBytes)
  else
    let wsz := l.minPartial
    let wsz := if bc < wsz then bc else wsz
    let d := truncate (l.rateCoef * ((wsz : ℚ) - allowed))
    ({ l with lastTime := Time.Add tc d, lastToken := 0 }, d, wsz)

end limiter

/-- The function `newLimiter`, in exact arithmetic. -/
def newLimiter (rate : ℚ) (resolution maxWait : Int) : Except LimiterError limiter :=
  limiter.zero.set 0 rate resolution maxWait

/-- The struct `LimiterConfig`. -/
structure LimiterConfig where
  Resolution : Int
  MaxWait : Int
  deriving DecidableEq, Repr

/-- The variable `DefaultLimiterConfig`: 1s resolution, 500ms max-wait. -/
def DefaultLimiterConfig : LimiterConfig :=
  { Resolution := Second, MaxWait := Millisecond * 500 }

/-- The struct `LimiterReader` over an underlying reader of type `ρ`. -/
structure LimiterReader (ρ : Type) where
  rd : ρ
  rate : ℚ
  resolution : Int
  maxWait : Int
  lim : limiter
  closed : Bool

/-- The function `NewLimiterReaderWithConfig`; `none` is the nil configuration. -/
def NewLimiterReaderWithConfig {ρ : Type} (rd : ρ) (rate : ℚ) (conf : Option LimiterConfig) :
    Except LimiterError (LimiterReader ρ) :=
  let conf := match conf with
    | none => DefaultLimiterConfig
    | some c => c
  match newLimiter rate conf.Resolution conf.MaxWait with
  | .error err => .error err
  | .ok lim =>
    .ok { rd := rd, rate := rate, resolution := conf.Resolution, maxWait := conf.MaxWait,
          lim := lim, closed := false }

/-- The function `NewLimiterReader`. -/
def NewLimiterReader {ρ : Type} (rd : ρ) (rate : ℚ) : Except LimiterError (LimiterReader ρ) :=
  NewLimiterReaderWithConfig rd rate none

/-- The struct `LimiterWriter` over an underlying writer of type `ω`. -/
structure LimiterWriter (ω : Type) where
  wr : ω
  rate : ℚ
  resolution : Int
  maxWait : Int
  lim : limiter
  closed : Bool

/-- The function `NewLimiterWriterWithConfig`; `none` is the nil configuration. -/
def NewLimiterWriterWithConfig {ω : Type} (wr : ω) (rate : ℚ) (conf : Option LimiterConfig) :
    Except LimiterError (LimiterWriter ω) :=
  let conf := match conf with
    | none => DefaultLimiterConfig
    | some c => c
  match newLimiter rate conf.Resolution conf.MaxWait with
  | .error err => .error err
  | .ok lim =>
    .ok { wr := wr, rate := rate, resolution := conf.Resolution, maxWait := conf.MaxWait,
          lim := lim, closed := false }

/-- The function `NewLimiterWriter`. -/
def NewLimiterWriter {ω : Type} (wr : ω) (rate : ℚ) : Except LimiterError (LimiterWriter ω) :=
  NewLimiterWriterWithConfig wr rate none

/-! ## `float64` arithmetic -/

/-- A `float64` value: a finite number (the rational it denotes; the sign of a
zero is not kept), an infinity, or a NaN. -/
inductive F64 where
  | fin (q : ℚ)
  | posInf
  | negInf
  | nan
  deriving DecidableEq, Repr

namespace F64

/-- Rounding of a rational to the nearest integer, a tie going to the even
one. -/
def roundEven (q : ℚ) : Int :=
  if q - (⌊q⌋ : ℚ) < 1 / 2 then ⌊q⌋
  else if 1 / 2 < q - (⌊q⌋ : ℚ) then ⌊q⌋ + 1
  else if ⌊q⌋ % 2 = 0 then ⌊q⌋ else ⌊q⌋ + 1

/-- The binary exponent of the unit in the last place of a `float64` at `q`:
52 below the binary exponent of `q` (a significand of 53 bits), and not below
-1074, the exponent of the subnormal numbers. -/
def ulpExp (q : ℚ) : Int := max (Int.log 2 |q| - 52) (-1074)

/-- The `float64` result of an operation whose exact result is `q`: `q` rounded
to the nearest multiple of its unit in the last place, a tie going to the even
significand, and an infinity when the rounded value is `2^1024` or beyond. -/
def ofRat (q : ℚ) : F64 :=
  if 2 ^ (1024 : Nat) ≤ |(roundEven (q / 2 ^ ulpExp q) : ℚ) * 2 ^ ulpExp q| then
    (if 0 < q then posInf else negInf)
  else fin ((roundEven (q / 2 ^ ulpExp q) : ℚ) * 2 ^ ulpExp q)

/-- Negation. -/
def neg : F64 → F64
  | fin q => fin (-q)
  | posInf => negInf
  | negInf => posInf
  | nan => nan

/-- The operator `+` of `float64`. -/
def add : F64 → F64 → F64
  | fin a, fin b => ofRat (a + b)
  | fin _, posInf => posInf
  | fin _, negInf => negInf
  | posInf, fin _ => posInf
  | posInf, posInf => posInf
  | negInf, fin _ => negInf
  | negInf, negInf => negInf
  | _, _ => nan

/-- The operator `-` of `float64`. -/
def sub (a b : F64) : F64 := add a (neg b)

/-- The operator `*` of `float64`. -/
def mul : F64 → F64 → F64
  | fin a, fin b => ofRat (a * b)
  | fin a, posInf => if a = 0 then nan else if 0 < a then posInf else negInf
  | fin a, negInf => if a = 0 then nan else if 0 < a then negInf else posInf
  | posInf, fin b => if b = 0 then nan else if 0 < b then posInf else negInf
  | negInf, fin b => if b = 0 then nan else if 0 < b then negInf else posInf
  | posInf, posInf => posInf
  | posInf, negInf => negInf
  | negInf, posInf => negInf
  | negInf, negInf => posInf
  | _, _ => nan

/-- The operator `/` of `float64`; a zero divisor counts as `+0`. -/
def div : F64 → F64 → F64
  | fin a, fin b =>
    if b = 0 then (if a = 0 then nan else if 0 < a then posInf else negInf)
    else ofRat (a / b)
  | fin _, posInf => fin 0
  | fin _, negInf => fin 0
  | posInf, fin b => if 0 ≤ b then posInf else negInf
  | negInf, fin b => if 0 ≤ b then negInf else posInf
  | _, _ => nan

/-- The operator `<` of `float64`: false when an operand is a NaN. -/
def lt : F64 → F64 → Bool
  | fin a, fin b => decide (a < b)
  | fin _, posInf => true
  | negInf, fin _ => true
  | negInf, posInf => true
  | _, _ => false

/-- The operator `<=` of `float64`: false when an operand is a NaN. -/
def le : F64 → F64 → Bool
  | fin a, fin b => decide (a ≤ b)
  | fin _, posInf => true
  | negInf, fin _ => true
  | negInf, posInf => true
  | posInf, posInf => true
  | negInf, negInf => true
  | _, _ => false

/-- The conversion `float64(n)` of an integer. -/
def ofInt (n : Int) : F64 := ofRat (n : ℚ)

/-- The conversion of a `float64` to `int`, `int64` or `time.Duration` as the
amd64 instruction `CVTTSD2SQ` performs it: the fraction is discarded, and a
value that does not fit (or an infinity, or a NaN) gives the smallest
`int64`. -/
def toInt64 : F64 → Int
  | fin q =>
    if truncate q < -9223372036854775808 ∨ 9223372036854775807 < truncate q then
      -9223372036854775808
    else truncate q
  | _ => -9223372036854775808

/-- The conversion of a `float64` to `uint64` as the compiler lowers it on
amd64: below `2^63` the signed conversion, reinterpreted; from `2^63` on the
signed conversion of `x - 2^63` with the top bit set. -/
def toUint64 (x : F64) : Nat :=
  if lt x (fin 9223372036854775808) then
    (toInt64 x % 18446744073709551616).toNat
  else
    (toInt64 (sub x (fin 9223372036854775808)) % 18446744073709551616).toNat
      ||| 9223372036854775808

end F64

/-- The method `Duration.Seconds` in `float64`: the whole seconds plus the rest
in nanoseconds divided by `1e9`. -/
def Duration.Seconds64 (d : Int) : F64 :=
  F64.add (F64.ofInt (Int.tdiv d Second))
    (F64.div (F64.ofInt (Int.tmod d Second)) (F64.fin 1000000000))

/-! ## The limiter in `float64` arithmetic -/

/-- The struct `limiter` (without its mutex), its floating fields being
`float64` values. -/
structure limiter64 where
  /-- bytes per second -/
  rate : F64
  /-- bytes -/
  burst : F64
  minPartial : Int
  /-- nanoseconds per byte -/
  rateCoef : F64
  lastTime : Int
  /-- bytes -/
  lastToken : F64
  deriving DecidableEq, Repr

namespace limiter64

/-- The zero value `&limiter{}`. -/
def zero : limiter64 :=
  { rate := .fin 0, burst := .fin 0, minPartial := 0, rateCoef := .fin 0, lastTime := 0,
    lastToken := .fin 0 }

/-- The method `limiter.set`, every floating operation rounded to `float64`. -/
def set (l : limiter64) (tc : Int) (rate : F64) (resolution maxWait : Int) :
    Except LimiterError limiter64 :=
  if F64.lt rate (.fin 0) then .error .negativeBitRate
  else if rate = .fin 0 then .error .zeroBitRate
  else if resolution < 0 then .error .negativeResolution
  else if resolution = 0 then .error .zeroResolution
  else if maxWait < 0 then .error .negativeMaxWait
  else if maxWait = 0 then .error .zeroMaxWait
  else
    let newRate := F64.div rate (.fin 8)
    let newBurst := F64.mul newRate (Duration.Seconds64 resolution)
    let newMinPartial := F64.toInt64 (F64.mul newRate (Duration.Seconds64 maxWait))
    if F64.toUint64 newBurst < 1 then .error .rateOrResolutionTooSmall
    else if newMinPartial < 1 then .error .rateOrMaxWaitTooSmall
    else
      let l1 :=
        if !Time.IsZero l.lastTime && !Time.IsZero tc then
          let l2 := { l with lastTime := tc }
          let l3 := { l2 with
            lastToken := F64.add l2.lastToken
              (F64.mul (Duration.Seconds64 (Time.Sub tc l2.lastTime)) l2.rate) }
          if F64.lt l3.burst l3.lastToken then { l3 with lastToken := l3.burst } else l3
        else l
      .ok { l1 with
        rate := newRate
        burst := newBurst
        minPartial := newMinPartial
        rateCoef := F64.div (.fin 1000000000) newRate }

/-- The method `limiter.refund`. -/
def refund (l : limiter64) (bc : Int) : limiter64 :=
  { l with lastToken := F64.add l.lastToken (F64.ofInt bc) }

/-- The method `limiter.request`, every floating operation rounded to
`float64`: the state after the call, the duration to wait and the number of
bytes allowed. -/
def request (l : limiter64) (tc : Int) (bc : Int) : limiter64 × Int × Int :=
  let allowed := F64.add l.lastToken
    (F64.mul l.rate (Duration.Seconds64 (Time.Sub tc l.lastTime)))
  let allowed := if F64.lt l.burst allowed then l.burst else allowed
  let allowedBytes := F64.toInt64 allowed
  if bc ≤ allowedBytes then
    ({ l with lastTime := tc, lastToken := F64.sub allowed (F64.ofInt bc) }, 0, bc)
  else if l.minPartial ≤ allowedBytes then
    ({ l with lastTime := tc, lastToken := F64.sub allowed (F64.ofInt allowedBytes) }, 0,
      allowedBytes)
  else
    let wsz := l.minPartial
    let wsz := if bc < wsz then bc else wsz
    let d := F64.toInt64 (F64.mul l.rateCoef (F64.sub (F64.ofInt wsz) allowed))
    ({ l with lastTime := Time.Add tc d, lastToken := .fin 0 }, d, wsz)

end limiter64

/-- The function `newLimiter`, in `float64`. -/
def newLimiter64 (rate : F64) (resolution maxWait : Int) : Except LimiterError limiter64 :=
  limiter64.zero.set 0 rate resolution maxWait

/-- The struct `LimiterReader` over an underlying reader of type `ρ`, its
limiter in `float64`. -/
structure LimiterReader64 (ρ : Type) where
  rd : ρ
  rate : F64
  resolution : Int
  maxWait : Int
  lim : limiter64
  closed : Bool

/-- The function `NewLimiterReaderWithConfig`, in `float64`; `none` is the nil
configuration. -/
def NewLimiterReaderWithConfig64 {ρ : Type} (rd : ρ) (rate : F64)
    (conf : Option LimiterConfig) : Except LimiterError (LimiterReader64 ρ) :=
  let conf := match conf with
    | none => DefaultLimiterConfig
    | some c => c
  match newLimiter64 rate conf.Resolution conf.MaxWait with
  | .error err => .error err
  | .ok lim =>
    .ok { rd := rd, rate := rate, resolution := conf.Resolution, maxWait := conf.MaxWait,
          lim := lim, closed := false }

/-- The function `NewLimiterReader`, in `float64`. -/
def NewLimiterReader64 {ρ : Type} (rd : ρ) (rate : F64) :
    Except LimiterError (LimiterReader64 ρ) :=
  NewLimiterReaderWithConfig64 rd rate none

/-- The struct `LimiterWriter` over an underlying writer of type `ω`, its
limiter in `float64`. -/
structure LimiterWriter64 (ω : Type) where
  wr : ω
  rate : F64
  resolution : Int
  maxWait : Int
  lim : limiter64
  closed : Bool

/-- The function `NewLimiterWriterWithConfig`, in `float64`; `none` is the nil
configuration. -/
def NewLimiterWriterWithConfig64 {ω : Type} (wr : ω) (rate : F64)
    (conf : Option LimiterConfig) : Except LimiterError (LimiterWriter64 ω) :=
  let conf := match conf with
    | none => DefaultLimiterConfig
    | some c => c
  match newLimiter64 rate conf.Resolution conf.MaxWait with
  | .error err => .error err
  | .ok lim =>
    .ok { wr := wr, rate := rate, resolution := conf.Resolution, maxWait := conf.MaxWait,
          lim := lim, closed := false }

/-- The function `NewLimiterWriter`, in `float64`. -/
def NewLimiterWriter64 {ω : Type} (wr : ω) (rate : F64) :
    Except LimiterError (LimiterWriter64 ω) :=
  NewLimiterWriterWithConfig64 wr rate none

/-- A finite `float64` value: an integer significand of at most 53 bits times a
power of two not below that of the subnormal numbers. -/
def Repr64 (f : ℚ) : Prop :=
  ∃ (M E : Int), |M| ≤ 9007199254740992 ∧ -1074 ≤ E ∧ f = (M : ℚ) * 2 ^ E

/-- A `float64` that is not below zero: a finite value `≥ 0`, `+Inf`, or a
NaN. -/
def F64.NotNeg : F64 → Prop
  | .fin v => 0 ≤ v
  | .negInf => False
  | _ => True

/-! ## Errors -/

/-- The call sites of `fmt.Errorf` outside `limiter.go`, and those of
`limiter.set` (one for each `LimiterError`). -/
inductive ErrorSite where
  | meterResolutionNotPositive
  | meterResolutionBelowMinimum
  | meterSampleNotPositive
  | meterSampleTooSmall
  | limiterSet (e : LimiterError)
  | writerClosed
  | writerZeroBytes
  deriving DecidableEq, Repr

/-- An `error` value: one of the three values `error.go` makes with
`errors.New`, an error of a collaborator (the underlying reader or writer), or
the result of `fmt.Errorf`, without or with a `%w` operand. -/
inductive GoError where
  | closed
  | zeroWrite
  | invalidParameter
  | external (id : Nat)
  | errorf (site : ErrorSite)
  | errorfWrap (site : ErrorSite) (wrapped : GoError)
  deriving DecidableEq, Repr

/-- The variable `ErrClosed`. -/
def ErrClosed : GoError := .closed

/-- The variable `ErrZeroWrite`. -/
def ErrZeroWrite : GoError := .zeroWrite

/-- The variable `ErrInvalidParameter`. -/
def ErrInvalidParameter : GoError := .invalidParameter

/-- The function `errors.Is`: the error is the target, or wraps an error that
matches it. -/
def errorsIs : GoError → GoError → Bool
  | .errorfWrap site wrapped, target =>
    decide (GoError.errorfWrap site wrapped = target) || errorsIs wrapped target
  | e, target => decide (e = target)

/-- The `error` value `limiter.set` returns at each of its `fmt.Errorf` call
sites: none of their format strings has a `%w` operand. -/
def LimiterError.toError (e : LimiterError) : GoError := .errorf (.limiterSet e)

/-! ## The meter -/

/-- The struct `meterItem`.  The pointers `next` and `prev` are the position in
the ring, see `meter`. -/
structure meterItem where
  vol : ℚ
  /-- offset from the start of the measurement, a multiple of the resolution -/
  start : Int
  /-- the field `end` -/
  end_ : Int
  deriving DecidableEq, Repr

/-- The zero value `&meterItem{}`. -/
def meterItem.zero : meterItem := { vol := 0, start := 0, end_ := 0 }

/-- The struct `meter` (without its mutex).  The ring of `meterItem`s that
`newMeter` links is the array `items` of `size` slots: the slot after `i` is
`next i` and the slot before it `prev i`; `cur`, `last` and `first` are slots,
`none` being the nil pointer. -/
structure meter where
  resolution : Int
  sample : Int
  size : Nat
  items : Nat → meterItem
  cur : Nat
  last : Option Nat
  first : Option Nat
  started : Bool
  closed : Bool
  startedAt : Int
  closedAt : Int
  /-- an `infounit.ByteCount`, a `uint64` -/
  totalBytes : Nat

/-- An `infounit.BitRate` as a method of the meter returns it: a number, an
infinity or the NaN. -/
inductive BitRate where
  | finite (bps : ℚ)
  | posInf
  | negInf
  | nan
  deriving DecidableEq, Repr

/-- The quotient `x / w` of two `float64` values as a bit rate: a division by
zero gives an infinity with the sign of `x`, and the NaN for `0 / 0`. -/
def BitRate.quotient (x w : ℚ) : BitRate :=
  if w = 0 then (if x = 0 then .nan else if 0 < x then .posInf else .negInf)
  else .finite (x / w)

/-- The constant `MinMeterResolution`. -/
def MinMeterResolution : Int := Millisecond * 100

/-- The constant `bpscoef`. -/
def bpscoef : ℚ := 8 * (Second : ℚ)

namespace meter

/-- The field `next` of the item in slot `i`. -/
def next (m : meter) (i : Nat) : Nat := (i + 1) % m.size

/-- The field `prev` of the item in slot `i`. -/
def prev (m : meter) (i : Nat) : Nat := (i + (m.size - 1)) % m.size

/-- The method `meter.start`. -/
def start (m : meter) (tc : Int) : meter :=
  if m.started then m
  else
    let m1 := { m with started := true, startedAt := tc }
    { m1 with
      items := Function.update m1.items m1.cur
        { m1.items m1.cur with start := 0, end_ := Time.Add m1.startedAt m1.resolution } }

/-- The method `meter.close`. -/
def close (m : meter) (tc : Int) : meter :=
  if m.closed then m else { m with closed := true, closedAt := tc }

/-- The method `meter.record`.  The sum `m.cur.start + m.resolution` is an
`int64` and wraps around, and so does the `uint64` sum `m.totalBytes + b`. -/
def record (m : meter) (tc : Int) (b : Nat) : meter :=
  if tc < (m.items m.cur).end_ then
    { m with
      items := Function.update m.items m.cur
        { m.items m.cur with vol := (m.items m.cur).vol + (b : ℚ) }
      totalBytes := (m.totalBytes + b) % 18446744073709551616 }
  else
    let m1 := { m with last := some m.cur, cur := m.next m.cur }
    let m2 := { m1 with
      first := match m1.first with
        | none => m1.last
        | some f => if f = m1.cur then some (m1.next f) else some f }
    let start := Int.tdiv (Time.Sub tc m2.startedAt) m2.resolution * m2.resolution
    { m2 with
      items := Function.update m2.items m2.cur
        { vol := (b : ℚ), start := start,
          end_ := Time.Add m2.startedAt (wrap64 (start + m2.resolution)) }
      totalBytes := (m2.totalBytes + b) % 18446744073709551616 }

/-- The loop of `meter.bitRate`: from slot `i` backwards, the volumes of the
items whose start is not before `sampleStart` are added to `sum`, up to and
including the item `first`.  `none` when `fuel` iterations were not enough. -/
def sumLoop (m : meter) (sampleStart : Int) : Nat → Nat → ℚ → Option ℚ
  | 0, _, _ => none
  | fuel + 1, i, sum =>
    if sampleStart ≤ (m.items i).start then
      if some i = m.first then some (sum + (m.items i).vol)
      else sumLoop m sampleStart fuel (m.prev i) (sum + (m.items i).vol)
    else some sum

/-- The method `meter.bitRate`, its loop running for at most `fuel`
iterations.  The difference `sampleEnd - m.sample` is an `int64` and wraps
around. -/
def bitRate (fuel : Nat) (m : meter) (tc : Int) : Option BitRate :=
  match m.last with
  | none => some (.finite 0)
  | some last =>
    let after := ¬ tc < (m.items m.cur).end_
    let newest := if after then m.cur else last
    let sampleEnd :=
      if after then Int.tdiv (Time.Sub tc m.startedAt) m.resolution * m.resolution
      else (m.items m.cur).start
    let sampleStart :=
      if wrap64 (sampleEnd - m.sample) < 0 then 0 else wrap64 (sampleEnd - m.sample)
    let sampleWidth := if wrap64 (sampleEnd - m.sample) < 0 then sampleEnd else m.sample
    (sumLoop m sampleStart fuel newest 0).map
      (fun sum => BitRate.quotient (sum * bpscoef) (sampleWidth : ℚ))

/-- The method `meter.total`. -/
def total (m : meter) (tc : Int) : Nat × Int × BitRate :=
  match m.last with
  | none => (0, 0, .finite 0)
  | some _ =>
    let tc := if m.closed then m.closedAt else tc
    let b := m.totalBytes
    let d := Time.Sub tc m.startedAt
    if b = 0 then (0, d, .finite 0)
    else if d = 0 then (b, d, .posInf)
    else (b, d, .finite ((b : ℚ) * bpscoef / (d : ℚ)))

/-- A sequence of `record` calls, each given as (time, bytes), run from left to
right. -/
def recordAll (m : meter) (records : List (Int × Nat)) : meter :=
  records.foldl (fun m x => m.record x.1 x.2) m

end meter

/-- The function `newMeter`. -/
def newMeter (resolution sample : Int) : Except GoError meter :=
  if resolution ≤ 0 then
    .error (.errorfWrap .meterResolutionNotPositive ErrInvalidParameter)
  else if resolution < MinMeterResolution then
    .error (.errorfWrap .meterResolutionBelowMinimum ErrInvalidParameter)
  else if sample ≤ 0 then
    .error (.errorfWrap .meterSampleNotPositive ErrInvalidParameter)
  else
    let n := Int.tdiv sample resolution
    if n < 2 then .error (.errorfWrap .meterSampleTooSmall ErrInvalidParameter)
    else
      .ok { resolution := resolution, sample := sample, size := n.toNat + 1,
            items := fun _ => meterItem.zero, cur := 0, last := none, first := none,
            started := false, closed := false, startedAt := 0, closedAt := 0,
            totalBytes := 0 }

/-- The struct `MeterConfig`. -/
structure MeterConfig where
  Resolution : Int
  Sample : Int
  deriving DecidableEq, Repr

/-- The variable `DefaultMeterConfig`: 500ms resolution, 3s sample. -/
def DefaultMeterConfig : MeterConfig :=
  { Resolution := Millisecond * 500, Sample := Second * 3 }

/-- The struct `MeterReader` over an underlying reader of type `ρ`. -/
structure MeterReader (ρ : Type) where
  rd : ρ
  resolution : Int
  sample : Int
  met : meter
  started : Bool
  closed : Bool

/-- The function `NewMeterReaderWithConfig`; `none` is the nil configuration. -/
def NewMeterReaderWithConfig {ρ : Type} (rd : ρ) (conf : Option MeterConfig) :
    Except GoError (MeterReader ρ) :=
  let conf := match conf with
    | none => DefaultMeterConfig
    | some c => c
  match newMeter conf.Resolution conf.Sample with
  | .error err => .error err
  | .ok met =>
    .ok { rd := rd, resolution := conf.Resolution, sample := conf.Sample, met := met,
          started := false, closed := false }

/-- The function `NewMeterReader`; the result `.error err` is `panic(err)`. -/
def NewMeterReader {ρ : Type} (rd : ρ) : Except GoError (MeterReader ρ) :=
  match NewMeterReaderWithConfig rd none with
  | .error err => .error err
  | .ok r => .ok r

/-- The struct `MeterWriter` over an underlying writer of type `ω`. -/
structure MeterWriter (ω : Type) where
  wr : ω
  resolution : Int
  sample : Int
  met : meter
  started : Bool
  closed : Bool

/-- The function `NewMeterWriterWithConfig`; `none` is the nil configuration. -/
def NewMeterWriterWithConfig {ω : Type} (wr : ω) (conf : Option MeterConfig) :
    Except GoError (MeterWriter ω) :=
  let conf := match conf with
    | none => DefaultMeterConfig
    | some c => c
  match newMeter conf.Resolution conf.Sample with
  | .error err => .error err
  | .ok met =>
    .ok { wr := wr, resolution := conf.Resolution, sample := conf.Sample, met := met,
          started := false, closed := false }

/-- The function `NewMeterWriter`; the result `.error err` is `panic(err)`. -/
def NewMeterWriter {ω : Type} (wr : ω) : Except GoError (MeterWriter ω) :=
  match NewMeterWriterWithConfig wr none with
  | .error err => .error err
  | .ok w => .ok w

/-! ## Reading and writing through the limiter -/

/-- The method `LimiterReader.close`.  `closer` is the `Close` method of the
underlying reader when it implements `io.Closer`.  Closing the channel
`closedChan` is the assignment `closed := true`. -/
def LimiterReader.close {ρ : Type} (closer : Option (ρ → ρ × Option GoError))
    (r : LimiterReader ρ) (chain : Bool) : LimiterReader ρ × Option GoError :=
  if r.closed then (r, none)
  else
    let r1 := { r with closed := true }
    if !chain then (r1, none)
    else
      match closer with
      | none => (r1, none)
      | some c => ({ r1 with rd := (c r1.rd).1 }, (c r1.rd).2)

/-- The method `LimiterReader.Close`. -/
def LimiterReader.Close {ρ : Type} (closer : Option (ρ → ρ × Option GoError))
    (r : LimiterReader ρ) : LimiterReader ρ × Option GoError :=
  LimiterReader.close closer r true

/-- The method `LimiterReader.CloseSingle`. -/
def LimiterReader.CloseSingle {ρ : Type} (closer : Option (ρ → ρ × Option GoError))
    (r : LimiterReader ρ) : LimiterReader ρ × Option GoError :=
  LimiterReader.close closer r false

/-- The method `LimiterReader.Read` for a buffer of `len` bytes, called at time
`tc`.  `read` is the `Read` method of the underlying reader: from its state and
the length of the buffer it is given, its new state, the count it returns and
its error.  A reader whose `closedChan` is closed when the wait begins takes
that case of the `select`; a reader that is open waits for the timer. -/
def LimiterReader.Read {ρ : Type} (read : ρ → Nat → ρ × Int × Option GoError)
    (r : LimiterReader ρ) (tc : Int) (len : Nat) : LimiterReader ρ × Int × Option GoError :=
  let q := r.lim.request tc (len : Int)
  if 0 < q.2.1 ∧ r.closed = true then ({ r with lim := q.1 }, 0, some ErrClosed)
  else
    let io := read r.rd q.2.2.toNat
    let lim := if io.2.1 < q.2.2 then q.1.refund (q.2.2 - io.2.1) else q.1
    ({ r with lim := lim, rd := io.1 }, io.2.1, io.2.2)

/-- The method `LimiterWriter.close`, as `LimiterReader.close`. -/
def LimiterWriter.close {ω : Type} (closer : Option (ω → ω × Option GoError))
    (w : LimiterWriter ω) (chain : Bool) : LimiterWriter ω × Option GoError :=
  if w.closed then (w, none)
  else
    let w1 := { w with closed := true }
    if !chain then (w1, none)
    else
      match closer with
      | none => (w1, none)
      | some c => ({ w1 with wr := (c w1.wr).1 }, (c w1.wr).2)

/-- The method `LimiterWriter.Close`. -/
def LimiterWriter.Close {ω : Type} (closer : Option (ω → ω × Option GoError))
    (w : LimiterWriter ω) : LimiterWriter ω × Option GoError :=
  LimiterWriter.close closer w true

/-- The method `LimiterWriter.CloseSingle`. -/
def LimiterWriter.CloseSingle {ω : Type} (closer : Option (ω → ω × Option GoError))
    (w : LimiterWriter ω) : LimiterWriter ω × Option GoError :=
  LimiterWriter.close closer w false

/-- The loop of `LimiterWriter.Write`, entered with the bytes `p` still to
write and the count `written`.  `write` is the `Write` method of the underlying
writer: from its state and the bytes it is given, its new state, the count it
returns and its error.  `clock i` is what `time.Now()` reads in iteration `i`
of the whole call.  The slice `p[:abc]` is `p.take abc`.  `none` when `fuel`
iterations were not enough. -/
def LimiterWriter.writeLoop {ω : Type} (write : ω → List UInt8 → ω × Int × Option GoError)
    (clock : Nat → Int) :
    Nat → LimiterWriter ω → Nat → List UInt8 → Int →
      Option (LimiterWriter ω × Int × Option GoError)
  | 0, _, _, _, _ => none
  | fuel + 1, w, i, p, written =>
    if 0 < p.length then
      let q := w.lim.request (clock i) (p.length : Int)
      if 0 < q.2.1 ∧ w.closed = true then
        some ({ w with lim := q.1 }, written, some (.errorf .writerClosed))
      else
        let io := write w.wr (p.take q.2.2.toNat)
        let lim := if io.2.1 < q.2.2 then q.1.refund (q.2.2 - io.2.1) else q.1
        let w1 := { w with lim := lim, wr := io.1 }
        match io.2.2 with
        | some err => some (w1, written, some err)
        | none =>
          if io.2.1 = 0 then some (w1, written, some (.errorf .writerZeroBytes))
          else
            LimiterWriter.writeLoop write clock fuel w1 (i + 1) (p.drop io.2.1.toNat)
              (written + io.2.1)
    else some (w, written, none)

/-- The method `LimiterWriter.Write`. -/
def LimiterWriter.Write {ω : Type} (write : ω → List UInt8 → ω × Int × Option GoError)
    (clock : Nat → Int) (fuel : Nat) (w : LimiterWriter ω) (p : List UInt8) :
    Option (LimiterWriter ω × Int × Option GoError) :=
  LimiterWriter.writeLoop write clock fuel w 0 p 0

/-- An underlying writer that keeps a log: the bytes it has accepted in each
call, in the order of the calls. -/
def logged {ω : Type} (write : ω → List UInt8 → ω × Int × Option GoError) :
    ω × List (List UInt8) → List UInt8 → (ω × List (List UInt8)) × Int × Option GoError :=
  fun s p =>
    ((((write s.1 p).1), s.2 ++ [p.take (write s.1 p).2.1.toNat]), (write s.1 p).2.1,
      (write s.1 p).2.2)

/-! ## Driving the limiter -/

/-- A sequence of `request` calls, each given as (time of the call, bytes
requested), run from left to right.  For every call the result lists the time at
which the grant takes effect (the time of the call plus the returned wait) and
the number of bytes granted. -/
def requests : limiter → List (Int × Int) → List (Int × Int)
  | _, [] => []
  | l, (tc, bc) :: rest =>
    let r := l.request tc bc
    (Time.Add tc r.2.1, r.2.2) :: requests r.1 rest

/-- Sum of the bytes of the grants that take effect in the closed time window
from `lo` to `hi`. -/
def grantedWithin (grants : List (Int × Int)) (lo hi : Int) : Int :=
  ((grants.filter (fun g => decide (lo ≤ g.1 ∧ g.1 ≤ hi))).map Prod.snd).sum

/-- The loop of `LimiterWriter.Write` seen from the limiter, against a sink that
takes every byte it is offered and a clock that reads exactly the time of the
previous request plus its wait: while bytes are outstanding, request all of
them, wait, and transfer what was allowed; a transfer of zero bytes ends the
loop.  The result lists the wait and the grant of every request; `fuel` bounds
the number of requests. -/
def transfer : Nat → limiter → Int → Int → List (Int × Int)
  | 0, _, _, _ => []
  | fuel + 1, l, tc, outstanding =>
    if 0 < outstanding then
      let r := l.request tc outstanding
      if r.2.2 = 0 then [(r.2.1, r.2.2)]
      else (r.2.1, r.2.2) :: transfer fuel r.1 (Time.Add tc r.2.1) (outstanding - r.2.2)
    else []

/-- Back-to-back requests of `n` bytes each, the first one at `t0` and every
later one at the moment the previous wait has elapsed.  After `k` requests:
the state of the limiter, the time at which the last grant takes effect (`t0`
when there was none) and the total number of bytes granted. -/
def backToBack (n : Int) (l : limiter) (t0 : Int) : Nat → limiter × Int × Int
  | 0 => (l, t0, 0)
  | k + 1 =>
    let s := backToBack n l t0 k
    let r := s.1.request s.2.1 n
    (r.1, Time.Add s.2.1 r.2.1, s.2.2 + r.2.2)

/-- A wall-clock reading in the year 2026, in nanoseconds since the zero time. -/
def clock2026 : Int := 63900000000000000000

/-! ## Concrete limiters -/

/-- The limiter `newLimiter` builds for 16 bit/s with the default configuration:
2 bytes per second, a burst of 2 bytes, partial transfers of at least 1 byte. -/
def limiter16 : limiter :=
  { rate := 2, burst := 2, minPartial := 1, rateCoef := 500000000, lastTime := 0, lastToken := 0 }

/-- The 16 bit/s limiter with `lastTime = t` and `lastToken = k`. -/
def limiter16At (t : Int) (k : ℚ) : limiter :=
  { limiter16 with lastTime := t, lastToken := k }

/-- The limiter `newLimiter` builds for 16 bit/s with a resolution of 1s and a
max-wait of 2s: a burst of 2 bytes, partial transfers of at least 4 bytes. -/
def limiter16Wait2 : limiter :=
  { rate := 2, burst := 2, minPartial := 4, rateCoef := 500000000, lastTime := 0, lastToken := 0 }

/-- The limiter `newLimiter` builds for 1 kbit/s with the default configuration:
125 bytes per second, a burst of 125 bytes, partial transfers of at least 62
bytes. -/
def limiter1k : limiter :=
  { rate := 125, burst := 125, minPartial := 62, rateCoef := 8000000, lastTime := 0,
    lastToken := 0 }

/-- The limiter `newLimiter` builds in `float64` for 16 bit/s with the default
configuration: 2 bytes per second, a burst of 2 bytes, a minimum partial size of
1 byte. -/
def limiter64_16 : limiter64 :=
  { rate := .fin 2, burst := .fin 2, minPartial := 1, rateCoef := .fin 500000000,
    lastTime := 0, lastToken := .fin 0 }

/-- The limiter `newLimiter` builds in `float64` for 400 bit/s with the default
configuration: 50 bytes per second, a burst of 50 bytes, a minimum partial size
of 25 bytes. -/
def limiter64_400 : limiter64 :=
  { rate := .fin 50, burst := .fin 50, minPartial := 25, rateCoef := .fin 20000000,
    lastTime := 0, lastToken := .fin 0 }

/-- The limiter of 400 bit/s with the default configuration in exact arithmetic:
50 bytes per second, a burst of 50 bytes, a minimum partial size of 25 bytes. -/
def limiter400 : limiter :=
  { rate := 50, burst := 50, minPartial := 25, rateCoef := 20000000, lastTime := 0,
    lastToken := 0 }

/-! ## Concrete meters and streams -/

/-- The meter `newMeter` builds for a resolution of 1s and a sample of 3s, as in
`TestMeter_test1`: a ring of four buckets. -/
def meter1s3s : meter :=
  { resolution := 1000000000, sample := 3000000000, size := 4,
    items := fun _ => meterItem.zero, cur := 0, last := none, first := none,
    started := false, closed := false, startedAt := 0, closedAt := 0, totalBytes := 0 }

/-- The meter `newMeter` builds for a resolution of `4e18` ns and a sample of
`8e18` ns: a ring of three buckets. -/
def meter4e18 : meter :=
  { resolution := 4000000000000000000, sample := 8000000000000000000, size := 3,
    items := fun _ => meterItem.zero, cur := 0, last := none, first := none,
    started := false, closed := false, startedAt := 0, closedAt := 0, totalBytes := 0 }

/-- An underlying reader that fills every buffer it is given; its state counts
the calls of its `Read`. -/
def countingRead : Nat → Nat → Nat × Int × Option GoError :=
  fun s len => (s + 1, (len : Int), none)

/-- An underlying writer that accepts all the bytes it is given; its state
counts the calls of its `Write`. -/
def countingWrite : Nat → List UInt8 → Nat × Int × Option GoError :=
  fun s p => (s + 1, (p.length : Int), none)

/-- The reader `NewLimiterReader` builds for 16 bit/s over the counting reader. -/
def reader16 : LimiterReader Nat :=
  { rd := 0, rate := 16, resolution := 1000000000, maxWait := 500000000, lim := limiter16,
    closed := false }

/-- The writer `NewLimiterWriter` builds for 16 bit/s over the counting writer
with its log. -/
def writer16 : LimiterWriter (Nat × List (List UInt8)) :=
  { wr := (0, []), rate := 16, resolution := 1000000000, maxWait := 500000000,
    lim := limiter16, closed := false }

/-! ## The window of `bitRate` -/

namespace meter

/-- The local variable `sampleEnd` of `bitRate` when the loop begins. -/
def sampleEnd (m : meter) (tc : Int) : Int :=
  if ¬ tc < (m.items m.cur).end_ then
    Int.tdiv (Time.Sub tc m.startedAt) m.resolution * m.resolution
  else (m.items m.cur).start

/-- The local variable `sampleStart` of `bitRate` when the loop begins. -/
def sampleStart (m : meter) (tc : Int) : Int :=
  if wrap64 (m.sampleEnd tc - m.sample) < 0 then 0 else wrap64 (m.sampleEnd tc - m.sample)

/-- The local variable `sampleWidth` of `bitRate`, the divisor of its result. -/
def sampleWidth (m : meter) (tc : Int) : Int :=
  if wrap64 (m.sampleEnd tc - m.sample) < 0 then m.sampleEnd tc else m.sample

/-- The local variable `newest` of `bitRate` when the loop begins, `last` being
the bucket `m.last` points to. -/
def newest (m : meter) (tc : Int) (last : Nat) : Nat :=
  if ¬ tc < (m.items m.cur).end_ then m.cur else last

end meter

/-- The starts of a history are multiples of the resolution, not negative, and
one resolution apart at least; every bucket ends within a `time.Duration` of the
start of the measurement; the volumes are not negative. -/
structure HistOrd (r : Int) (hist : List (Int × ℚ)) : Prop where
  r_pos : 0 < r
  chain : List.Chain' (fun a b => b.1 + r ≤ a.1) hist
  multiple : ∀ x ∈ hist, r ∣ x.1 ∧ 0 ≤ x.1 ∧ x.1 + r ≤ maxDuration
  vol_nonneg : ∀ x ∈ hist, 0 ≤ x.2

/-! ## Sequences of calls to the limiter -/

/-- A call of one of the two methods that move the tokens of a limiter. -/
inductive LimiterCall where
  | request (tc : Int) (bc : Int)
  | refund (bc : Int)
  deriving DecidableEq, Repr

/-- The state of the limiter after one call. -/
def limiter.call (l : limiter) : LimiterCall → limiter
  | .request tc bc => (l.request tc bc).1
  | .refund bc => l.refund bc

/-- The state of the limiter after a sequence of calls, from left to right. -/
def limiter.calls (l : limiter) (cs : List LimiterCall) : limiter :=
  cs.foldl limiter.call l

/-- A sequence of calls made in turn: every `request` asks for a non-negative
number of bytes at a time that is not earlier than the `lastTime` the limiter
has at that moment (the wait of the previous request has elapsed), and every
`refund` returns a non-negative number of bytes. -/
def limiter.InTurn : limiter → List LimiterCall → Prop
  | _, [] => True
  | l, .request tc bc :: rest => l.lastTime ≤ tc ∧ 0 ≤ bc ∧ limiter.InTurn (l.request tc bc).1 rest
  | l, .refund bc :: rest => 0 ≤ bc ∧ limiter.InTurn (l.refund bc) rest

/-! ## Specification-side definitions -/

/-- The rejection condition of `set` in the words of the specification: a
non-positive rate, resolution or max-wait, or a derived burst
(`rate / 8` bytes per second times the resolution in seconds) or a derived
minimum partial size (`rate / 8` times the max-wait in seconds) that truncates
to less than one byte. -/
def rejected (rate : ℚ) (resolution maxWait : Int) : Prop :=
  rate ≤ 0 ∨ resolution ≤ 0 ∨ maxWait ≤ 0 ∨
    truncate (rate / 8 * ((resolution : ℚ) / 1000000000)) < 1 ∨
    truncate (rate / 8 * ((maxWait : ℚ) / 1000000000)) < 1

instance (rate : ℚ) (resolution maxWait : Int) :
    Decidable (rejected rate resolution maxWait) := by
  unfold rejected
  infer_instance

/-- The tokens available at time `now` in the words of the specification:
`min(burst, lastToken + rate × (now − lastTime))`, the difference of the two
instants being the duration `Time.Sub` returns, taken in seconds. -/
def limiter.available (l : limiter) (now : Int) : ℚ :=
  min l.burst (l.lastToken + l.rate * ((Time.Sub now l.lastTime : Int) : ℚ) / 1000000000)

/-- The three-tier policy of `request` in the words of the specification. -/
def requestSpec (l : limiter) (now : Int) (n : Int) : limiter × Int × Int :=
  let available := l.available now
  let a := truncate available
  if n ≤ a then
    ({ l with lastToken := available - (n : ℚ), lastTime := now }, 0, n)
  else if l.minPartial ≤ a then
    ({ l with lastToken := available - (a : ℚ), lastTime := now }, 0, a)
  else
    let w := min n l.minPartial
    let d := truncate (((w : ℚ) - available) / l.rate * 1000000000)
    ({ l with lastToken := 0, lastTime := now + d }, d, w)

/-- The smaller of two `float64` values, as `if a < b then a else b`. -/
def F64.min (a b : F64) : F64 := if F64.lt a b then a else b

/-- The number of bytes `set` derives from a rate in bit/s and a duration:
`rate / 8` bytes per second times the duration in seconds, each operation
rounded to `float64`. -/
def derived64 (rate : F64) (d : Int) : F64 :=
  F64.mul (F64.div rate (.fin 8)) (Duration.Seconds64 d)

/-- The rejection condition of `set` in the words of the specification, the
derived sizes being computed in `float64`: a rate that is not above zero, a
non-positive resolution or max-wait, a derived burst below one byte, or a
derived minimum partial size that is not at least one byte and below `2^63`
(the conversion to `int` of a larger value does not give that value). -/
def rejected64 (rate : F64) (resolution maxWait : Int) : Prop :=
  F64.lt (.fin 0) rate = false ∨ resolution ≤ 0 ∨ maxWait ≤ 0 ∨
    F64.lt (derived64 rate resolution) (.fin 1) = true ∨
    ¬ (F64.le (.fin 1) (derived64 rate maxWait) = true ∧
      F64.lt (derived64 rate maxWait) (.fin 9223372036854775808) = true)

/-- The tokens available at time `now` in the words of the specification,
`min(burst, lastToken + rate × (now − lastTime))`, computed in `float64`; the
difference of the two instants is the duration `Time.Sub` returns, taken in
seconds. -/
def limiter64.available (l : limiter64) (now : Int) : F64 :=
  F64.min l.burst
    (F64.add l.lastToken (F64.mul l.rate (Duration.Seconds64 (Time.Sub now l.lastTime))))

/-- The three-tier policy of `request` in the words of the specification,
computed in `float64`: the truncated count `a` is the conversion of the
available tokens to `int`, and the wait is the stored `rateCoef` (nanoseconds
per byte) times the missing tokens, converted to a `time.Duration`. -/
def requestSpec64 (l : limiter64) (now : Int) (n : Int) : limiter64 × Int × Int :=
  let available := l.available now
  let a := F64.toInt64 available
  if n ≤ a then
    ({ l with lastToken := F64.sub available (F64.ofInt n), lastTime := now }, 0, n)
  else if l.minPartial ≤ a then
    ({ l with lastToken := F64.sub available (F64.ofInt a), lastTime := now }, 0, a)
  else
    let w := min n l.minPartial
    let d := F64.toInt64 (F64.mul l.rateCoef (F64.sub (F64.ofInt w) available))
    ({ l with lastToken := .fin 0, lastTime := now + d }, d, w)

/-- The bit rate of the window in the words of the specification, for a meter
started at `t0` that was fed `records`, queried at `tc`: with `E` the time since
`t0` truncated down to a multiple of the resolution and `W = min(sample, E)`,
eight times the bytes of the records whose offset from `t0` lies in
`[E - W, E)`, divided by `W` in seconds. -/
def bitRateSpec (resolution sample t0 : Int) (records : List (Int × Nat)) (tc : Int) : ℚ :=
  let E := (tc - t0) / resolution * resolution
  let W := min sample E
  let S := ((records.filter
    (fun x => decide (E - W ≤ x.1 - t0 ∧ x.1 - t0 < E))).map (fun x => (x.2 : ℚ))).sum
  8 * S / ((W : ℚ) / 1000000000)

/-- The bytes of the records that fall in the interval of one resolution that
begins `k` resolutions after `t0`. -/
def intervalBytes (resolution t0 : Int) (records : List (Int × Nat)) (k : Nat) : Nat :=
  ((records.filter (fun x => decide (t0 + (k : Int) * resolution ≤ x.1 ∧
    x.1 < t0 + ((k : Int) + 1) * resolution))).map Prod.snd).sum

/-! ## The history of the buckets

The buckets a meter has labelled so far, the newest first, each as (start
offset, volume), whether or not the ring still holds them.  The history is only
used in proofs. -/

/-- The history after one more `record`: the bytes go to the newest bucket
while the time is before its end, else a new bucket is labelled. -/
def histRecord (t0 r : Int) (hist : List (Int × ℚ)) (x : Int × Nat) : List (Int × ℚ) :=
  match hist with
  | [] => []
  | (s, v) :: rest =>
    if x.1 < t0 + s + r then (s, v + (x.2 : ℚ)) :: rest
    else ((x.1 - t0) / r * r, (x.2 : ℚ)) :: (s, v) :: rest

/-- The volumes of the buckets of a history whose start satisfies `P`. -/
def volSum (P : Int → Bool) (hist : List (Int × ℚ)) : ℚ :=
  ((hist.filter (fun x => P x.1)).map Prod.snd).sum

/-- The bytes of the records whose bucket (the time since `t0` truncated down to
a multiple of `r`) satisfies `P`. -/
def recSum (t0 r : Int) (P : Int → Bool) (records : List (Int × Nat)) : ℚ :=
  ((records.filter (fun x => P ((x.1 - t0) / r * r))).map (fun x => (x.2 : ℚ))).sum

/-- The loop of `bitRate` on a history: the volumes of at most `budget` buckets
from the newest on, as long as their start is not before `ss`. -/
def histLoop (ss : Int) : Nat → List (Int × ℚ) → ℚ → ℚ
  | 0, _, acc => acc
  | _ + 1, [], acc => acc
  | n + 1, x :: rest, acc =>
    if ss ≤ x.1 then (if n = 0 then acc + x.2 else histLoop ss n rest (acc + x.2)) else acc

/-- The ring of the meter holds the newest buckets of the history: bucket number
`j` (in the order of labelling, from 0) is in slot `j % size`. -/
structure Sim (m : meter) (t0 r : Int) (hist : List (Int × ℚ)) : Prop where
  size_ge : 3 ≤ m.size
  resolution_eq : m.resolution = r
  startedAt_eq : m.startedAt = t0
  length_pos : 0 < hist.length
  cur_eq : m.cur = (hist.length - 1) % m.size
  last_eq : m.last = if 2 ≤ hist.length then some ((hist.length - 2) % m.size) else none
  first_eq : m.first =
    if 2 ≤ hist.length then some ((hist.length - min hist.length m.size) % m.size) else none
  items_eq : ∀ k x, hist[k]? = some x → k < m.size →
    m.items ((hist.length - 1 - k) % m.size) = { vol := x.2, start := x.1, end_ := t0 + x.1 + r }

/-- The starts of a history are multiples of the resolution, not negative, one
resolution apart at least, and the newest bucket does not begin after `lo`, the
time of the last record. -/
structure HistInv (t0 r : Int) (hist : List (Int × ℚ)) (lo : Int) : Prop where
  r_pos : 0 < r
  chain : List.Chain' (fun a b => b.1 + r ≤ a.1) hist
  multiple : ∀ x ∈ hist, r ∣ x.1 ∧ 0 ≤ x.1
  head_le : ∀ x ∈ hist.head?, t0 + x.1 ≤ lo

/-! ## Invariant of the configuration -/

/-- The configuration a successful `set` leaves behind, as far as the accounting
of `request` depends on it. -/
def Configured (l : limiter) : Prop :=
  0 < l.rate ∧ l.rateCoef = 1000000000 / l.rate ∧ 1 ≤ l.minPartial ∧ 0 < l.burst

/-! ## Basic facts about the conversions -/

theorem truncate_of_nonneg {q : ℚ} (h : 0 ≤ q) : truncate q = ⌊q⌋ := by
  unfold truncate
  rw [Rat.floor_def, Int.tdiv_eq_ediv (Rat.num_nonneg.mpr h) (Int.natCast_nonneg _)]

theorem truncate_neg (q : ℚ) : truncate (-q) = -truncate q := by
  simp [truncate]

theorem truncate_of_nonpos {q : ℚ} (h : q ≤ 0) : truncate q = ⌈q⌉ := by
  have h1 : truncate (-q) = ⌊-q⌋ := truncate_of_nonneg (by linarith)
  rw [truncate_neg, Int.floor_neg] at h1
  linarith

theorem truncate_nonneg {q : ℚ} (h : 0 ≤ q) : 0 ≤ truncate q := by
  rw [truncate_of_nonneg h]
  exact Int.floor_nonneg.mpr h

theorem truncate_nonpos {q : ℚ} (h : q ≤ 0) : truncate q ≤ 0 := by
  rw [truncate_of_nonpos h]
  exact Int.ceil_le.mpr (by simpa using h)

theorem truncate_le {q : ℚ} (h : 0 ≤ q) : (truncate q : ℚ) ≤ q := by
  rw [truncate_of_nonneg h]
  exact Int.floor_le q

theorem lt_truncate_add_one (q : ℚ) : q < (truncate q : ℚ) + 1 := by
  rcases le_total 0 q with h | h
  · rw [truncate_of_nonneg h]
    exact Int.lt_floor_add_one q
  · rw [truncate_of_nonpos h]
    have := Int.le_ceil q
    linarith

theorem truncate_lt_one_iff (q : ℚ) : truncate q < 1 ↔ q < 1 := by
  constructor
  · intro h
    have h1 := lt_truncate_add_one q
    have h2 : (truncate q : ℚ) ≤ 0 := by exact_mod_cast Int.lt_add_one_iff.mp h
    linarith
  · intro h
    rcases le_total 0 q with h0 | h0
    · rw [truncate_of_nonneg h0]
      exact Int.floor_lt.mpr (by simpa using h)
    · have := truncate_nonpos h0
      omega

/-- Evaluation of `truncate` at a non-negative value, from the two bounds. -/
theorem truncate_eq_of_bounds {q : ℚ} {k : Int} (h0 : 0 ≤ k) (h1 : (k : ℚ) ≤ q)
    (h2 : q < (k : ℚ) + 1) : truncate q = k := by
  have hq : 0 ≤ q := le_trans (by exact_mod_cast h0) h1
  rw [truncate_of_nonneg hq]
  exact Int.floor_eq_iff.mpr ⟨h1, h2⟩

theorem truncate_intCast (k : Int) : truncate (k : ℚ) = k := by
  simp [truncate]

theorem Seconds_eq (d : Int) : Duration.Seconds d = (d : ℚ) / 1000000000 := by
  unfold Duration.Seconds Second
  have h := Int.tmod_add_tdiv d 1000000000
  have h' : ((Int.tmod d 1000000000 : Int) : ℚ) + 1000000000 * ((Int.tdiv d 1000000000 : Int) : ℚ)
      = (d : ℚ) := by exact_mod_cast h
  rw [← h']
  ring

theorem Sub_self (t : Int) : Time.Sub t t = 0 := by
  simp [Time.Sub, minDuration, maxDuration]

theorem truncate_zero : truncate 0 = 0 := by simp [truncate]

/-! ## Validation of the parameters -/

theorem set_error_iff_rejected (l : limiter) (tc : Int) (rate : ℚ)
    (resolution maxWait : Int) :
    (∃ e, l.set tc rate resolution maxWait = .error e) ↔ rejected rate resolution maxWait := by
  unfold rejected
  rw [← Seconds_eq, ← Seconds_eq]
  unfold limiter.set ByteCount
  by_cases h1 : rate < 0
  · rw [if_pos h1]
    exact ⟨fun _ => Or.inl h1.le, fun _ => ⟨_, rfl⟩⟩
  rw [if_neg h1]
  by_cases h2 : rate = 0
  · rw [if_pos h2]
    exact ⟨fun _ => Or.inl h2.le, fun _ => ⟨_, rfl⟩⟩
  rw [if_neg h2]
  by_cases h3 : resolution < 0
  · rw [if_pos h3]
    exact ⟨fun _ => Or.inr (Or.inl h3.le), fun _ => ⟨_, rfl⟩⟩
  rw [if_neg h3]
  by_cases h4 : resolution = 0
  · rw [if_pos h4]
    exact ⟨fun _ => Or.inr (Or.inl h4.le), fun _ => ⟨_, rfl⟩⟩
  rw [if_neg h4]
  by_cases h5 : maxWait < 0
  · rw [if_pos h5]
    exact ⟨fun _ => Or.inr (Or.inr (Or.inl h5.le)), fun _ => ⟨_, rfl⟩⟩
  rw [if_neg h5]
  by_cases h6 : maxWait = 0
  · rw [if_pos h6]
    exact ⟨fun _ => Or.inr (Or.inr (Or.inl h6.le)), fun _ => ⟨_, rfl⟩⟩
  rw [if_neg h6]
  by_cases h7 : truncate (rate / 8 * Duration.Seconds resolution) < 1
  · rw [if_pos h7]
    exact ⟨fun _ => Or.inr (Or.inr (Or.inr (Or.inl h7))), fun _ => ⟨_, rfl⟩⟩
  rw [if_neg h7]
  by_cases h8 : truncate (rate / 8 * Duration.Seconds maxWait) < 1
  · rw [if_pos h8]
    exact ⟨fun _ => Or.inr (Or.inr (Or.inr (Or.inr h8))), fun _ => ⟨_, rfl⟩⟩
  rw [if_neg h8]
  constructor
  · rintro ⟨e, he⟩
    exact absurd he (by simp)
  · rintro (h | h | h | h | h)
    · exact absurd (lt_of_le_of_ne h h2) h1
    · exact absurd (lt_of_le_of_ne h h4) h3
    · exact absurd (lt_of_le_of_ne h h6) h5
    · exact absurd h h7
    · exact absurd h h8
/-- A call of `set` with acceptable parameters: the resulting state. -/
theorem set_of_valid (l : limiter) (tc : Int) {rate : ℚ} {resolution maxWait : Int}
    (h1 : 0 < rate) (h2 : 0 < resolution) (h3 : 0 < maxWait)
    (h4 : ¬ truncate (rate / 8 * Duration.Seconds resolution) < 1)
    (h5 : ¬ truncate (rate / 8 * Duration.Seconds maxWait) < 1) :
    l.set tc rate resolution maxWait = .ok
      { rate := rate / 8
        burst := rate / 8 * Duration.Seconds resolution
        minPartial := truncate (rate / 8 * Duration.Seconds maxWait)
        rateCoef := (Second : ℚ) / (rate / 8)
        lastTime := if l.lastTime ≠ 0 ∧ tc ≠ 0 then tc else l.lastTime
        lastToken :=
          if l.lastTime ≠ 0 ∧ tc ≠ 0 then
            (if l.burst < l.lastToken then l.burst else l.lastToken)
          else l.lastToken } := by
  unfold limiter.set ByteCount
  rw [if_neg (not_lt.mpr h1.le), if_neg h1.ne', if_neg (not_lt.mpr h2.le), if_neg h2.ne',
    if_neg (not_lt.mpr h3.le), if_neg h3.ne', if_neg h4, if_neg h5]
  by_cases hc : l.lastTime ≠ 0 ∧ tc ≠ 0
  · have hb : (!Time.IsZero l.lastTime && !Time.IsZero tc) = true := by
      simp [Time.IsZero, hc.1, hc.2]
    simp only [hb, if_true, if_pos hc, Sub_self, Seconds_eq, Int.cast_zero, zero_div, zero_mul,
      add_zero]
    by_cases hlt : l.burst < l.lastToken
    · simp only [if_pos hlt]
    · simp only [if_neg hlt]
  · have hb : ¬ ((!Time.IsZero l.lastTime && !Time.IsZero tc) = true) := by
      simp only [Time.IsZero, Bool.and_eq_true, Bool.not_eq_true', beq_eq_false_iff_ne]
      exact hc
    simp only [if_neg hb, if_neg hc]

/-- A value of `Except` is a success exactly when it is not a failure. -/
theorem ok_iff_not_error {ε α : Type} (x : Except ε α) :
    (∃ a, x = .ok a) ↔ ¬ ∃ e, x = .error e := by
  cases x with
  | error e => simp
  | ok a => simp

/-! ## The three branches of `request` -/

/-- The capped accrual computed at the head of `request` is `available`. -/
theorem allowed_eq_available (l : limiter) (tc : Int) :
    (if l.burst < l.lastToken + l.rate * Duration.Seconds (Time.Sub tc l.lastTime) then l.burst
      else l.lastToken + l.rate * Duration.Seconds (Time.Sub tc l.lastTime)) = l.available tc := by
  unfold limiter.available
  rw [Seconds_eq, mul_div_assoc]
  split_ifs with h
  · exact (min_eq_left h.le).symm
  · exact (min_eq_right (not_lt.mp h)).symm

theorem request_full (l : limiter) (tc : Int) (bc : Int)
    (h : bc ≤ truncate (l.available tc)) :
    l.request tc bc =
      ({ l with lastTime := tc, lastToken := l.available tc - (bc : ℚ) }, 0, bc) := by
  unfold limiter.request
  simp only [allowed_eq_available]
  rw [if_pos h]

theorem request_partialGrant (l : limiter) (tc : Int) (bc : Int)
    (h1 : ¬ bc ≤ truncate (l.available tc)) (h2 : l.minPartial ≤ truncate (l.available tc)) :
    l.request tc bc =
      ({ l with lastTime := tc
                lastToken := l.available tc - (truncate (l.available tc) : ℚ) },
        0, truncate (l.available tc)) := by
  unfold limiter.request
  simp only [allowed_eq_available]
  rw [if_neg h1, if_pos h2]

theorem request_wait (l : limiter) (tc : Int) (bc : Int)
    (h1 : ¬ bc ≤ truncate (l.available tc)) (h2 : ¬ l.minPartial ≤ truncate (l.available tc)) :
    l.request tc bc =
      ({ l with lastTime := tc + truncate (l.rateCoef * ((min bc l.minPartial : Int) - l.available tc))
                lastToken := 0 },
        truncate (l.rateCoef * ((min bc l.minPartial : Int) - l.available tc)),
        min bc l.minPartial) := by
  unfold limiter.request
  simp only [allowed_eq_available]
  rw [if_neg h1, if_neg h2]
  have hw : (if bc < l.minPartial then bc else l.minPartial) = min bc l.minPartial := by
    split_ifs with h
    · exact (min_eq_left h.le).symm
    · exact (min_eq_right (not_lt.mp h)).symm
  simp only [hw, Time.Add]

/-- `request` changes neither the rate nor the sizes derived from it. -/
theorem request_config (l : limiter) (tc : Int) (bc : Int) :
    (l.request tc bc).1.rate = l.rate ∧ (l.request tc bc).1.burst = l.burst ∧
    (l.request tc bc).1.minPartial = l.minPartial ∧
    (l.request tc bc).1.rateCoef = l.rateCoef := by
  by_cases h1 : bc ≤ truncate (l.available tc)
  · rw [request_full l tc bc h1]
    exact ⟨rfl, rfl, rfl, rfl⟩
  · by_cases h2 : l.minPartial ≤ truncate (l.available tc)
    · rw [request_partialGrant l tc bc h1 h2]
      exact ⟨rfl, rfl, rfl, rfl⟩
    · rw [request_wait l tc bc h1 h2]
      exact ⟨rfl, rfl, rfl, rfl⟩

theorem Sub_nonneg (t u : Int) (h : u ≤ t) : 0 ≤ Time.Sub t u := by
  unfold Time.Sub minDuration maxDuration
  split_ifs <;> omega

theorem truncate_le_max (q : ℚ) : (truncate q : ℚ) ≤ max q 0 := by
  rcases le_total 0 q with h | h
  · exact le_trans (truncate_le h) (le_max_left _ _)
  · exact le_trans (by exact_mod_cast truncate_nonpos h) (le_max_right _ _)

/-- What a successful `set` has checked and stored. -/
theorem set_ok_facts {l0 l : limiter} {tc : Int} {rate : ℚ} {resolution maxWait : Int}
    (h : l0.set tc rate resolution maxWait = .ok l) :
    0 < rate ∧ 0 < resolution ∧ 0 < maxWait ∧
    l.rate = rate / 8 ∧
    l.burst = rate / 8 * ((resolution : ℚ) / 1000000000) ∧
    l.minPartial = truncate (rate / 8 * ((maxWait : ℚ) / 1000000000)) ∧
    l.rateCoef = 1000000000 / (rate / 8) ∧
    1 ≤ l.minPartial ∧ 1 ≤ l.burst := by
  have hnr : ¬ rejected rate resolution maxWait := by
    intro hr
    obtain ⟨e, he⟩ := (set_error_iff_rejected l0 tc rate resolution maxWait).mpr hr
    rw [he] at h
    cases h
  unfold rejected at hnr
  push_neg at hnr
  obtain ⟨h1, h2, h3, h4, h5⟩ := hnr
  rw [← Seconds_eq] at h4 h5
  rw [set_of_valid l0 tc h1 h2 h3 (not_lt.mpr h4) (not_lt.mpr h5)] at h
  injection h with h
  subst h
  refine ⟨h1, h2, h3, rfl, ?_, ?_, ?_, h5, ?_⟩
  · simp only [Seconds_eq]
  · simp only [Seconds_eq]
  · simp [Second]
  · have := (truncate_lt_one_iff _).not.mp (not_lt.mpr h4)
    exact not_lt.mp this

/-- Tokens never accrue backwards: from a non-negative count and a clock that has
not gone back, the available count is non-negative. -/
theorem available_nonneg (l : limiter) (now : Int) (hr : 0 ≤ l.rate) (hb : 0 ≤ l.burst)
    (hk : 0 ≤ l.lastToken) (ht : l.lastTime ≤ now) : 0 ≤ l.available now := by
  unfold limiter.available
  apply le_min hb
  have hs : 0 ≤ Time.Sub now l.lastTime := Sub_nonneg now l.lastTime ht
  have hs' : (0 : ℚ) ≤ ((Time.Sub now l.lastTime : Int) : ℚ) := by exact_mod_cast hs
  positivity

theorem available_le_burst (l : limiter) (now : Int) : l.available now ≤ l.burst :=
  min_le_left _ _

/-- In the waiting branch the window is strictly larger than what is available. -/
theorem wait_window_pos (l : limiter) (tc : Int) (bc : Int)
    (h1 : ¬ bc ≤ truncate (l.available tc)) (h2 : ¬ l.minPartial ≤ truncate (l.available tc)) :
    0 < ((min bc l.minPartial : Int) : ℚ) - l.available tc := by
  have hw : truncate (l.available tc) + 1 ≤ min bc l.minPartial := by
    have := le_min (not_le.mp h1) (not_le.mp h2)
    omega
  have hw' : (truncate (l.available tc) : ℚ) + 1 ≤ ((min bc l.minPartial : Int) : ℚ) := by
    exact_mod_cast hw
  have := lt_truncate_add_one (l.available tc)
  linarith

/-! ## Accounting of tokens -/

theorem configured_of_set {l0 l : limiter} {tc : Int} {rate : ℚ} {resolution maxWait : Int}
    (h : l0.set tc rate resolution maxWait = .ok l) : Configured l := by
  obtain ⟨h1, -, -, hrate, -, -, hcoef, hmp, hb⟩ := set_ok_facts h
  refine ⟨by rw [hrate]; positivity, by rw [hcoef, hrate], hmp, by linarith⟩

theorem available_at_lastTime (l : limiter) (h0 : l.lastToken ≤ l.burst) :
    l.available l.lastTime = l.lastToken := by
  unfold limiter.available
  rw [Sub_self]
  simpa using h0

/-- One request of the accounting: the grant is paid for by the tokens that were
available and by the tokens that accrue during the wait, up to the truncation of
the wait to whole nanoseconds. -/
theorem request_step (l : limiter) (hc : Configured l) (tc n : Int) (hn : 0 ≤ n)
    (ha : 0 ≤ l.available tc) :
    (l.request tc n).1.lastTime = tc + (l.request tc n).2.1 ∧
    0 ≤ (l.request tc n).1.lastToken ∧
    (l.request tc n).1.lastToken ≤ l.burst ∧
    0 ≤ (l.request tc n).2.1 ∧
    l.available tc - (l.request tc n).1.lastToken
        + l.rate * (((l.request tc n).2.1 : Int) : ℚ) / 1000000000
      ≤ (((l.request tc n).2.2 : Int) : ℚ) ∧
    (((l.request tc n).2.2 : Int) : ℚ)
      ≤ l.available tc - (l.request tc n).1.lastToken
        + l.rate * (((l.request tc n).2.1 : Int) : ℚ) / 1000000000 + l.rate / 1000000000 ∧
    ((l.request tc n).2.1 = 0 ∨
      l.available tc + l.rate * (((l.request tc n).2.1 : Int) : ℚ) / 1000000000
        ≤ (l.minPartial : ℚ)) := by
  obtain ⟨hr, hcoef, hmp, hb⟩ := hc
  have hab := available_le_burst l tc
  have htr := truncate_le ha
  have htr0 : (0 : ℚ) ≤ (truncate (l.available tc) : ℚ) := by exact_mod_cast truncate_nonneg ha
  have hrpos : 0 < l.rate / 1000000000 := by positivity
  by_cases hf : n ≤ truncate (l.available tc)
  · rw [request_full l tc n hf]
    have hn' : (0 : ℚ) ≤ (n : ℚ) := by exact_mod_cast hn
    have hf' : (n : ℚ) ≤ (truncate (l.available tc) : ℚ) := by exact_mod_cast hf
    refine ⟨by simp, ?_, ?_, le_refl _, ?_, ?_, Or.inl rfl⟩ <;> simp <;> linarith
  · by_cases hp : l.minPartial ≤ truncate (l.available tc)
    · rw [request_partialGrant l tc n hf hp]
      refine ⟨by simp, ?_, ?_, le_refl _, ?_, ?_, Or.inl rfl⟩ <;> simp <;> linarith
    · rw [request_wait l tc n hf hp]
      have hpos := wait_window_pos l tc n hf hp
      have hcpos : 0 < l.rateCoef := by rw [hcoef]; positivity
      have hx0 : 0 ≤ l.rateCoef * (((min n l.minPartial : Int) : ℚ) - l.available tc) :=
        mul_nonneg hcpos.le hpos.le
      have hd1 := truncate_le hx0
      have hd2 := lt_truncate_add_one (l.rateCoef * (((min n l.minPartial : Int) : ℚ) - l.available tc))
      have hkey : l.rate * (l.rateCoef * (((min n l.minPartial : Int) : ℚ) - l.available tc))
          / 1000000000 = ((min n l.minPartial : Int) : ℚ) - l.available tc := by
        rw [hcoef]
        field_simp
      have hm : ((min n l.minPartial : Int) : ℚ) ≤ (l.minPartial : ℚ) := by
        exact_mod_cast min_le_right n l.minPartial
      generalize truncate (l.rateCoef * (((min n l.minPartial : Int) : ℚ) - l.available tc)) = d
        at hd1 hd2 ⊢
      generalize l.rateCoef * (((min n l.minPartial : Int) : ℚ) - l.available tc) = x
        at hd1 hd2 hkey hx0
      have hd0 : (0 : ℚ) ≤ (d : ℚ) + 1 := by linarith
      have e1 : l.rate * (d : ℚ) / 1000000000 ≤ l.rate * x / 1000000000 := by
        apply div_le_div_of_nonneg_right _ (by norm_num)
        exact mul_le_mul_of_nonneg_left hd1 hr.le
      have e2 : l.rate * x / 1000000000 < l.rate * ((d : ℚ) + 1) / 1000000000 := by
        apply div_lt_div_of_pos_right _ (by norm_num)
        exact mul_lt_mul_of_pos_left hd2 hr
      have e3 : l.rate * ((d : ℚ) + 1) / 1000000000
          = l.rate * (d : ℚ) / 1000000000 + l.rate / 1000000000 := by ring
      refine ⟨rfl, le_refl _, hb.le, ?_, ?_, ?_, Or.inr ?_⟩
      · show 0 ≤ d
        have : (0 : ℚ) < (d : ℚ) + 1 := lt_of_le_of_lt hx0 hd2
        have : (0 : Int) < d + 1 := by exact_mod_cast this
        omega
      · show l.available tc - 0 + l.rate * (d : ℚ) / 1000000000 ≤ _
        linarith
      · show _ ≤ l.available tc - 0 + l.rate * (d : ℚ) / 1000000000 + l.rate / 1000000000
        linarith
      · show l.available tc + l.rate * (d : ℚ) / 1000000000 ≤ _
        linarith

theorem backToBack_succ (n : Int) (l : limiter) (t0 : Int) (k : Nat) :
    backToBack n l t0 (k + 1) =
      (((backToBack n l t0 k).1.request (backToBack n l t0 k).2.1 n).1,
        (backToBack n l t0 k).2.1 + ((backToBack n l t0 k).1.request (backToBack n l t0 k).2.1 n).2.1,
        (backToBack n l t0 k).2.2 + ((backToBack n l t0 k).1.request (backToBack n l t0 k).2.1 n).2.2) :=
  rfl

/-- The accounting of `k` back-to-back requests. -/
theorem backToBack_inv (n : Int) (hn : 0 ≤ n) (l : limiter) (hc : Configured l) (t0 : Int)
    (ha : 0 ≤ l.available t0) (k : Nat) :
    (backToBack n l t0 k).1.rate = l.rate ∧
    (backToBack n l t0 k).1.burst = l.burst ∧
    (backToBack n l t0 k).1.minPartial = l.minPartial ∧
    (backToBack n l t0 k).1.rateCoef = l.rateCoef ∧
    0 ≤ (backToBack n l t0 k).1.available (backToBack n l t0 k).2.1 ∧
    t0 ≤ (backToBack n l t0 k).2.1 ∧
    l.available t0 - (backToBack n l t0 k).1.available (backToBack n l t0 k).2.1
        + l.rate * ((((backToBack n l t0 k).2.1 - t0 : Int)) : ℚ) / 1000000000
      ≤ (((backToBack n l t0 k).2.2 : Int) : ℚ) ∧
    (((backToBack n l t0 k).2.2 : Int) : ℚ)
      ≤ l.available t0 - (backToBack n l t0 k).1.available (backToBack n l t0 k).2.1
        + l.rate * ((((backToBack n l t0 k).2.1 - t0 : Int)) : ℚ) / 1000000000
        + (k : ℚ) * (l.rate / 1000000000) := by
  induction k with
  | zero =>
    refine ⟨rfl, rfl, rfl, rfl, ha, le_refl _, ?_, ?_⟩ <;> simp [backToBack]
  | succ k ih =>
    obtain ⟨i1, i2, i3, i4, i5, i6, i7, i8⟩ := ih
    rw [backToBack_succ]
    generalize backToBack n l t0 k = s at i1 i2 i3 i4 i5 i6 i7 i8 ⊢
    have hcs : Configured s.1 := by
      unfold Configured
      rw [i1, i2, i3, i4]
      exact hc
    obtain ⟨c1, c2, c3, c4⟩ := request_config s.1 s.2.1 n
    obtain ⟨s1, s2, s3, s4, s5, s6, -⟩ := request_step s.1 hcs s.2.1 n hn i5
    have hav : (s.1.request s.2.1 n).1.available (s.2.1 + (s.1.request s.2.1 n).2.1)
        = (s.1.request s.2.1 n).1.lastToken := by
      rw [← s1]
      exact available_at_lastTime _ (by rw [c2]; exact s3)
    dsimp only
    rw [hav, c1, c2, c3, c4, i1, i2, i3, i4]
    rw [i1] at s5 s6
    refine ⟨rfl, rfl, rfl, rfl, s2, by omega, ?_, ?_⟩
    · push_cast at i7 s5 ⊢
      linarith
    · push_cast at i8 s6 ⊢
      linarith

/-- The grants of back-to-back requests take effect in the order of the
requests. -/
theorem backToBack_time_mono (n : Int) (hn : 0 ≤ n) (l : limiter) (hc : Configured l) (t0 : Int)
    (ha : 0 ≤ l.available t0) (j k : Nat) (hjk : j ≤ k) :
    (backToBack n l t0 j).2.1 ≤ (backToBack n l t0 k).2.1 := by
  induction k, hjk using Nat.le_induction with
  | base => exact le_refl _
  | succ k _ ih =>
    obtain ⟨i1, i2, i3, i4, i5, -, -, -⟩ := backToBack_inv n hn l hc t0 ha k
    have hcs : Configured (backToBack n l t0 k).1 := by
      unfold Configured
      rw [i1, i2, i3, i4]
      exact hc
    obtain ⟨-, -, -, s4, -, -, -⟩ :=
      request_step (backToBack n l t0 k).1 hcs (backToBack n l t0 k).2.1 n hn i5
    rw [backToBack_succ]
    dsimp only
    omega

/-- A limiter fresh from `newLimiter` has served no request. -/
theorem newLimiter_fresh {l : limiter} {rate : ℚ} {resolution maxWait : Int}
    (h : newLimiter rate resolution maxWait = .ok l) : l.lastTime = 0 ∧ l.lastToken = 0 := by
  unfold newLimiter at h
  have hnr : ¬ rejected rate resolution maxWait := by
    intro hr
    obtain ⟨e, he⟩ := (set_error_iff_rejected limiter.zero 0 rate resolution maxWait).mpr hr
    rw [he] at h
    cases h
  unfold rejected at hnr
  push_neg at hnr
  obtain ⟨h1, h2, h3, h4, h5⟩ := hnr
  rw [← Seconds_eq] at h4 h5
  rw [set_of_valid limiter.zero 0 h1 h2 h3 (not_lt.mpr h4) (not_lt.mpr h5)] at h
  injection h with h
  subst h
  simp [limiter.zero]

/-- The first request on a fresh limiter finds the bucket full. -/
theorem fresh_available {l : limiter} {rate : ℚ} {resolution maxWait : Int}
    (h : newLimiter rate resolution maxWait = .ok l) (hres : resolution ≤ maxDuration)
    (t0 : Int) (ht0 : resolution ≤ t0) : l.available t0 = l.burst := by
  obtain ⟨hlt, hlk⟩ := newLimiter_fresh h
  obtain ⟨h1, h2, -, hrate, hburst, -, -, -, -⟩ := set_ok_facts h
  unfold limiter.available
  rw [hlt, hlk]
  apply min_eq_left
  have hs : resolution ≤ Time.Sub t0 0 := by
    unfold Time.Sub
    unfold maxDuration minDuration at *
    split_ifs <;> omega
  have hs' : (resolution : ℚ) ≤ ((Time.Sub t0 0 : Int) : ℚ) := by exact_mod_cast hs
  rw [hburst, hrate, zero_add, mul_div_assoc]
  apply mul_le_mul_of_nonneg_left _ (by positivity)
  linarith

/-! ## Evaluating `request` -/

theorem request_of_full {l : limiter} {tc bc : Int} {v : ℚ} {a : Int}
    (hv : l.available tc = v) (ha : truncate v = a) (h : bc ≤ a) :
    l.request tc bc = ({ l with lastTime := tc, lastToken := v - (bc : ℚ) }, 0, bc) := by
  subst hv ha
  exact request_full l tc bc h

theorem request_of_partialGrant {l : limiter} {tc bc : Int} {v : ℚ} {a : Int}
    (hv : l.available tc = v) (ha : truncate v = a) (h1 : a < bc) (h2 : l.minPartial ≤ a) :
    l.request tc bc = ({ l with lastTime := tc, lastToken := v - (a : ℚ) }, 0, a) := by
  subst hv ha
  exact request_partialGrant l tc bc (not_le.mpr h1) h2

theorem request_of_wait {l : limiter} {tc bc : Int} {v : ℚ} {a w d : Int}
    (hv : l.available tc = v) (ha : truncate v = a) (h1 : a < bc) (h2 : a < l.minPartial)
    (hw : min bc l.minPartial = w) (hd : truncate (l.rateCoef * ((w : ℚ) - v)) = d) :
    l.request tc bc = ({ l with lastTime := tc + d, lastToken := 0 }, d, w) := by
  subst hv ha hw hd
  exact request_wait l tc bc (not_le.mpr h1) (not_le.mpr h2)

theorem Sub_clock2026 : Time.Sub clock2026 0 = 9223372036854775807 := by
  simp [Time.Sub, clock2026, minDuration, maxDuration]

theorem Sub_add_left (t d : Int) (h0 : 0 ≤ d) (h1 : d ≤ 9223372036854775807) :
    Time.Sub (t + d) t = d := by
  unfold Time.Sub minDuration maxDuration
  split_ifs <;> omega

/-- An empty 16 bit/s bucket makes a request wait half a second for one byte. -/
theorem request16_wait (t n : Int) (hn : 1 ≤ n) :
    (limiter16At t 0).request t n = (limiter16At (t + 500000000) 0, 500000000, 1) := by
  have hv : (limiter16At t 0).available t = 0 := by
    simp [limiter.available, limiter16At, limiter16, Sub_self]
  rw [request_of_wait (w := 1) (d := 500000000) hv truncate_zero (by omega)
    (by simp [limiter16At, limiter16]) (by simp [limiter16At, limiter16]; omega)
    (by
      have : (limiter16At t 0).rateCoef * (((1 : Int) : ℚ) - 0) = ((500000000 : Int) : ℚ) := by
        simp [limiter16At, limiter16]
      rw [this, truncate_intCast])]
  rfl

/-- A full 16 bit/s bucket grants its two bytes at once. -/
theorem request16_full (t n : Int) (hn : 2 < n) :
    (limiter16At t 2).request t n = (limiter16At t 0, 0, 2) := by
  have hv : (limiter16At t 2).available t = 2 := by
    simp [limiter.available, limiter16At, limiter16, Sub_self]
  have ha : truncate (2 : ℚ) = 2 := truncate_eq_of_bounds (by norm_num) (by norm_num) (by norm_num)
  rw [request_of_partialGrant hv ha hn (by simp [limiter16At, limiter16])]
  simp [limiter16At, limiter16]

/-- The first request on the fresh 16 bit/s limiter finds two bytes. -/
theorem request16_fresh (n : Int) (hn : 2 < n) :
    limiter16.request clock2026 n = (limiter16At clock2026 0, 0, 2) := by
  have hv : limiter16.available clock2026 = 2 := by
    simp [limiter.available, limiter16, Sub_clock2026]
    norm_num
  have ha : truncate (2 : ℚ) = 2 := truncate_eq_of_bounds (by norm_num) (by norm_num) (by norm_num)
  rw [request_of_partialGrant hv ha hn (by simp [limiter16])]
  simp [limiter16At, limiter16]

/-! ## Evaluating `set` -/

theorem truncate_two : truncate 2 = 2 :=
  truncate_eq_of_bounds (by norm_num) (by norm_num) (by norm_num)

/-- What `set` stores for 16 bit/s with the default configuration. -/
theorem set16 (l : limiter) (tc : Int) :
    l.set tc 16 Second (Millisecond * 500) = .ok
      { rate := 2, burst := 2, minPartial := 1, rateCoef := 500000000
        lastTime := if l.lastTime ≠ 0 ∧ tc ≠ 0 then tc else l.lastTime
        lastToken :=
          if l.lastTime ≠ 0 ∧ tc ≠ 0 then
            (if l.burst < l.lastToken then l.burst else l.lastToken)
          else l.lastToken } := by
  have hb : (16 : ℚ) / 8 * Duration.Seconds Second = 2 := by
    rw [Seconds_eq]; norm_num [Second]
  have hm : (16 : ℚ) / 8 * Duration.Seconds (Millisecond * 500) = 1 := by
    rw [Seconds_eq]; norm_num [Millisecond]
  have hm1 : truncate 1 = 1 :=
    truncate_eq_of_bounds (by norm_num) (by norm_num) (by norm_num)
  rw [set_of_valid l tc (by norm_num) (by decide) (by decide)
    (by rw [hb, truncate_two]; decide) (by rw [hm, hm1]; decide)]
  rw [hb, hm, hm1]
  norm_num [Second]

theorem newLimiter16 : newLimiter 16 Second (Millisecond * 500) = .ok limiter16 := by
  unfold newLimiter
  rw [set16]
  simp [limiter.zero, limiter16]

theorem newLimiter16Wait2 : newLimiter 16 Second (2 * Second) = .ok limiter16Wait2 := by
  have hb : (16 : ℚ) / 8 * Duration.Seconds Second = 2 := by
    rw [Seconds_eq]; norm_num [Second]
  have hm : (16 : ℚ) / 8 * Duration.Seconds (2 * Second) = 4 := by
    rw [Seconds_eq]; norm_num [Second]
  have hm4 : truncate 4 = 4 :=
    truncate_eq_of_bounds (by norm_num) (by norm_num) (by norm_num)
  unfold newLimiter
  rw [set_of_valid limiter.zero 0 (by norm_num) (by decide) (by decide)
    (by rw [hb, truncate_two]; decide) (by rw [hm, hm4]; decide)]
  rw [hb, hm, hm4]
  norm_num [Second, limiter.zero, limiter16Wait2]

theorem newLimiter1k : newLimiter 1000 Second (Millisecond * 500) = .ok limiter1k := by
  have hb : (1000 : ℚ) / 8 * Duration.Seconds Second = 125 := by
    rw [Seconds_eq]; norm_num [Second]
  have hm : (1000 : ℚ) / 8 * Duration.Seconds (Millisecond * 500) = 125 / 2 := by
    rw [Seconds_eq]; norm_num [Millisecond]
  have hb1 : truncate 125 = 125 :=
    truncate_eq_of_bounds (by norm_num) (by norm_num) (by norm_num)
  have hm1 : truncate (125 / 2) = 62 :=
    truncate_eq_of_bounds (by norm_num) (by norm_num) (by norm_num)
  unfold newLimiter
  rw [set_of_valid limiter.zero 0 (by norm_num) (by decide) (by decide)
    (by rw [hb, hb1]; decide) (by rw [hm, hm1]; decide)]
  rw [hb, hm, hm1]
  norm_num [Second, limiter.zero, limiter1k]

/-! ## Evaluating `request` on the concrete limiters -/

/-- The first request on the fresh 1 kbit/s limiter is granted in full. -/
theorem request1k_fresh :
    limiter1k.request clock2026 125 =
      ({ limiter1k with lastTime := clock2026, lastToken := 0 }, 0, 125) := by
  have hv : limiter1k.available clock2026 = 125 := by
    simp [limiter.available, limiter1k, Sub_clock2026]
    norm_num
  have ha : truncate (125 : ℚ) = 125 :=
    truncate_eq_of_bounds (by norm_num) (by norm_num) (by norm_num)
  rw [request_of_full hv ha (le_refl _)]
  simp [limiter1k]

/-- Half a second later the 1 kbit/s limiter grants another 62 bytes at once. -/
theorem request1k_second :
    ({ limiter1k with lastTime := clock2026, lastToken := 0 } : limiter).request
        (clock2026 + 500000000) 125 =
      ({ limiter1k with lastTime := clock2026 + 500000000, lastToken := 1 / 2 }, 0, 62) := by
  have hv : ({ limiter1k with lastTime := clock2026, lastToken := 0 } : limiter).available
      (clock2026 + 500000000) = 125 / 2 := by
    simp [limiter.available, limiter1k, Sub_add_left]
    norm_num
  have ha : truncate (125 / 2 : ℚ) = 62 :=
    truncate_eq_of_bounds (by norm_num) (by norm_num) (by norm_num)
  rw [request_of_partialGrant hv ha (by decide) (by simp [limiter1k])]
  norm_num [limiter1k]

theorem request16_after_second :
    (limiter16At clock2026 0).request (clock2026 + 1000000000) 1 =
      (limiter16At (clock2026 + 1000000000) 1, 0, 1) := by
  have hv : (limiter16At clock2026 0).available (clock2026 + 1000000000) = 2 := by
    simp [limiter.available, limiter16At, limiter16, Sub_add_left]
  rw [request_of_full hv truncate_two (by decide)]
  norm_num [limiter16At, limiter16]

theorem request16Wait2_fresh :
    limiter16Wait2.request clock2026 10 =
      ({ limiter16Wait2 with lastTime := clock2026 + 1000000000, lastToken := 0 },
        1000000000, 4) := by
  have hv : limiter16Wait2.available clock2026 = 2 := by
    simp [limiter.available, limiter16Wait2, Sub_clock2026]
    norm_num
  rw [request_of_wait (w := 4) (d := 1000000000) hv truncate_two (by decide)
    (by simp [limiter16Wait2]) (by simp [limiter16Wait2])
    (by
      have : limiter16Wait2.rateCoef * (((4 : Int) : ℚ) - 2) = ((1000000000 : Int) : ℚ) := by
        norm_num [limiter16Wait2]
      rw [this, truncate_intCast])]

/-- Three back-to-back requests on the fresh 16 bit/s limiter. -/
theorem backToBack16 :
    backToBack 10 limiter16 clock2026 2
      = (limiter16At (clock2026 + 500000000) 0, clock2026 + 500000000, 3) ∧
    backToBack 10 limiter16 clock2026 3
      = (limiter16At (clock2026 + 1000000000) 0, clock2026 + 1000000000, 4) := by
  have h1 := request16_fresh 10 (by decide)
  have h2 := request16_wait clock2026 10 (by decide)
  have h3 := request16_wait (clock2026 + 500000000) 10 (by decide)
  have he : clock2026 + 500000000 + 500000000 = clock2026 + 1000000000 := by omega
  constructor <;> simp [backToBack, h1, h2, h3, Time.Add, he]

/-! ## Rounding to `float64` -/

namespace F64

theorem roundEven_eq (x : ℚ) (m : Int) (h : |x - (m : ℚ)| < 1 / 2) : roundEven x = m := by
  rw [abs_lt] at h
  obtain ⟨h1, h2⟩ := h
  unfold roundEven
  rcases le_or_lt (m : ℚ) x with hx | hx
  · have hf : ⌊x⌋ = m := Int.floor_eq_iff.mpr ⟨hx, by linarith⟩
    rw [hf, if_pos (by linarith)]
  · have hf : ⌊x⌋ = m - 1 :=
      Int.floor_eq_iff.mpr ⟨by push_cast; linarith, by push_cast; linarith⟩
    rw [hf]
    push_cast
    rw [if_neg (by linarith), if_pos (by linarith)]
    ring

theorem floor_le_roundEven (x : ℚ) : ⌊x⌋ ≤ roundEven x := by
  unfold roundEven
  split_ifs <;> omega

theorem roundEven_le_floor_add_one (x : ℚ) : roundEven x ≤ ⌊x⌋ + 1 := by
  unfold roundEven
  split_ifs <;> omega

theorem roundEven_ge (x : ℚ) (n : Int) (h : (n : ℚ) ≤ x) : n ≤ roundEven x :=
  le_trans (Int.le_floor.mpr h) (floor_le_roundEven x)

theorem roundEven_le (x : ℚ) (n : Int) (h : x ≤ (n : ℚ)) : roundEven x ≤ n := by
  rcases eq_or_lt_of_le h with h | h
  · rw [h, roundEven_eq _ n (by simp)]
  · have h1 : ⌊x⌋ < n := Int.floor_lt.mpr h
    have h2 := roundEven_le_floor_add_one x
    omega

theorem ulpExp_ge (q : ℚ) : -1074 ≤ ulpExp q := le_max_right _ _

theorem lt_zpow_ulpExp (q : ℚ) : |q| < 2 ^ (ulpExp q + 53) := by
  have h := Int.lt_zpow_succ_log_self (by norm_num : 1 < 2) |q|
  have h2 : Int.log 2 |q| + 1 ≤ ulpExp q + 53 := by
    have := le_max_left (Int.log 2 |q| - 52) (-1074)
    unfold ulpExp
    omega
  calc |q| < ((2 : ℕ) : ℚ) ^ (Int.log 2 |q| + 1) := h
    _ = (2 : ℚ) ^ (Int.log 2 |q| + 1) := by norm_num
    _ ≤ 2 ^ (ulpExp q + 53) := zpow_le_zpow_right₀ (by norm_num) h2

theorem zpow_ulpExp_le (q : ℚ) (hq : q ≠ 0) (h : ulpExp q ≠ -1074) :
    2 ^ (ulpExp q + 52) ≤ |q| := by
  have hq' : 0 < |q| := abs_pos.mpr hq
  have h1 := Int.zpow_log_le_self (by norm_num : 1 < 2) hq'
  have h2 : ulpExp q = Int.log 2 |q| - 52 := by
    unfold ulpExp at h ⊢
    rcases max_choice (Int.log 2 |q| - 52) (-1074) with hc | hc
    · exact hc
    · exact absurd hc h
  have h3 : ulpExp q + 52 = Int.log 2 |q| := by omega
  rw [h3]
  calc (2 : ℚ) ^ Int.log 2 |q| = ((2 : ℕ) : ℚ) ^ Int.log 2 |q| := by norm_num
    _ ≤ |q| := h1

theorem ulpExp_eq (q : ℚ) (e : Int) (he : -1074 ≤ e) (h1 : (2 : ℚ) ^ (e + 52) ≤ |q|)
    (h2 : |q| < (2 : ℚ) ^ (e + 53)) : ulpExp q = e := by
  have hq : 0 < |q| := lt_of_lt_of_le (by positivity) h1
  have hlog : Int.log 2 |q| = e + 52 := by
    apply le_antisymm
    · have := (Int.lt_zpow_iff_log_lt (by norm_num : 1 < 2) hq).mp
        (by rw [Nat.cast_ofNat]; exact h2)
      omega
    · exact (Int.zpow_le_iff_le_log (by norm_num : 1 < 2) hq).mp
        (by rw [Nat.cast_ofNat]; exact h1)
  unfold ulpExp
  rw [hlog]
  simp only [add_sub_cancel_right]
  exact max_eq_left he

/-- Evaluation of a rounding from a certificate: the exponent `e` of the unit
in the last place and the significand `m`. -/
theorem ofRat_eq (q v : ℚ) (e m : Int) (he : -1074 ≤ e) (h1 : (2 : ℚ) ^ (e + 52) ≤ |q|)
    (h2 : |q| < (2 : ℚ) ^ (e + 53)) (hm : |q / 2 ^ e - (m : ℚ)| < 1 / 2)
    (hv : (m : ℚ) * 2 ^ e = v) (hfin : |v| < 2 ^ (1024 : Nat)) : ofRat q = fin v := by
  unfold ofRat
  rw [ulpExp_eq q e he h1 h2, roundEven_eq _ m hm, hv, if_neg (not_le.mpr hfin)]

theorem ofRat_zero : ofRat 0 = fin 0 := by
  unfold ofRat
  rw [zero_div, roundEven_eq 0 0 (by norm_num)]
  norm_num

theorem ofRat_nonneg (q : ℚ) (h : 0 ≤ q) : NotNeg (ofRat q) := by
  have hv : (0 : ℚ) ≤ (roundEven (q / 2 ^ ulpExp q) : ℚ) * 2 ^ ulpExp q := by
    have h0 : (0 : ℚ) ≤ q / 2 ^ ulpExp q := by positivity
    have := roundEven_ge _ 0 (by exact_mod_cast h0)
    have h2 : (0 : ℚ) ≤ (roundEven (q / 2 ^ ulpExp q) : ℚ) := by exact_mod_cast this
    positivity
  unfold ofRat
  split_ifs with h1 h2
  · trivial
  · have hq : q = 0 := le_antisymm (not_lt.mp h2) h
    rw [hq, zero_div, roundEven_eq 0 0 (by norm_num)] at h1
    norm_num at h1
  · exact hv

theorem ofRat_repr (q v : ℚ) (h : ofRat q = fin v) : Repr64 v := by
  unfold ofRat at h
  split_ifs at h with h1 h2
  have hv : (roundEven (q / 2 ^ ulpExp q) : ℚ) * 2 ^ ulpExp q = v := by
    injection h
  have hq := lt_zpow_ulpExp q
  have hpos : (0 : ℚ) < 2 ^ ulpExp q := by positivity
  have hx : |q / 2 ^ ulpExp q| < 9007199254740992 := by
    rw [abs_div, abs_of_pos hpos, div_lt_iff₀ hpos]
    calc |q| < 2 ^ (ulpExp q + 53) := hq
      _ = 9007199254740992 * 2 ^ ulpExp q := by
        rw [zpow_add₀ (by norm_num)]
        norm_num
        ring
  rw [abs_lt] at hx
  refine ⟨roundEven (q / 2 ^ ulpExp q), ulpExp q, ?_, ulpExp_ge q, hv.symm⟩
  rw [abs_le]
  constructor
  · exact roundEven_ge _ (-9007199254740992) (by push_cast; linarith [hx.1])
  · exact roundEven_le _ 9007199254740992 (by push_cast; linarith [hx.2])

/-- Rounding does not go below a `float64` value that the exact result is not
below. -/
theorem ofRat_ge_of_repr (f q : ℚ) (hf : Repr64 f) (hf0 : 0 < f) (hfq : f ≤ q) :
    ofRat q = posInf ∨ ∃ v, ofRat q = fin v ∧ f ≤ v := by
  have hq0 : 0 < q := lt_of_lt_of_le hf0 hfq
  have hpos : (0 : ℚ) < 2 ^ ulpExp q := by positivity
  have hkey : f ≤ (roundEven (q / 2 ^ ulpExp q) : ℚ) * 2 ^ ulpExp q := by
    obtain ⟨M, E, hM, hE, rfl⟩ := hf
    rcases le_or_lt (ulpExp q) E with hE2 | hE2
    · -- `f` is a multiple of the unit in the last place of `q`
      obtain ⟨k, hk⟩ : ∃ k : Nat, E = ulpExp q + k := ⟨(E - ulpExp q).toNat, by omega⟩
      have hfe : (M : ℚ) * 2 ^ E = ((M * 2 ^ k : Int) : ℚ) * 2 ^ ulpExp q := by
        rw [hk, zpow_add₀ (by norm_num)]
        push_cast
        rw [zpow_natCast]
        ring
      rw [hfe]
      apply mul_le_mul_of_nonneg_right _ hpos.le
      have : ((M * 2 ^ k : Int) : ℚ) ≤ q / 2 ^ ulpExp q := by
        rw [le_div_iff₀ hpos, ← hfe]
        exact hfq
      exact_mod_cast roundEven_ge _ _ this
    · have hne : ulpExp q ≠ -1074 := by omega
      have h1 := zpow_ulpExp_le q hq0.ne.symm hne
      rw [abs_of_pos hq0] at h1
      have h2 : (4503599627370496 : ℚ) ≤ q / 2 ^ ulpExp q := by
        rw [le_div_iff₀ hpos]
        calc (4503599627370496 : ℚ) * 2 ^ ulpExp q = 2 ^ (ulpExp q + 52) := by
              rw [zpow_add₀ (by norm_num)]
              norm_num
              ring
          _ ≤ q := h1
      have h3 := roundEven_ge _ 4503599627370496 (by exact_mod_cast h2)
      have h4 : (4503599627370496 : ℚ) ≤ (roundEven (q / 2 ^ ulpExp q) : ℚ) := by
        exact_mod_cast h3
      have hM' : (M : ℚ) ≤ 9007199254740992 := by
        exact_mod_cast (abs_le.mp hM).2
      calc (M : ℚ) * 2 ^ E ≤ 9007199254740992 * 2 ^ E :=
            mul_le_mul_of_nonneg_right hM' (by positivity)
        _ = 2 ^ (E + 53) := by
            rw [zpow_add₀ (by norm_num)]
            norm_num
            ring
        _ ≤ 2 ^ (ulpExp q + 52) := zpow_le_zpow_right₀ (by norm_num) (by omega)
        _ = 4503599627370496 * 2 ^ ulpExp q := by
            rw [zpow_add₀ (by norm_num)]
            norm_num
            ring
        _ ≤ (roundEven (q / 2 ^ ulpExp q) : ℚ) * 2 ^ ulpExp q :=
            mul_le_mul_of_nonneg_right h4 hpos.le
  unfold ofRat
  split_ifs with h1
  · exact Or.inl rfl
  · exact Or.inr ⟨_, rfl, hkey⟩

/-- Rounding does not go above a `float64` value that the exact result is not
above. -/
theorem ofRat_le_of_repr (f q : ℚ) (hf : Repr64 f) (hq0 : 0 ≤ q) (hqf : q ≤ f)
    (hfin : f < 2 ^ (1024 : Nat)) : ∃ v, ofRat q = fin v ∧ 0 ≤ v ∧ v ≤ f := by
  have hpos : (0 : ℚ) < 2 ^ ulpExp q := zpow_pos (by norm_num) _
  have hv0 : (0 : ℚ) ≤ (roundEven (q / 2 ^ ulpExp q) : ℚ) * 2 ^ ulpExp q := by
    have h0 : (0 : ℚ) ≤ q / 2 ^ ulpExp q := div_nonneg hq0 hpos.le
    have := roundEven_ge _ 0 (by exact_mod_cast h0)
    have h2 : (0 : ℚ) ≤ (roundEven (q / 2 ^ ulpExp q) : ℚ) := by exact_mod_cast this
    exact mul_nonneg h2 hpos.le
  have hkey : (roundEven (q / 2 ^ ulpExp q) : ℚ) * 2 ^ ulpExp q ≤ f := by
    obtain ⟨M, E, hM, hE, rfl⟩ := hf
    rcases le_or_lt (ulpExp q) E with hE2 | hE2
    · -- `f` is a multiple of the unit in the last place of `q`
      obtain ⟨k, hk⟩ : ∃ k : Nat, E = ulpExp q + k := ⟨(E - ulpExp q).toNat, by omega⟩
      have hfe : (M : ℚ) * 2 ^ E = ((M * 2 ^ k : Int) : ℚ) * 2 ^ ulpExp q := by
        rw [hk, zpow_add₀ (by norm_num)]
        push_cast
        rw [zpow_natCast]
        ring
      rw [hfe]
      apply mul_le_mul_of_nonneg_right _ hpos.le
      have : q / 2 ^ ulpExp q ≤ ((M * 2 ^ k : Int) : ℚ) := by
        rw [div_le_iff₀ hpos, ← hfe]
        exact hqf
      exact_mod_cast roundEven_le _ _ this
    · rcases eq_or_lt_of_le hq0 with hq | hq
      · rw [← hq, zero_div, roundEven_eq 0 0 (by norm_num)]
        simp only [Int.cast_zero, zero_mul]
        rw [hq]
        exact hqf
      have hne : ulpExp q ≠ -1074 := by omega
      have h1 := zpow_ulpExp_le q hq.ne.symm hne
      rw [abs_of_pos hq] at h1
      have hM' : (M : ℚ) ≤ 9007199254740992 := by
        exact_mod_cast (abs_le.mp hM).2
      have hf2 : (M : ℚ) * 2 ^ E ≤ 2 ^ (ulpExp q + 52) :=
        calc (M : ℚ) * 2 ^ E ≤ 9007199254740992 * 2 ^ E :=
              mul_le_mul_of_nonneg_right hM' (zpow_pos (by norm_num) _).le
          _ = 2 ^ (E + 53) := by
              rw [zpow_add₀ (by norm_num)]
              norm_num
              ring
          _ ≤ 2 ^ (ulpExp q + 52) := zpow_le_zpow_right₀ (by norm_num) (by omega)
      have h52 : (2 : ℚ) ^ (ulpExp q + 52) = 4503599627370496 * 2 ^ ulpExp q := by
        rw [zpow_add₀ (by norm_num)]
        norm_num
        ring
      have h2 : q / 2 ^ ulpExp q ≤ (4503599627370496 : ℚ) := by
        rw [div_le_iff₀ hpos, ← h52]
        linarith
      have h3 := roundEven_le _ 4503599627370496 (by exact_mod_cast h2)
      have h4 : (roundEven (q / 2 ^ ulpExp q) : ℚ) ≤ (4503599627370496 : ℚ) := by
        exact_mod_cast h3
      calc (roundEven (q / 2 ^ ulpExp q) : ℚ) * 2 ^ ulpExp q
          ≤ 4503599627370496 * 2 ^ ulpExp q := mul_le_mul_of_nonneg_right h4 hpos.le
        _ = 2 ^ (ulpExp q + 52) := h52.symm
        _ ≤ q := h1
        _ ≤ (M : ℚ) * 2 ^ E := hqf
  refine ⟨_, ?_, hv0, hkey⟩
  unfold ofRat
  rw [if_neg]
  rw [abs_of_nonneg hv0]
  exact not_le.mpr (lt_of_le_of_lt hkey hfin)

theorem repr64_intCast (n : Int) (h : |n| ≤ 9007199254740992) : Repr64 (n : ℚ) :=
  ⟨n, 0, h, by norm_num, by simp⟩

theorem repr64_two_pow (k : Nat) : Repr64 ((2 : ℚ) ^ k) :=
  ⟨1, k, by norm_num, by omega, by simp⟩

/-- The conversion of an integer of at most 53 bits is exact. -/
theorem ofInt_exact (n : Int) (h0 : 0 < n) (h : n ≤ 9007199254740992) :
    ofInt n = fin (n : ℚ) := by
  have hr := repr64_intCast n (by rw [abs_of_pos h0]; exact h)
  have hn0 : (0 : ℚ) < (n : ℚ) := by exact_mod_cast h0
  obtain ⟨v, hv, -, hle⟩ := ofRat_le_of_repr (n : ℚ) (n : ℚ) hr hn0.le le_rfl (by
    have : (n : ℚ) ≤ 9007199254740992 := by exact_mod_cast h
    calc (n : ℚ) ≤ 9007199254740992 := this
      _ < 2 ^ (1024 : Nat) := by norm_num)
  rcases ofRat_ge_of_repr (n : ℚ) (n : ℚ) hr hn0 le_rfl with hinf | ⟨w, hw, hge⟩
  · rw [hinf] at hv
    exact absurd hv (by simp)
  · rw [hv] at hw
    injection hw with hw
    unfold ofInt
    rw [hv, le_antisymm hle (hw ▸ hge)]

end F64

/-! ## Signs and conversions of `float64` values -/

namespace F64

theorem ofRat_nonneg_num (q : ℚ) (h : 0 ≤ q) :
    ofRat q = posInf ∨ ∃ v, ofRat q = fin v ∧ 0 ≤ v := by
  have := ofRat_nonneg q h
  cases hx : ofRat q with
  | fin v => rw [hx] at this; exact Or.inr ⟨v, rfl, this⟩
  | posInf => exact Or.inl rfl
  | negInf => rw [hx] at this; exact absurd this (by simp [NotNeg])
  | nan =>
    unfold ofRat at hx
    split_ifs at hx

theorem NotNeg.mul {a b : F64} (ha : NotNeg a) (hb : NotNeg b) : NotNeg (mul a b) := by
  cases a <;> cases b <;> simp only [NotNeg] at ha hb <;> simp only [F64.mul] <;>
    first
    | trivial
    | exact ofRat_nonneg _ (mul_nonneg ha hb)
    | (split_ifs with h1 h2
       · trivial
       · trivial
       · exact absurd (lt_of_le_of_ne (by assumption) (Ne.symm h1)) h2)

theorem NotNeg.add {a b : F64} (ha : NotNeg a) (hb : NotNeg b) : NotNeg (add a b) := by
  cases a <;> cases b <;> simp only [NotNeg] at ha hb <;> simp only [F64.add] <;>
    first
    | trivial
    | exact ofRat_nonneg _ (add_nonneg ha hb)

theorem NotNeg.div_fin {a : F64} (ha : NotNeg a) {c : ℚ} (hc : 0 ≤ c) :
    NotNeg (div a (fin c)) := by
  cases a <;> simp only [NotNeg] at ha <;> simp only [F64.div]
  · split_ifs with h1 h2 h3
    · trivial
    · trivial
    · rename_i q
      exact absurd (lt_of_le_of_ne ha (Ne.symm h2)) h3
    · exact ofRat_nonneg _ (div_nonneg ha hc)
  · rw [if_pos hc]
    trivial
  · trivial

theorem notNeg_ofInt (n : Int) (h : 0 ≤ n) : NotNeg (ofInt n) :=
  ofRat_nonneg _ (by exact_mod_cast h)

theorem toInt64_range (x : F64) :
    -9223372036854775808 ≤ toInt64 x ∧ toInt64 x ≤ 9223372036854775807 := by
  cases x <;> simp only [toInt64]
  · split_ifs with h
    · omega
    · omega
  all_goals omega

theorem toInt64_of_notNeg {x : F64} (h : NotNeg x) :
    0 ≤ toInt64 x ∨ toInt64 x = -9223372036854775808 := by
  cases x <;> simp only [NotNeg] at h <;> simp only [toInt64]
  · split_ifs with h1
    · exact Or.inr rfl
    · exact Or.inl (truncate_nonneg h)
  all_goals simp

theorem le_truncate_iff {q : ℚ} {k : Int} (hk : 0 < k) : k ≤ truncate q ↔ (k : ℚ) ≤ q := by
  rcases le_or_lt 0 q with h | h
  · rw [truncate_of_nonneg h]
    exact Int.le_floor
  · have h1 := truncate_nonpos h.le
    have h2 : (0 : ℚ) < (k : ℚ) := by exact_mod_cast hk
    constructor
    · intro h3
      omega
    · intro h3
      linarith

theorem toInt64_lt_one_iff (x : F64) :
    toInt64 x < 1 ↔
      ¬ (le (fin 1) x = true ∧ lt x (fin 9223372036854775808) = true) := by
  cases x with
  | fin q =>
    simp only [toInt64, F64.le, F64.lt, decide_eq_true_eq]
    have hbig : 9223372036854775807 < truncate q ↔ (9223372036854775808 : ℚ) ≤ q := by
      have := @le_truncate_iff q 9223372036854775808 (by norm_num)
      rw [← Int.add_one_le_iff]
      simpa using this
    have hone : truncate q < 1 ↔ q < 1 := truncate_lt_one_iff q
    split_ifs with h
    · constructor
      · intro _ hc
        rcases h with h | h
        · have : truncate q < 1 := by omega
          rw [hone] at this
          linarith [hc.1]
        · rw [hbig] at h
          linarith [hc.2]
      · intro _
        norm_num
    · rw [hone]
      constructor
      · intro h1 hc
        linarith [hc.1]
      · intro hc
        by_contra h1
        apply hc
        refine ⟨not_lt.mp h1, ?_⟩
        by_contra h2
        exact h (Or.inr (hbig.mpr (not_lt.mp h2)))
  | posInf => simp [toInt64, F64.le, F64.lt]
  | negInf => simp [toInt64, F64.le, F64.lt]
  | nan => simp [toInt64, F64.le, F64.lt]

theorem toUint64_lt_one_iff {x : F64} (h : NotNeg x) :
    toUint64 x < 1 ↔ lt x (fin 1) = true := by
  have hor : ∀ n : Nat, ¬ (n ||| 9223372036854775808 < 1) := by
    intro n hn
    have h1 : (n ||| 9223372036854775808).testBit 63 = true := by
      have h2 : Nat.testBit 9223372036854775808 63 = true := by decide
      rw [Nat.testBit_or, h2, Bool.or_true]
    have h3 := Nat.testBit_implies_ge h1
    norm_num at h3
    omega
  cases x with
  | fin q =>
    simp only [NotNeg] at h
    unfold toUint64
    by_cases hq : q < 9223372036854775808
    · have hlt : lt (fin q) (fin 9223372036854775808) = true := by
        simp only [F64.lt, decide_eq_true_eq]
        exact hq
      rw [if_pos hlt]
      have h0 := truncate_nonneg h
      have h1 : truncate q ≤ 9223372036854775807 := by
        by_contra hc
        have : (9223372036854775808 : Int) ≤ truncate q := by omega
        rw [le_truncate_iff (by norm_num)] at this
        push_cast at this
        linarith
      simp only [toInt64]
      rw [if_neg (by omega)]
      simp only [F64.lt, decide_eq_true_eq]
      rw [← truncate_lt_one_iff]
      omega
    · have hlt : ¬ lt (fin q) (fin 9223372036854775808) = true := by
        simp only [F64.lt, decide_eq_true_eq]
        exact hq
      rw [if_neg hlt]
      simp only [F64.lt, decide_eq_true_eq]
      constructor
      · intro hc
        exact absurd hc (hor _)
      · intro hc
        linarith
  | posInf =>
    unfold toUint64
    simp only [F64.lt]
    simp only [Bool.false_eq_true, if_false, iff_false]
    exact hor _
  | negInf => exact absurd h (by simp [NotNeg])
  | nan =>
    unfold toUint64
    simp only [F64.lt]
    simp only [Bool.false_eq_true, if_false, iff_false]
    exact hor _

theorem add_eq_fin {a b : F64} {v : ℚ} (h : add a b = fin v) : Repr64 v := by
  cases a <;> cases b <;> simp only [F64.add] at h <;>
    first
    | exact ofRat_repr _ _ h
    | exact absurd h (by simp)

theorem mul_eq_fin {a b : F64} {v : ℚ} (h : mul a b = fin v) : Repr64 v := by
  cases a <;> cases b <;> simp only [F64.mul] at h <;>
    first
    | exact ofRat_repr _ _ h
    | exact absurd h (by simp)
    | (split_ifs at h)

end F64

theorem notNeg_Seconds64 (d : Int) (h : 0 ≤ d) : F64.NotNeg (Duration.Seconds64 d) := by
  unfold Duration.Seconds64
  apply F64.NotNeg.add
  · exact F64.notNeg_ofInt _ (Int.tdiv_nonneg h (by decide))
  · exact F64.NotNeg.div_fin (F64.notNeg_ofInt _ (Int.tmod_nonneg _ h)) (by norm_num)

/-- The seconds of a duration that is not negative are a finite `float64` that
is not negative. -/
theorem Seconds64_fin (d : Int) (h0 : 0 ≤ d) (h1 : d ≤ maxDuration) :
    ∃ s, Duration.Seconds64 d = .fin s ∧ 0 ≤ s := by
  have hs0 : 0 ≤ Int.tdiv d Second := Int.tdiv_nonneg h0 (by decide)
  have hs1 : Int.tdiv d Second ≤ 9223372036 := by
    unfold Second maxDuration at *
    have h2 := Int.tdiv_eq_ediv h0 (by decide : (0 : Int) ≤ 1000000000)
    rw [h2]
    omega
  have hn0 : 0 ≤ Int.tmod d Second := Int.tmod_nonneg _ h0
  have hn1 : Int.tmod d Second < 1000000000 := by
    unfold Second
    exact Int.tmod_lt_of_pos _ (by decide)
  obtain ⟨fs, hfs, hfs0, hfs1⟩ := F64.ofRat_le_of_repr (2 ^ 34) ((Int.tdiv d Second : Int) : ℚ)
    (F64.repr64_two_pow 34) (by exact_mod_cast hs0) (by
      have : ((Int.tdiv d Second : Int) : ℚ) ≤ 9223372036 := by exact_mod_cast hs1
      norm_num
      linarith) (by norm_num)
  obtain ⟨fn, hfn, hfn0, hfn1⟩ := F64.ofRat_le_of_repr (2 ^ 30) ((Int.tmod d Second : Int) : ℚ)
    (F64.repr64_two_pow 30) (by exact_mod_cast hn0) (by
      have : ((Int.tmod d Second : Int) : ℚ) ≤ 1000000000 := by exact_mod_cast hn1.le
      norm_num
      linarith) (by norm_num)
  obtain ⟨x, hx, hx0, hx1⟩ := F64.ofRat_le_of_repr (2 ^ 1) (fn / 1000000000)
    (F64.repr64_two_pow 1) (by positivity) (by
      rw [div_le_iff₀ (by norm_num)]
      norm_num at hfn1 ⊢
      linarith) (by norm_num)
  obtain ⟨v, hv, hv0, hv1⟩ := F64.ofRat_le_of_repr (2 ^ 35) (fs + x)
    (F64.repr64_two_pow 35) (by positivity) (by
      norm_num at hfs1 hx1 ⊢
      linarith) (by norm_num)
  refine ⟨v, ?_, hv0⟩
  unfold Duration.Seconds64 F64.ofInt
  rw [hfs, hfn]
  simp only [F64.div]
  rw [if_neg (by norm_num), hx]
  simp only [F64.add]
  exact hv

/-! ## Validation of the parameters in `float64` -/

namespace F64

theorem notNeg_of_not_lt_zero {x : F64} (h : ¬ lt x (fin 0) = true) : NotNeg x := by
  cases x with
  | fin v =>
    simp only [F64.lt, decide_eq_true_eq, not_lt] at h
    exact h
  | posInf => trivial
  | negInf => exact absurd rfl h
  | nan => trivial

theorem toInt64_not_fin {x : F64} (h : ∀ v, x ≠ fin v) : toInt64 x = -9223372036854775808 := by
  cases x with
  | fin v => exact absurd rfl (h v)
  | posInf => rfl
  | negInf => rfl
  | nan => rfl

theorem mul_nan_left (x : F64) : mul nan x = nan := by
  cases x <;> rfl

theorem mul_posInf_left (x : F64) : ∀ v, mul posInf x ≠ fin v := by
  intro v
  cases x <;> simp only [F64.mul] <;> try simp
  split_ifs <;> simp

end F64

theorem derived64_notNeg (rate : F64) (d : Int) (hr : F64.NotNeg rate) (hd : 0 ≤ d) :
    F64.NotNeg (derived64 rate d) :=
  F64.NotNeg.mul (F64.NotNeg.div_fin hr (by norm_num)) (notNeg_Seconds64 d hd)

theorem set64_error_iff_rejected64 (l : limiter64) (tc : Int) (rate : F64)
    (resolution maxWait : Int) :
    (∃ e, l.set tc rate resolution maxWait = .error e) ↔
      rejected64 rate resolution maxWait := by
  unfold rejected64
  unfold limiter64.set
  by_cases h1 : F64.lt rate (.fin 0) = true
  · rw [if_pos h1]
    refine ⟨fun _ => Or.inl ?_, fun _ => ⟨_, rfl⟩⟩
    cases rate <;> simp only [F64.lt] at h1 ⊢
    · rw [decide_eq_true_eq] at h1
      rw [decide_eq_false_iff_not]
      linarith
    · exact absurd h1 (by simp)
  rw [if_neg h1]
  by_cases h2 : rate = .fin 0
  · rw [if_pos h2]
    refine ⟨fun _ => Or.inl ?_, fun _ => ⟨_, rfl⟩⟩
    rw [h2]
    simp [F64.lt]
  rw [if_neg h2]
  by_cases h3 : resolution < 0
  · rw [if_pos h3]
    exact ⟨fun _ => Or.inr (Or.inl h3.le), fun _ => ⟨_, rfl⟩⟩
  rw [if_neg h3]
  by_cases h4 : resolution = 0
  · rw [if_pos h4]
    exact ⟨fun _ => Or.inr (Or.inl h4.le), fun _ => ⟨_, rfl⟩⟩
  rw [if_neg h4]
  by_cases h5 : maxWait < 0
  · rw [if_pos h5]
    exact ⟨fun _ => Or.inr (Or.inr (Or.inl h5.le)), fun _ => ⟨_, rfl⟩⟩
  rw [if_neg h5]
  by_cases h6 : maxWait = 0
  · rw [if_pos h6]
    exact ⟨fun _ => Or.inr (Or.inr (Or.inl h6.le)), fun _ => ⟨_, rfl⟩⟩
  rw [if_neg h6]
  have hnn := F64.notNeg_of_not_lt_zero h1
  have hB : F64.toUint64 (derived64 rate resolution) < 1 ↔
      F64.lt (derived64 rate resolution) (.fin 1) = true :=
    F64.toUint64_lt_one_iff (derived64_notNeg rate resolution hnn (by omega))
  have hP := F64.toInt64_lt_one_iff (derived64 rate maxWait)
  show (∃ e, (if F64.toUint64 (derived64 rate resolution) < 1 then _
    else if F64.toInt64 (derived64 rate maxWait) < 1 then _ else _) = Except.error e) ↔ _
  by_cases h7 : F64.toUint64 (derived64 rate resolution) < 1
  · rw [if_pos h7]
    exact ⟨fun _ => Or.inr (Or.inr (Or.inr (Or.inl (hB.mp h7)))), fun _ => ⟨_, rfl⟩⟩
  rw [if_neg h7]
  by_cases h8 : F64.toInt64 (derived64 rate maxWait) < 1
  · rw [if_pos h8]
    exact ⟨fun _ => Or.inr (Or.inr (Or.inr (Or.inr (hP.mp h8)))), fun _ => ⟨_, rfl⟩⟩
  rw [if_neg h8]
  constructor
  · rintro ⟨e, he⟩
    exact absurd he (by simp)
  · rintro (h | h | h | h | h)
    · -- the rate is a NaN
      exfalso
      apply h8
      have hnan : rate = .nan := by
        cases rate with
        | fin v =>
          simp only [F64.lt, decide_eq_true_eq, not_lt] at h1
          simp only [F64.lt, decide_eq_false_iff_not, not_lt] at h
          exact absurd (congrArg F64.fin (le_antisymm h h1)) h2
        | posInf => simp [F64.lt] at h
        | negInf => exact absurd rfl h1
        | nan => rfl
      rw [hnan]
      unfold derived64
      simp only [F64.div, F64.mul_nan_left, F64.toInt64]
      norm_num
    · exact absurd (lt_of_le_of_ne h h4) h3
    · exact absurd (lt_of_le_of_ne h h6) h5
    · exact absurd (hB.mpr h) h7
    · exact absurd (hP.mpr h) h8

/-! ## The three branches of `request` in `float64` -/

/-- The state a successful `set` leaves behind. -/
theorem set64_ok_eq {l0 l : limiter64} {tc : Int} {rate : F64} {resolution maxWait : Int}
    (hset : l0.set tc rate resolution maxWait = .ok l) :
    ¬ F64.lt rate (.fin 0) = true ∧ 0 < resolution ∧ 0 < maxWait ∧
    l.rate = F64.div rate (.fin 8) ∧
    l.burst = derived64 rate resolution ∧
    l.minPartial = F64.toInt64 (derived64 rate maxWait) ∧
    l.rateCoef = F64.div (.fin 1000000000) (F64.div rate (.fin 8)) ∧
    1 ≤ l.minPartial := by
  unfold limiter64.set at hset
  by_cases h1 : F64.lt rate (.fin 0) = true
  · rw [if_pos h1] at hset
    exact absurd hset (by simp)
  rw [if_neg h1] at hset
  by_cases h2 : rate = .fin 0
  · rw [if_pos h2] at hset
    exact absurd hset (by simp)
  rw [if_neg h2] at hset
  by_cases h3 : resolution < 0
  · rw [if_pos h3] at hset
    exact absurd hset (by simp)
  rw [if_neg h3] at hset
  by_cases h4 : resolution = 0
  · rw [if_pos h4] at hset
    exact absurd hset (by simp)
  rw [if_neg h4] at hset
  by_cases h5 : maxWait < 0
  · rw [if_pos h5] at hset
    exact absurd hset (by simp)
  rw [if_neg h5] at hset
  by_cases h6 : maxWait = 0
  · rw [if_pos h6] at hset
    exact absurd hset (by simp)
  rw [if_neg h6] at hset
  change (if F64.toUint64 (derived64 rate resolution) < 1 then _
    else if F64.toInt64 (derived64 rate maxWait) < 1 then _ else _) = Except.ok l at hset
  by_cases h7 : F64.toUint64 (derived64 rate resolution) < 1
  · rw [if_pos h7] at hset
    exact absurd hset (by simp)
  rw [if_neg h7] at hset
  by_cases h8 : F64.toInt64 (derived64 rate maxWait) < 1
  · rw [if_pos h8] at hset
    exact absurd hset (by simp)
  rw [if_neg h8] at hset
  injection hset with hset
  subst hset
  exact ⟨h1, by omega, by omega, rfl, rfl, rfl, rfl, by
    show 1 ≤ F64.toInt64 (derived64 rate maxWait)
    omega⟩

/-- After a successful `set` the rate in bytes per second is a finite value that
is not negative, the burst is not below zero, and `rateCoef` is not below
zero. -/
theorem set64_ok_facts {l0 l : limiter64} {tc : Int} {rate : F64} {resolution maxWait : Int}
    (hset : l0.set tc rate resolution maxWait = .ok l) :
    1 ≤ l.minPartial ∧ F64.NotNeg l.burst ∧ F64.NotNeg l.rateCoef ∧
    (∀ b, l.burst = .fin b → Repr64 b) ∧ (∃ v, l.rate = .fin v ∧ 0 ≤ v) := by
  obtain ⟨h1, hres, hmw, hrate, hb, hmp, hc, hmp1⟩ := set64_ok_eq hset
  have hnn := F64.notNeg_of_not_lt_zero h1
  have hnr : F64.NotNeg (F64.div rate (.fin 8)) := F64.NotNeg.div_fin hnn (by norm_num)
  -- the new rate is finite: else the conversion of the minimum partial size fails
  have hfin : ∃ v, F64.div rate (.fin 8) = .fin v ∧ 0 ≤ v := by
    cases hx : F64.div rate (.fin 8) with
    | fin v =>
      rw [hx] at hnr
      exact ⟨v, rfl, hnr⟩
    | posInf =>
      exfalso
      rw [hmp] at hmp1
      unfold derived64 at hmp1
      rw [hx, F64.toInt64_not_fin (F64.mul_posInf_left _)] at hmp1
      omega
    | negInf =>
      rw [hx] at hnr
      exact absurd hnr (by simp [F64.NotNeg])
    | nan =>
      exfalso
      rw [hmp] at hmp1
      unfold derived64 at hmp1
      rw [hx, F64.mul_nan_left] at hmp1
      simp [F64.toInt64] at hmp1
  obtain ⟨v, hv, hv0⟩ := hfin
  refine ⟨hmp1, ?_, ?_, ?_, ⟨v, by rw [hrate, hv], hv0⟩⟩
  · rw [hb]
    exact derived64_notNeg rate resolution hnn hres.le
  · rw [hc, hv]
    exact F64.NotNeg.div_fin (by simp [F64.NotNeg]) hv0
  · intro b hbb
    rw [hb] at hbb
    exact F64.mul_eq_fin hbb

/-- The capped accrual computed at the head of `request` is `available`. -/
theorem allowed64_eq_available (l : limiter64) (tc : Int) :
    (if F64.lt l.burst
        (F64.add l.lastToken (F64.mul l.rate (Duration.Seconds64 (Time.Sub tc l.lastTime))))
          = true
      then l.burst
      else F64.add l.lastToken
        (F64.mul l.rate (Duration.Seconds64 (Time.Sub tc l.lastTime))))
      = l.available tc := rfl

theorem request64_full (l : limiter64) (tc bc : Int)
    (h : bc ≤ F64.toInt64 (l.available tc)) :
    l.request tc bc =
      ({ l with lastTime := tc, lastToken := F64.sub (l.available tc) (F64.ofInt bc) }, 0, bc) := by
  unfold limiter64.request
  simp only [allowed64_eq_available]
  rw [if_pos h]

theorem request64_partialGrant (l : limiter64) (tc bc : Int)
    (h1 : ¬ bc ≤ F64.toInt64 (l.available tc))
    (h2 : l.minPartial ≤ F64.toInt64 (l.available tc)) :
    l.request tc bc =
      ({ l with lastTime := tc,
                lastToken := F64.sub (l.available tc)
                  (F64.ofInt (F64.toInt64 (l.available tc))) }, 0,
        F64.toInt64 (l.available tc)) := by
  unfold limiter64.request
  simp only [allowed64_eq_available]
  rw [if_neg h1, if_pos h2]

theorem request64_wait (l : limiter64) (tc bc : Int)
    (h1 : ¬ bc ≤ F64.toInt64 (l.available tc))
    (h2 : ¬ l.minPartial ≤ F64.toInt64 (l.available tc)) :
    l.request tc bc =
      ({ l with
          lastTime := Time.Add tc (F64.toInt64 (F64.mul l.rateCoef
            (F64.sub (F64.ofInt (min bc l.minPartial)) (l.available tc)))),
          lastToken := .fin 0 },
        F64.toInt64 (F64.mul l.rateCoef
          (F64.sub (F64.ofInt (min bc l.minPartial)) (l.available tc))),
        min bc l.minPartial) := by
  unfold limiter64.request
  simp only [allowed64_eq_available]
  rw [if_neg h1, if_neg h2]
  have hm : (if bc < l.minPartial then bc else l.minPartial) = min bc l.minPartial := by
    rcases lt_or_le bc l.minPartial with h | h
    · rw [if_pos h, min_eq_left h.le]
    · rw [if_neg (not_lt.mpr h), min_eq_right h]
  rw [hm]

/-- The available tokens are a `float64` value, and they do not exceed a finite
burst. -/
theorem available64_fin (l : limiter64) (now : Int) (b a : ℚ) (hb : l.burst = .fin b)
    (hbr : Repr64 b) (ha : l.available now = .fin a) : Repr64 a ∧ a ≤ b := by
  unfold limiter64.available F64.min at ha
  rw [hb] at ha
  split_ifs at ha with hlt
  · injection ha with ha
    rw [← ha]
    exact ⟨hbr, le_refl _⟩
  · refine ⟨F64.add_eq_fin ha, ?_⟩
    rw [ha] at hlt
    simp only [F64.lt, decide_eq_true_eq, not_lt] at hlt
    exact hlt

theorem available64_ne_posInf (l : limiter64) (now : Int) (b : ℚ) (hb : l.burst = .fin b) :
    l.available now ≠ .posInf := by
  unfold limiter64.available F64.min
  rw [hb]
  split_ifs with hlt
  · simp
  · intro h
    rw [h] at hlt
    exact hlt rfl

/-- In the wait branch the missing tokens `float64(w) - available` are not below
zero, when the burst is below `2^63`. -/
theorem missing64_notNeg (l : limiter64) (now w : Int) (b : ℚ) (hb : l.burst = .fin b)
    (hbr : Repr64 b) (hb63 : b < 9223372036854775808) (hw0 : 0 ≤ w)
    (hw : F64.toInt64 (l.available now) < w) :
    F64.NotNeg (F64.sub (F64.ofInt w) (l.available now)) := by
  have hW := F64.ofRat_nonneg_num (w : ℚ) (by exact_mod_cast hw0)
  unfold F64.sub F64.ofInt
  cases ha : l.available now with
  | nan =>
    rcases hW with hW | ⟨w', hW, -⟩ <;> rw [hW] <;> trivial
  | posInf => exact absurd ha (available64_ne_posInf l now b hb)
  | negInf =>
    rcases hW with hW | ⟨w', hW, -⟩ <;> rw [hW] <;> trivial
  | fin a =>
    obtain ⟨har, hab⟩ := available64_fin l now b a hb hbr ha
    rcases le_or_lt a 0 with ha0 | ha0
    · rcases hW with hW | ⟨w', hW, hw'⟩ <;> rw [hW]
      · trivial
      · exact F64.ofRat_nonneg _ (by linarith)
    · -- the conversion of a positive value below `2^63` is its integer part
      have hconv : F64.toInt64 (.fin a) = truncate a := by
        simp only [F64.toInt64]
        have h0 := truncate_nonneg ha0.le
        have h1 : truncate a ≤ 9223372036854775807 := by
          by_contra hc
          have : (9223372036854775808 : Int) ≤ truncate a := by omega
          rw [F64.le_truncate_iff (by norm_num)] at this
          push_cast at this
          linarith
        rw [if_neg (by omega)]
      rw [ha, hconv] at hw
      have h2 := lt_truncate_add_one a
      have h3 : (truncate a : ℚ) + 1 ≤ (w : ℚ) := by exact_mod_cast hw
      rcases F64.ofRat_ge_of_repr a (w : ℚ) har ha0 (by linarith) with hW' | ⟨w', hW', hw'⟩ <;>
        rw [hW']
      · trivial
      · exact F64.ofRat_nonneg _ (by linarith)

theorem Sub_le_maxDuration (t u : Int) : Time.Sub t u ≤ maxDuration := by
  unfold Time.Sub minDuration maxDuration
  split_ifs <;> omega

/-- The available tokens of a request made in turn (a finite `lastToken` that
is not negative, `now` not before `lastTime`) on a limiter with a finite rate
and burst are a finite `float64` that is not negative. -/
theorem available64_fin_nonneg (l : limiter64) (now : Int) (r k0 b : ℚ)
    (hrate : l.rate = .fin r) (hr : 0 ≤ r) (htok : l.lastToken = .fin k0) (hk : 0 ≤ k0)
    (hb : l.burst = .fin b) (hb0 : 0 ≤ b) (ht : l.lastTime ≤ now) :
    ∃ a, l.available now = .fin a ∧ 0 ≤ a := by
  obtain ⟨s, hs, hs0⟩ := Seconds64_fin (Time.Sub now l.lastTime) (Sub_nonneg _ _ ht)
    (Sub_le_maxDuration _ _)
  unfold limiter64.available F64.min
  rw [hrate, htok, hb, hs]
  simp only [F64.mul]
  rcases F64.ofRat_nonneg_num (r * s) (mul_nonneg hr hs0) with hp | ⟨p, hp, hp0⟩
  · rw [hp]
    simp only [F64.add, F64.lt, if_true]
    exact ⟨b, rfl, hb0⟩
  · rw [hp]
    simp only [F64.add]
    rcases F64.ofRat_nonneg_num (k0 + p) (add_nonneg hk hp0) with ha | ⟨a, ha, ha0⟩
    · rw [ha]
      simp only [F64.lt, if_true]
      exact ⟨b, rfl, hb0⟩
    · rw [ha]
      simp only [F64.lt, decide_eq_true_eq]
      split_ifs
      · exact ⟨b, rfl, hb0⟩
      · exact ⟨a, rfl, ha0⟩

/-- The wait of a request whose available tokens are a finite count that is not
negative and below `2^63`, on a limiter whose minimum partial size is at most
`2^53` bytes and takes at most `2^62` ns to accrue: the conversion does not
overflow and the wait is not negative. -/
theorem wait64_nonneg (l : limiter64) (now : Int) (a c : ℚ)
    (hav : l.available now = .fin a) (ha : 0 ≤ a) (ha63 : a < 9223372036854775808)
    (hc : l.rateCoef = .fin c) (hc0 : 0 ≤ c)
    (hmp : l.minPartial ≤ 9007199254740992)
    (hcm : c * (l.minPartial : ℚ) ≤ 4611686018427387904)
    (w : Int) (hw1 : F64.toInt64 (l.available now) < w) (hw2 : w ≤ l.minPartial) :
    0 ≤ F64.toInt64 (F64.mul l.rateCoef (F64.sub (F64.ofInt w) (l.available now))) := by
  have hconv : F64.toInt64 (.fin a) = truncate a := by
    simp only [F64.toInt64]
    have h0 := truncate_nonneg ha
    have h1 : truncate a ≤ 9223372036854775807 := by
      by_contra hc'
      have : (9223372036854775808 : Int) ≤ truncate a := by omega
      rw [F64.le_truncate_iff (by norm_num)] at this
      push_cast at this
      linarith
    rw [if_neg (by omega)]
  rw [hav, hconv] at hw1
  have ht0 := truncate_nonneg ha
  have hw0 : 0 < w := by omega
  have haw : a < (w : ℚ) := by
    have h2 := lt_truncate_add_one a
    have h3 : (truncate a : ℚ) + 1 ≤ (w : ℚ) := by exact_mod_cast hw1
    linarith
  have hw53 : w ≤ 9007199254740992 := by omega
  have hw53q : (w : ℚ) ≤ 9007199254740992 := by exact_mod_cast hw53
  have hwq0 : (0 : ℚ) < (w : ℚ) := by exact_mod_cast hw0
  obtain ⟨D, hD, hD0, hD1⟩ := F64.ofRat_le_of_repr (w : ℚ) ((w : ℚ) + -a)
    (F64.repr64_intCast w (by rw [abs_of_pos hw0]; exact hw53)) (by linarith) (by linarith)
    (lt_of_le_of_lt hw53q (by norm_num))
  have hcD : c * D ≤ 2 ^ 62 := by
    have h1 : c * D ≤ c * (w : ℚ) := mul_le_mul_of_nonneg_left hD1 hc0
    have h2 : c * (w : ℚ) ≤ c * (l.minPartial : ℚ) :=
      mul_le_mul_of_nonneg_left (by exact_mod_cast hw2) hc0
    norm_num
    linarith
  obtain ⟨P, hP, hP0, hP1⟩ := F64.ofRat_le_of_repr (2 ^ 62) (c * D) (F64.repr64_two_pow 62)
    (mul_nonneg hc0 hD0) hcD (by norm_num)
  rw [hav, hc, F64.ofInt_exact w hw0 hw53]
  unfold F64.sub
  simp only [F64.neg, F64.add]
  rw [hD]
  simp only [F64.mul]
  rw [hP]
  have hPt := truncate_nonneg hP0
  have hPt1 : truncate P ≤ 9223372036854775807 := by
    by_contra hc'
    have : (9223372036854775808 : Int) ≤ truncate P := by omega
    rw [F64.le_truncate_iff (by norm_num)] at this
    push_cast at this
    norm_num at hP1
    linarith
  simp only [F64.toInt64]
  rw [if_neg (by omega)]
  exact hPt

/-! ## Evaluating the `float64` limiter -/

theorem Seconds64_eq (d s n : Int) (fs fn x v : ℚ)
    (hs : Int.tdiv d Second = s) (hn : Int.tmod d Second = n)
    (h1 : F64.ofRat ((s : Int) : ℚ) = .fin fs) (h2 : F64.ofRat ((n : Int) : ℚ) = .fin fn)
    (h3 : F64.ofRat (fn / 1000000000) = .fin x) (h4 : F64.ofRat (fs + x) = .fin v) :
    Duration.Seconds64 d = .fin v := by
  unfold Duration.Seconds64 F64.ofInt
  rw [hs, hn, h1, h2]
  simp only [F64.div]
  rw [if_neg (by norm_num), h3]
  simp only [F64.add]
  exact h4

theorem toInt64_eval (q : ℚ) (k : Int) (h : truncate q = k)
    (h1 : -9223372036854775808 ≤ k) (h2 : k ≤ 9223372036854775807) :
    F64.toInt64 (.fin q) = k := by
  simp only [F64.toInt64]
  rw [h, if_neg (by omega)]

theorem toInt64_eval_overflow (q : ℚ) (h : 9223372036854775808 ≤ q) :
    F64.toInt64 (.fin q) = -9223372036854775808 := by
  simp only [F64.toInt64]
  rw [if_pos]
  right
  have := (@F64.le_truncate_iff q 9223372036854775808 (by norm_num)).mpr (by exact_mod_cast h)
  omega

/-- Evaluation of `truncate` at a negative value, from the two bounds. -/
theorem truncate_eq_of_bounds_neg {q : ℚ} {k : Int} (h0 : k ≤ 0) (h1 : q ≤ (k : ℚ))
    (h2 : (k : ℚ) - 1 < q) : truncate q = k := by
  have h := @truncate_eq_of_bounds (-q) (-k) (by omega) (by push_cast; linarith)
    (by push_cast; linarith)
  rw [truncate_neg] at h
  omega

/-- A call of `set` on a fresh limiter with acceptable parameters, from the
roundings of its operations. -/
theorem set64_eval (l : limiter64) (r : ℚ) (resolution maxWait : Int)
    (nr sr sm b p c : ℚ) (mp : Int)
    (hr : 0 < r) (hres : 0 < resolution) (hmw : 0 < maxWait)
    (h1 : F64.ofRat (r / 8) = .fin nr) (h2 : Duration.Seconds64 resolution = .fin sr)
    (h3 : Duration.Seconds64 maxWait = .fin sm) (h4 : F64.ofRat (nr * sr) = .fin b)
    (h5 : F64.ofRat (nr * sm) = .fin p) (hb : 1 ≤ b) (hp : truncate p = mp) (hmp1 : 1 ≤ mp)
    (hmp2 : mp ≤ 9223372036854775807) (hnr : nr ≠ 0)
    (h6 : F64.ofRat (1000000000 / nr) = .fin c) :
    l.set 0 (.fin r) resolution maxWait = .ok
      { l with rate := .fin nr, burst := .fin b, minPartial := mp, rateCoef := .fin c } := by
  have hd : ∀ d, derived64 (.fin r) d = F64.mul (.fin nr) (Duration.Seconds64 d) := by
    intro d
    unfold derived64
    simp only [F64.div]
    rw [if_neg (by norm_num), h1]
  have hB : derived64 (.fin r) resolution = .fin b := by
    rw [hd, h2]
    exact h4
  have hP : derived64 (.fin r) maxWait = .fin p := by
    rw [hd, h3]
    exact h5
  have hnr' : F64.div (.fin r) (.fin 8) = .fin nr := by
    simp only [F64.div]
    rw [if_neg (by norm_num), h1]
  unfold limiter64.set
  rw [if_neg (by simp only [F64.lt, decide_eq_true_eq]; linarith),
    if_neg (by intro h; injection h with h; linarith),
    if_neg (by omega), if_neg (by omega), if_neg (by omega), if_neg (by omega)]
  show (if F64.toUint64 (derived64 (.fin r) resolution) < 1 then _
    else if F64.toInt64 (derived64 (.fin r) maxWait) < 1 then _ else _) = _
  rw [hB, hP, toInt64_eval p mp hp (by omega) hmp2,
    if_neg (by
      rw [F64.toUint64_lt_one_iff (by simp only [F64.NotNeg]; linarith)]
      simp only [F64.lt, decide_eq_true_eq]
      linarith),
    if_neg (by omega)]
  simp only [Time.IsZero, beq_self_eq_true, Bool.not_true, Bool.and_false, Bool.false_eq_true,
    if_false]
  rw [hnr']
  simp only [F64.div]
  rw [if_neg hnr, h6, h2, h3]
  simp only [F64.mul]
  rw [h4, h5, toInt64_eval p mp hp (by omega) hmp2]

/-- A call of `set` whose derived minimum partial size does not convert to a
count of at least one byte, from the roundings of its operations. -/
theorem set64_eval_tooSmallWait (l : limiter64) (tc : Int) (r : ℚ) (resolution maxWait : Int)
    (nr sr sm b p : ℚ)
    (hr : 0 < r) (hres : 0 < resolution) (hmw : 0 < maxWait)
    (h1 : F64.ofRat (r / 8) = .fin nr) (h2 : Duration.Seconds64 resolution = .fin sr)
    (h3 : Duration.Seconds64 maxWait = .fin sm) (h4 : F64.ofRat (nr * sr) = .fin b)
    (h5 : F64.ofRat (nr * sm) = .fin p) (hb : 1 ≤ b)
    (hp : p < 1 ∨ 9223372036854775808 ≤ p) :
    l.set tc (.fin r) resolution maxWait = .error .rateOrMaxWaitTooSmall := by
  have hd : ∀ d, derived64 (.fin r) d = F64.mul (.fin nr) (Duration.Seconds64 d) := by
    intro d
    unfold derived64
    simp only [F64.div]
    rw [if_neg (by norm_num), h1]
  have hB : derived64 (.fin r) resolution = .fin b := by
    rw [hd, h2]
    exact h4
  have hP : derived64 (.fin r) maxWait = .fin p := by
    rw [hd, h3]
    exact h5
  unfold limiter64.set
  rw [if_neg (by simp only [F64.lt, decide_eq_true_eq]; linarith),
    if_neg (by intro h; injection h with h; linarith),
    if_neg (by omega), if_neg (by omega), if_neg (by omega), if_neg (by omega)]
  show (if F64.toUint64 (derived64 (.fin r) resolution) < 1 then _
    else if F64.toInt64 (derived64 (.fin r) maxWait) < 1 then _ else _) = _
  rw [hB, hP,
    if_neg (by
      rw [F64.toUint64_lt_one_iff (by simp only [F64.NotNeg]; linarith)]
      simp only [F64.lt, decide_eq_true_eq]
      linarith),
    if_pos (by
      rw [F64.toInt64_lt_one_iff]
      simp only [F64.le, F64.lt, decide_eq_true_eq]
      rintro ⟨ha, hb'⟩
      rcases hp with hp | hp <;> linarith)]

/-- A call of `set` whose derived burst is below one byte, from the roundings of
its operations. -/
theorem set64_eval_tooSmallBurst (l : limiter64) (tc : Int) (r : ℚ)
    (resolution maxWait : Int) (nr sr b : ℚ)
    (hr : 0 < r) (hres : 0 < resolution) (hmw : 0 < maxWait)
    (h1 : F64.ofRat (r / 8) = .fin nr) (h2 : Duration.Seconds64 resolution = .fin sr)
    (h4 : F64.ofRat (nr * sr) = .fin b) (hb0 : 0 ≤ b) (hb : b < 1) :
    l.set tc (.fin r) resolution maxWait = .error .rateOrResolutionTooSmall := by
  have hB : derived64 (.fin r) resolution = .fin b := by
    unfold derived64
    simp only [F64.div]
    rw [if_neg (by norm_num), h1, h2]
    exact h4
  unfold limiter64.set
  rw [if_neg (by simp only [F64.lt, decide_eq_true_eq]; linarith),
    if_neg (by intro h; injection h with h; linarith),
    if_neg (by omega), if_neg (by omega), if_neg (by omega), if_neg (by omega)]
  show (if F64.toUint64 (derived64 (.fin r) resolution) < 1 then _ else _) = _
  rw [hB,
    if_pos (by
      rw [F64.toUint64_lt_one_iff (by simp only [F64.NotNeg]; exact hb0)]
      simp only [F64.lt, decide_eq_true_eq]
      exact hb)]

/-- The available tokens, from the roundings of the operations. -/
theorem available64_eval (l : limiter64) (now : Int) (r k bq sx p a : ℚ)
    (hrate : l.rate = .fin r) (htok : l.lastToken = .fin k) (hburst : l.burst = .fin bq)
    (hs : Duration.Seconds64 (Time.Sub now l.lastTime) = .fin sx)
    (hp : F64.ofRat (r * sx) = .fin p) (ha : F64.ofRat (k + p) = .fin a) (hcap : a ≤ bq) :
    l.available now = .fin a := by
  unfold limiter64.available F64.min
  rw [hrate, htok, hburst, hs]
  simp only [F64.mul]
  rw [hp]
  simp only [F64.add]
  rw [ha]
  simp only [F64.lt, decide_eq_true_eq]
  rw [if_neg (not_lt.mpr hcap)]

/-! ## Roundings of the examples -/

theorem round_int_1 : F64.ofRat (((1 : Int) : ℚ)) = .fin 1 :=
  F64.ofRat_eq _ _ (-52) (4503599627370496) (by norm_num) (by norm_num [le_abs])
    (by norm_num [abs_lt]) (by norm_num [abs_lt]) (by norm_num) (by norm_num [abs_lt])

theorem round_int_0 : F64.ofRat (((0 : Int) : ℚ)) = .fin 0 := by
  rw [show ((((0 : Int) : ℚ)) : ℚ) = 0 from by norm_num]
  exact F64.ofRat_zero

theorem round_frac_1s : F64.ofRat (0 / 1000000000) = .fin 0 := by
  rw [show ((0 / 1000000000) : ℚ) = 0 from by norm_num]
  exact F64.ofRat_zero

theorem round_seconds_1s : F64.ofRat (1 + 0) = .fin 1 :=
  F64.ofRat_eq _ _ (-52) (4503599627370496) (by norm_num) (by norm_num [le_abs])
    (by norm_num [abs_lt]) (by norm_num [abs_lt]) (by norm_num) (by norm_num [abs_lt])

theorem Seconds64_1s : Duration.Seconds64 Second = .fin 1 :=
  Seconds64_eq _ (1) (0) _ _ _ _ (by decide) (by decide) round_int_1 round_int_0
    round_frac_1s round_seconds_1s

theorem round_int_500000000 : F64.ofRat (((500000000 : Int) : ℚ)) = .fin 500000000 :=
  F64.ofRat_eq _ _ (-24) (8388608000000000) (by norm_num) (by norm_num [le_abs])
    (by norm_num [abs_lt]) (by norm_num [abs_lt]) (by norm_num) (by norm_num [abs_lt])

theorem round_frac_500ms : F64.ofRat (500000000 / 1000000000) = .fin (1 / 2) :=
  F64.ofRat_eq _ _ (-53) (4503599627370496) (by norm_num) (by norm_num [le_abs])
    (by norm_num [abs_lt]) (by norm_num [abs_lt]) (by norm_num) (by norm_num [abs_lt])

theorem round_seconds_500ms : F64.ofRat (0 + 1 / 2) = .fin (1 / 2) :=
  F64.ofRat_eq _ _ (-53) (4503599627370496) (by norm_num) (by norm_num [le_abs])
    (by norm_num [abs_lt]) (by norm_num [abs_lt]) (by norm_num) (by norm_num [abs_lt])

theorem Seconds64_500ms : Duration.Seconds64 (Millisecond * 500) = .fin (1 / 2) :=
  Seconds64_eq _ (0) (500000000) _ _ _ _ (by decide) (by decide) round_int_0 round_int_500000000
    round_frac_500ms round_seconds_500ms

theorem round_int_10 : F64.ofRat (((10 : Int) : ℚ)) = .fin 10 :=
  F64.ofRat_eq _ _ (-49) (5629499534213120) (by norm_num) (by norm_num [le_abs])
    (by norm_num [abs_lt]) (by norm_num [abs_lt]) (by norm_num) (by norm_num [abs_lt])

theorem round_frac_10s : F64.ofRat (0 / 1000000000) = .fin 0 := by
  rw [show ((0 / 1000000000) : ℚ) = 0 from by norm_num]
  exact F64.ofRat_zero

theorem round_seconds_10s : F64.ofRat (10 + 0) = .fin 10 :=
  F64.ofRat_eq _ _ (-49) (5629499534213120) (by norm_num) (by norm_num [le_abs])
    (by norm_num [abs_lt]) (by norm_num [abs_lt]) (by norm_num) (by norm_num [abs_lt])

theorem Seconds64_10s : Duration.Seconds64 (Second * 10) = .fin 10 :=
  Seconds64_eq _ (10) (0) _ _ _ _ (by decide) (by decide) round_int_10 round_int_0
    round_frac_10s round_seconds_10s

theorem round_int_469000000 : F64.ofRat (((469000000 : Int) : ℚ)) = .fin 469000000 :=
  F64.ofRat_eq _ _ (-24) (7868514304000000) (by norm_num) (by norm_num [le_abs])
    (by norm_num [abs_lt]) (by norm_num [abs_lt]) (by norm_num) (by norm_num [abs_lt])

theorem round_frac_469ms : F64.ofRat (469000000 / 1000000000) = .fin (4224376450473525 / 9007199254740992) :=
  F64.ofRat_eq _ _ (-54) (8448752900947050) (by norm_num) (by norm_num [le_abs])
    (by norm_num [abs_lt]) (by norm_num [abs_lt]) (by norm_num) (by norm_num [abs_lt])

theorem round_seconds_469ms : F64.ofRat (0 + 4224376450473525 / 9007199254740992) = .fin (4224376450473525 / 9007199254740992) :=
  F64.ofRat_eq _ _ (-54) (8448752900947050) (by norm_num) (by norm_num [le_abs])
    (by norm_num [abs_lt]) (by norm_num [abs_lt]) (by norm_num) (by norm_num [abs_lt])

theorem Seconds64_469ms : Duration.Seconds64 (Millisecond * 469) = .fin (4224376450473525 / 9007199254740992) :=
  Seconds64_eq _ (0) (469000000) _ _ _ _ (by decide) (by decide) round_int_0 round_int_469000000
    round_frac_469ms round_seconds_469ms

theorem round_int_8 : F64.ofRat (((8 : Int) : ℚ)) = .fin 8 :=
  F64.ofRat_eq _ _ (-49) (4503599627370496) (by norm_num) (by norm_num [le_abs])
    (by norm_num [abs_lt]) (by norm_num [abs_lt]) (by norm_num) (by norm_num [abs_lt])

theorem round_frac_8s : F64.ofRat (0 / 1000000000) = .fin 0 := by
  rw [show ((0 / 1000000000) : ℚ) = 0 from by norm_num]
  exact F64.ofRat_zero

theorem round_seconds_8s : F64.ofRat (8 + 0) = .fin 8 :=
  F64.ofRat_eq _ _ (-49) (4503599627370496) (by norm_num) (by norm_num [le_abs])
    (by norm_num [abs_lt]) (by norm_num [abs_lt]) (by norm_num) (by norm_num [abs_lt])

theorem Seconds64_8s : Duration.Seconds64 (Second * 8) = .fin 8 :=
  Seconds64_eq _ (8) (0) _ _ _ _ (by decide) (by decide) round_int_8 round_int_0
    round_frac_8s round_seconds_8s

theorem round_int_580000000 : F64.ofRat (((580000000 : Int) : ℚ)) = .fin 580000000 :=
  F64.ofRat_eq _ _ (-23) (4865392640000000) (by norm_num) (by norm_num [le_abs])
    (by norm_num [abs_lt]) (by norm_num [abs_lt]) (by norm_num) (by norm_num [abs_lt])

theorem round_frac_580ms : F64.ofRat (580000000 / 1000000000) = .fin (5224175567749775 / 9007199254740992) :=
  F64.ofRat_eq _ _ (-53) (5224175567749775) (by norm_num) (by norm_num [le_abs])
    (by norm_num [abs_lt]) (by norm_num [abs_lt]) (by norm_num) (by norm_num [abs_lt])

theorem round_seconds_580ms : F64.ofRat (0 + 5224175567749775 / 9007199254740992) = .fin (5224175567749775 / 9007199254740992) :=
  F64.ofRat_eq _ _ (-53) (5224175567749775) (by norm_num) (by norm_num [le_abs])
    (by norm_num [abs_lt]) (by norm_num [abs_lt]) (by norm_num) (by norm_num [abs_lt])

theorem Seconds64_580ms : Duration.Seconds64 580000000 = .fin (5224175567749775 / 9007199254740992) :=
  Seconds64_eq _ (0) (580000000) _ _ _ _ (by decide) (by decide) round_int_0 round_int_580000000
    round_frac_580ms round_seconds_580ms

theorem round_int_neg9223372036 : F64.ofRat (((-9223372036 : Int) : ℚ)) = .fin (-9223372036) :=
  F64.ofRat_eq _ _ (-19) (-4835703278010368) (by norm_num) (by norm_num [le_abs])
    (by norm_num [abs_lt]) (by norm_num [abs_lt]) (by norm_num) (by norm_num [abs_lt])

theorem round_int_neg854775808 : F64.ofRat (((-854775808 : Int) : ℚ)) = .fin (-854775808) :=
  F64.ofRat_eq _ _ (-23) (-7170379181195264) (by norm_num) (by norm_num [le_abs])
    (by norm_num [abs_lt]) (by norm_num [abs_lt]) (by norm_num) (by norm_num [abs_lt])

theorem round_frac_minDuration : F64.ofRat (-854775808 / 1000000000) = .fin (-7699136020788229 / 9007199254740992) :=
  F64.ofRat_eq _ _ (-53) (-7699136020788229) (by norm_num) (by norm_num [le_abs])
    (by norm_num [abs_lt]) (by norm_num [abs_lt]) (by norm_num) (by norm_num [abs_lt])

theorem round_seconds_minDuration : F64.ofRat (-9223372036 + -7699136020788229 / 9007199254740992) = .fin (-4835703278458517 / 524288) :=
  F64.ofRat_eq _ _ (-19) (-4835703278458517) (by norm_num) (by norm_num [le_abs])
    (by norm_num [abs_lt]) (by norm_num [abs_lt]) (by norm_num) (by norm_num [abs_lt])

theorem Seconds64_minDuration : Duration.Seconds64 minDuration = .fin (-4835703278458517 / 524288) :=
  Seconds64_eq _ (-9223372036) (-854775808) _ _ _ _ (by decide) (by decide) round_int_neg9223372036 round_int_neg854775808
    round_frac_minDuration round_seconds_minDuration

theorem round_rate_16 : F64.ofRat (16 / 8) = .fin 2 :=
  F64.ofRat_eq _ _ (-51) (4503599627370496) (by norm_num) (by norm_num [le_abs])
    (by norm_num [abs_lt]) (by norm_num [abs_lt]) (by norm_num) (by norm_num [abs_lt])

theorem round_burst_16 : F64.ofRat (2 * 1) = .fin 2 :=
  F64.ofRat_eq _ _ (-51) (4503599627370496) (by norm_num) (by norm_num [le_abs])
    (by norm_num [abs_lt]) (by norm_num [abs_lt]) (by norm_num) (by norm_num [abs_lt])

theorem round_minPartial_16 : F64.ofRat (2 * (1 / 2)) = .fin 1 :=
  F64.ofRat_eq _ _ (-52) (4503599627370496) (by norm_num) (by norm_num [le_abs])
    (by norm_num [abs_lt]) (by norm_num [abs_lt]) (by norm_num) (by norm_num [abs_lt])

theorem round_rateCoef_16 : F64.ofRat (1000000000 / 2) = .fin 500000000 :=
  F64.ofRat_eq _ _ (-24) (8388608000000000) (by norm_num) (by norm_num [le_abs])
    (by norm_num [abs_lt]) (by norm_num [abs_lt]) (by norm_num) (by norm_num [abs_lt])

theorem round_rate_400 : F64.ofRat (400 / 8) = .fin 50 :=
  F64.ofRat_eq _ _ (-47) (7036874417766400) (by norm_num) (by norm_num [le_abs])
    (by norm_num [abs_lt]) (by norm_num [abs_lt]) (by norm_num) (by norm_num [abs_lt])

theorem round_burst_400 : F64.ofRat (50 * 1) = .fin 50 :=
  F64.ofRat_eq _ _ (-47) (7036874417766400) (by norm_num) (by norm_num [le_abs])
    (by norm_num [abs_lt]) (by norm_num [abs_lt]) (by norm_num) (by norm_num [abs_lt])

theorem round_minPartial_400 : F64.ofRat (50 * (1 / 2)) = .fin 25 :=
  F64.ofRat_eq _ _ (-48) (7036874417766400) (by norm_num) (by norm_num [le_abs])
    (by norm_num [abs_lt]) (by norm_num [abs_lt]) (by norm_num) (by norm_num [abs_lt])

theorem round_rateCoef_400 : F64.ofRat (1000000000 / 50) = .fin 20000000 :=
  F64.ofRat_eq _ _ (-28) (5368709120000000) (by norm_num) (by norm_num [le_abs])
    (by norm_num [abs_lt]) (by norm_num [abs_lt]) (by norm_num) (by norm_num [abs_lt])

theorem round_rate_near17 : F64.ofRat (4801278920437629 / 281474976710656 / 8) = .fin (4801278920437629 / 2251799813685248) :=
  F64.ofRat_eq _ _ (-51) (4801278920437629) (by norm_num) (by norm_num [le_abs])
    (by norm_num [abs_lt]) (by norm_num [abs_lt]) (by norm_num) (by norm_num [abs_lt])

theorem round_burst_near17 : F64.ofRat (4801278920437629 / 2251799813685248 * 10) = .fin (1500399662636759 / 70368744177664) :=
  F64.ofRat_eq _ _ (-48) (6001598650547036) (by norm_num) (by norm_num [le_abs])
    (by norm_num [abs_lt]) (by norm_num [abs_lt]) (by norm_num) (by norm_num [abs_lt])

theorem round_minPartial_near17 : F64.ofRat (4801278920437629 / 2251799813685248 * (4224376450473525 / 9007199254740992)) = .fin (9007199254740991 / 9007199254740992) :=
  F64.ofRat_eq _ _ (-53) (9007199254740991) (by norm_num) (by norm_num [le_abs])
    (by norm_num [abs_lt]) (by norm_num [abs_lt]) (by norm_num) (by norm_num [abs_lt])

theorem round_rate_2e19 : F64.ofRat (20000000000000000000 / 8) = .fin 2500000000000000000 :=
  F64.ofRat_eq _ _ (9) (4882812500000000) (by norm_num) (by norm_num [le_abs])
    (by norm_num [abs_lt]) (by norm_num [abs_lt]) (by norm_num) (by norm_num [abs_lt])

theorem round_burst_2e19 : F64.ofRat (2500000000000000000 * 1) = .fin 2500000000000000000 :=
  F64.ofRat_eq _ _ (9) (4882812500000000) (by norm_num) (by norm_num [le_abs])
    (by norm_num [abs_lt]) (by norm_num [abs_lt]) (by norm_num) (by norm_num [abs_lt])

theorem round_minPartial_2e19 : F64.ofRat (2500000000000000000 * 8) = .fin 20000000000000000000 :=
  F64.ofRat_eq _ _ (12) (4882812500000000) (by norm_num) (by norm_num [le_abs])
    (by norm_num [abs_lt]) (by norm_num [abs_lt]) (by norm_num) (by norm_num [abs_lt])

theorem round_rate_1 : F64.ofRat (1 / 8) = .fin (1 / 8) :=
  F64.ofRat_eq _ _ (-55) (4503599627370496) (by norm_num) (by norm_num [le_abs])
    (by norm_num [abs_lt]) (by norm_num [abs_lt]) (by norm_num) (by norm_num [abs_lt])

theorem round_burst_1 : F64.ofRat (1 / 8 * 1) = .fin (1 / 8) :=
  F64.ofRat_eq _ _ (-55) (4503599627370496) (by norm_num) (by norm_num [le_abs])
    (by norm_num [abs_lt]) (by norm_num [abs_lt]) (by norm_num) (by norm_num [abs_lt])

theorem round_accrued_580ms : F64.ofRat (50 * (5224175567749775 / 9007199254740992)) = .fin (8162774324609023 / 281474976710656) :=
  F64.ofRat_eq _ _ (-48) (8162774324609023) (by norm_num) (by norm_num [le_abs])
    (by norm_num [abs_lt]) (by norm_num [abs_lt]) (by norm_num) (by norm_num [abs_lt])

theorem round_allowed_580ms : F64.ofRat (0 + 8162774324609023 / 281474976710656) = .fin (8162774324609023 / 281474976710656) :=
  F64.ofRat_eq _ _ (-48) (8162774324609023) (by norm_num) (by norm_num [le_abs])
    (by norm_num [abs_lt]) (by norm_num [abs_lt]) (by norm_num) (by norm_num [abs_lt])

theorem round_accrued_minDuration : F64.ofRat (2 * (-4835703278458517 / 524288)) = .fin (-4835703278458517 / 262144) :=
  F64.ofRat_eq _ _ (-18) (-4835703278458517) (by norm_num) (by norm_num [le_abs])
    (by norm_num [abs_lt]) (by norm_num [abs_lt]) (by norm_num) (by norm_num [abs_lt])

theorem round_allowed_minDuration : F64.ofRat (0 + -4835703278458517 / 262144) = .fin (-4835703278458517 / 262144) :=
  F64.ofRat_eq _ _ (-18) (-4835703278458517) (by norm_num) (by norm_num [le_abs])
    (by norm_num [abs_lt]) (by norm_num [abs_lt]) (by norm_num) (by norm_num [abs_lt])

theorem round_missing_minDuration : F64.ofRat (1 + -(-4835703278458517 / 262144)) = .fin (4835703278720661 / 262144) :=
  F64.ofRat_eq _ _ (-18) (4835703278720661) (by norm_num) (by norm_num [le_abs])
    (by norm_num [abs_lt]) (by norm_num [abs_lt]) (by norm_num) (by norm_num [abs_lt])

theorem round_wait_minDuration : F64.ofRat (500000000 * (4835703278720661 / 262144)) = .fin 9223372037354776576 :=
  F64.ofRat_eq _ _ (11) (4503599627614637) (by norm_num) (by norm_num [le_abs])
    (by norm_num [abs_lt]) (by norm_num [abs_lt]) (by norm_num) (by norm_num [abs_lt])

/-! ## The concrete `float64` limiters -/

theorem newLimiter64_16 :
    newLimiter64 (.fin 16) Second (Millisecond * 500) = .ok limiter64_16 := by
  unfold newLimiter64
  rw [set64_eval limiter64.zero 16 Second (Millisecond * 500) 2 1 (1 / 2) 2 1 500000000 1
    (by norm_num) (by decide) (by decide) round_rate_16 Seconds64_1s Seconds64_500ms
    round_burst_16 round_minPartial_16 (by norm_num)
    (truncate_eq_of_bounds (by norm_num) (by norm_num) (by norm_num)) (by decide) (by decide)
    (by norm_num) round_rateCoef_16]
  rfl

theorem newLimiter64_400 :
    newLimiter64 (.fin 400) Second (Millisecond * 500) = .ok limiter64_400 := by
  unfold newLimiter64
  rw [set64_eval limiter64.zero 400 Second (Millisecond * 500) 50 1 (1 / 2) 50 25 20000000 25
    (by norm_num) (by decide) (by decide) round_rate_400 Seconds64_1s Seconds64_500ms
    round_burst_400 round_minPartial_400 (by norm_num)
    (truncate_eq_of_bounds (by norm_num) (by norm_num) (by norm_num)) (by decide) (by decide)
    (by norm_num) round_rateCoef_400]
  rfl

theorem newLimiter64_1 :
    newLimiter64 (.fin 1) Second (Millisecond * 500) = .error .rateOrResolutionTooSmall := by
  unfold newLimiter64
  exact set64_eval_tooSmallBurst limiter64.zero 0 1 Second (Millisecond * 500) (1 / 8) 1 (1 / 8)
    (by norm_num) (by decide) (by decide) round_rate_1 Seconds64_1s round_burst_1
    (by norm_num) (by norm_num)

/-- The available tokens 580ms after the limiter of 400 bit/s was left empty:
`29 - 2^-48` bytes. -/
theorem available64_580ms :
    ({ limiter64_400 with lastTime := clock2026 } : limiter64).available
      (clock2026 + 580000000) = .fin (8162774324609023 / 281474976710656) :=
  available64_eval _ _ 50 0 50 (5224175567749775 / 9007199254740992)
    (8162774324609023 / 281474976710656) (8162774324609023 / 281474976710656) rfl rfl rfl
    (by
      rw [show Time.Sub (clock2026 + 580000000)
        ({ limiter64_400 with lastTime := clock2026 } : limiter64).lastTime = 580000000
        from by decide]
      exact Seconds64_580ms)
    round_accrued_580ms round_allowed_580ms (by norm_num)

/-- The available tokens of the limiter of 16 bit/s at the zero time, its last
time being in 2026: about `-1.8e10` bytes. -/
theorem available64_zero_time :
    ({ limiter64_16 with lastTime := clock2026 } : limiter64).available 0
      = .fin (-4835703278458517 / 262144) :=
  available64_eval _ _ 2 0 2 (-4835703278458517 / 524288)
    (-4835703278458517 / 262144) (-4835703278458517 / 262144) rfl rfl rfl
    (by
      rw [show Time.Sub 0 ({ limiter64_16 with lastTime := clock2026 } : limiter64).lastTime
        = minDuration from by decide]
      exact Seconds64_minDuration)
    round_accrued_minDuration round_allowed_minDuration (by norm_num)

/-! ## The claims -/

/-- C1, counterexample: the rate `4801278920437629 x 2^-48` bit/s (a `float64`
value, about 17.06) with a resolution of 10s and a max-wait of 469ms.  The
product of `rate / 8` and 0.469 is above 1 in exact arithmetic, so no clause of
the claim holds, but `set` computes it in `float64` as `1 - 2^-53`, converts it
to 0 and returns the error for a max-wait that is too small.  Likewise
`2e19` bit/s with 1s and 8s: the minimum partial size `2e19` does not fit an
`int`, its conversion gives the smallest `int64`, and `set` returns the same
error. -/
theorem rounded_minPartial_rejected :
    F64.ofRat (4801278920437629 / 281474976710656)
      = .fin (4801278920437629 / 281474976710656) ∧
    newLimiter64 (.fin (4801278920437629 / 281474976710656)) (Second * 10) (Millisecond * 469)
      = .error .rateOrMaxWaitTooSmall ∧
    ¬ rejected (4801278920437629 / 281474976710656) (Second * 10) (Millisecond * 469) ∧
    newLimiter64 (.fin 20000000000000000000) Second (Second * 8)
      = .error .rateOrMaxWaitTooSmall ∧
    ¬ rejected 20000000000000000000 Second (Second * 8) := by
  refine ⟨?_, ?_, ?_, ?_, ?_⟩
  · exact F64.ofRat_eq _ _ (-48) 4801278920437629 (by norm_num) (by norm_num [le_abs])
      (by norm_num [abs_lt]) (by norm_num [abs_lt]) (by norm_num) (by norm_num [abs_lt])
  · unfold newLimiter64
    exact set64_eval_tooSmallWait limiter64.zero 0 _ (Second * 10) (Millisecond * 469)
      (4801278920437629 / 2251799813685248) 10 (4224376450473525 / 9007199254740992)
      (1500399662636759 / 70368744177664) (9007199254740991 / 9007199254740992)
      (by norm_num) (by decide) (by decide) round_rate_near17 Seconds64_10s Seconds64_469ms
      round_burst_near17 round_minPartial_near17 (by norm_num) (Or.inl (by norm_num))
  · unfold rejected
    rw [truncate_lt_one_iff, truncate_lt_one_iff]
    norm_num [Second, Millisecond]
  · unfold newLimiter64
    exact set64_eval_tooSmallWait limiter64.zero 0 _ Second (Second * 8)
      2500000000000000000 1 8 2500000000000000000 20000000000000000000
      (by norm_num) (by decide) (by decide) round_rate_2e19 Seconds64_1s Seconds64_8s
      round_burst_2e19 round_minPartial_2e19 (by norm_num) (Or.inr (by norm_num))
  · unfold rejected
    rw [truncate_lt_one_iff, truncate_lt_one_iff]
    norm_num [Second, Millisecond]

/-- C1, amended: `limiter.set` returns an error if and only if the rate is not
above zero (a NaN included), or the resolution or the max-wait is not positive,
or the derived burst, computed in `float64` as `rate / 8` times the resolution
in seconds, is below one byte, or the derived minimum partial size, computed in
`float64` as `rate / 8` times the max-wait in seconds, is not at least one byte
and below `2^63` (`rejected64`); it succeeds in every other case.  The same holds
for `newLimiter`, `NewLimiterReader` and `NewLimiterWriter`.  With the default
configuration (1s, 500ms) a rate of 1 bit/s is rejected and a rate of 16 bit/s is
accepted. -/
theorem set64_fails_iff_rejected64 :
    (∀ (l : limiter64) (tc : Int) (rate : F64) (resolution maxWait : Int),
      ((∃ e, l.set tc rate resolution maxWait = .error e) ↔
        rejected64 rate resolution maxWait) ∧
      ((∃ l', l.set tc rate resolution maxWait = .ok l') ↔
        ¬ rejected64 rate resolution maxWait)) ∧
    (∀ (rate : F64) (resolution maxWait : Int),
      ((∃ e, newLimiter64 rate resolution maxWait = .error e) ↔
        rejected64 rate resolution maxWait)) ∧
    (∀ (ρ : Type) (rd : ρ) (rate : F64),
      ((∃ e, NewLimiterReader64 rd rate = .error e) ↔
        rejected64 rate DefaultLimiterConfig.Resolution DefaultLimiterConfig.MaxWait)) ∧
    (∀ (ω : Type) (wr : ω) (rate : F64),
      ((∃ e, NewLimiterWriter64 wr rate = .error e) ↔
        rejected64 rate DefaultLimiterConfig.Resolution DefaultLimiterConfig.MaxWait)) ∧
    DefaultLimiterConfig = { Resolution := 1000000000, MaxWait := 500000000 } ∧
    (∃ e, newLimiter64 (.fin 1) DefaultLimiterConfig.Resolution DefaultLimiterConfig.MaxWait
      = .error e) ∧
    (∃ l, newLimiter64 (.fin 16) DefaultLimiterConfig.Resolution DefaultLimiterConfig.MaxWait
      = .ok l) := by
  refine ⟨fun l tc rate resolution maxWait =>
      ⟨set64_error_iff_rejected64 l tc rate resolution maxWait, ?_⟩,
    fun rate resolution maxWait => set64_error_iff_rejected64 _ _ rate resolution maxWait,
    ?_, ?_, by simp [DefaultLimiterConfig, Second, Millisecond], ⟨_, newLimiter64_1⟩,
    ⟨_, newLimiter64_16⟩⟩
  · rw [ok_iff_not_error, set64_error_iff_rejected64]
  · intro ρ rd rate
    rw [← set64_error_iff_rejected64 limiter64.zero 0]
    unfold NewLimiterReader64 NewLimiterReaderWithConfig64 newLimiter64
    dsimp only
    generalize limiter64.zero.set 0 rate _ _ = x
    cases x <;> simp
  · intro ω wr rate
    rw [← set64_error_iff_rejected64 limiter64.zero 0]
    unfold NewLimiterWriter64 NewLimiterWriterWithConfig64 newLimiter64
    dsimp only
    generalize limiter64.zero.set 0 rate _ _ = x
    cases x <;> simp

/-- C2, counterexample: the limiter `newLimiter` builds for 400 bit/s with the
default configuration (50 bytes per second, burst 50, minimum partial size 25),
left empty at a time `T`, is asked for 29 bytes 580ms later.  In exact
arithmetic `50 x 0.58 = 29` tokens are available, so the policy of the claim
grants the 29 bytes; in `float64` the 580ms are `0.58` rounded down, the product
is `29 - 2^-48`, its conversion to `int` is 28, and `request` grants 28 bytes. -/
theorem rounded_accrual_grants_less :
    newLimiter64 (.fin 400) Second (Millisecond * 500) = .ok limiter64_400 ∧
    (({ limiter64_400 with lastTime := clock2026 } : limiter64).request
      (clock2026 + 580000000) 29).2 = (0, 28) ∧
    (requestSpec { limiter400 with lastTime := clock2026 } (clock2026 + 580000000) 29).2
      = (0, 29) := by
  refine ⟨newLimiter64_400, ?_, ?_⟩
  · have hconv : F64.toInt64 (({ limiter64_400 with lastTime := clock2026 } :
        limiter64).available (clock2026 + 580000000)) = 28 := by
      rw [available64_580ms]
      exact toInt64_eval _ 28
        (truncate_eq_of_bounds (by norm_num) (by norm_num) (by norm_num)) (by decide) (by decide)
    rw [request64_partialGrant _ _ _ (by rw [hconv]; decide) (by rw [hconv]; decide), hconv]
  · have hav : limiter.available { limiter400 with lastTime := clock2026 }
        (clock2026 + 580000000) = 29 := by
      unfold limiter.available
      rw [show Time.Sub (clock2026 + 580000000)
        ({ limiter400 with lastTime := clock2026 } : limiter).lastTime = 580000000
        from by decide]
      norm_num [limiter400]
    unfold requestSpec
    simp only [hav]
    rw [show truncate (29 : ℚ) = 29 from
      truncate_eq_of_bounds (by norm_num) (by norm_num) (by norm_num)]
    rfl

/-- C2, amended: for every limiter state and every `request(now, n)`, the call
returns and leaves behind exactly what the three-tier policy says when its
quantities are computed in `float64` (`requestSpec64`).  The available tokens
are `min(burst, lastToken + rate x (now - lastTime))` with every operation
rounded, and `a` is their conversion to `int`.  The call grants the full request
when `n` is at most `a`, else `a` bytes when `a` reaches `minPartial`, leaving
`lastToken = available - granted` and `lastTime = now`; else it returns a wait
for `w = min(n, minPartial)` bytes, the wait being the stored `rateCoef` times
`w - available`, rounded and converted to a `time.Duration`, and leaves
`lastToken = 0` and `lastTime = now + d`. -/
theorem request64_eq_requestSpec64 (l : limiter64) (now : Int) (n : Int) :
    l.request now n = requestSpec64 l now n := by
  unfold requestSpec64
  by_cases h1 : n ≤ F64.toInt64 (l.available now)
  · rw [request64_full l now n h1]
    simp only [if_pos h1]
  · by_cases h2 : l.minPartial ≤ F64.toInt64 (l.available now)
    · rw [request64_partialGrant l now n h1 h2]
      simp only [if_neg h1, if_pos h2]
    · rw [request64_wait l now n h1 h2]
      simp only [if_neg h1, if_neg h2]
      rfl

/-- C3, counterexample: the limiter a successful `set` builds for 16 bit/s with
the default configuration, its last time in 2026, is asked for 1 byte at the
zero time.  `Time.Sub` saturates at the smallest duration, about
`-1.8e10` tokens are available, and the wait `5e8 x (1 + 1.8e10)` nanoseconds
exceeds the largest `time.Duration`: its conversion gives the smallest `int64`,
and `request` returns a wait of `-9223372036854775808` ns. -/
theorem zero_time_request_negative_wait :
    limiter64.zero.set 0 (.fin 16) Second (Millisecond * 500) = .ok limiter64_16 ∧
    (0 : Int) ≤ 1 ∧
    (({ limiter64_16 with lastTime := clock2026, lastToken := .fin 0 } : limiter64).request
      0 1).2 = (-9223372036854775808, 1) := by
  refine ⟨newLimiter64_16, by decide, ?_⟩
  have hconv : F64.toInt64 (({ limiter64_16 with lastTime := clock2026 } :
      limiter64).available 0) = -18446744073 := by
    rw [available64_zero_time]
    exact toInt64_eval _ (-18446744073)
      (truncate_eq_of_bounds_neg (by norm_num) (by norm_num) (by norm_num)) (by decide)
      (by decide)
  have hwait : F64.toInt64 (F64.mul ({ limiter64_16 with lastTime := clock2026 } :
      limiter64).rateCoef (F64.sub (F64.ofInt (min 1 ({ limiter64_16 with
        lastTime := clock2026 } : limiter64).minPartial))
        (({ limiter64_16 with lastTime := clock2026 } : limiter64).available 0)))
      = -9223372036854775808 := by
    rw [available64_zero_time]
    rw [show min (1 : Int) ({ limiter64_16 with lastTime := clock2026 } : limiter64).minPartial
      = 1 from by decide]
    rw [show ({ limiter64_16 with lastTime := clock2026 } : limiter64).rateCoef
      = .fin 500000000 from rfl]
    unfold F64.ofInt F64.sub
    rw [round_int_1]
    simp only [F64.neg, F64.add]
    rw [round_missing_minDuration]
    simp only [F64.mul]
    rw [round_wait_minDuration]
    exact toInt64_eval_overflow _ (by norm_num)
  show (({ limiter64_16 with lastTime := clock2026 } : limiter64).request 0 1).2 = _
  rw [request64_wait _ _ _ (by rw [hconv]; decide) (by rw [hconv]; decide), hwait]
  rfl

/-- C3, amended: for every limiter built by a successful `set`, put in any state
(any `lastTime`, any `float64` as `lastToken`), and every `request(now, n)` with
`n ≥ 0`, the allowed byte count lies between 0 and `n` and is positive whenever
`n` is, so the slice `p[:allowed]` of a buffer of `n` bytes is in range.  When
the burst is below `2^63` bytes, the returned wait is not negative unless the
conversion of the wait to a `time.Duration` overflows, and then it is the
smallest `time.Duration`, `-2^63` ns.  The conversion does not overflow, and the
wait is not negative, when moreover the request is made in turn (`lastToken` is
a finite count that is not negative and `now` is not before `lastTime`), the
minimum partial size is at most `2^53` bytes and `rateCoef` times the minimum
partial size is at most `2^62` ns. -/
theorem request64_result_in_range (l0 l : limiter64) (tc0 : Int) (rate : F64)
    (resolution maxWait : Int) (hset : l0.set tc0 rate resolution maxWait = .ok l)
    (t : Int) (k : F64) (now : Int) (n : Int) (hn : 0 ≤ n) :
    0 ≤ (({ l with lastTime := t, lastToken := k } : limiter64).request now n).2.2 ∧
    (({ l with lastTime := t, lastToken := k } : limiter64).request now n).2.2 ≤ n ∧
    (0 < n →
      0 < (({ l with lastTime := t, lastToken := k } : limiter64).request now n).2.2) ∧
    (F64.lt l.burst (.fin 9223372036854775808) = true →
      0 ≤ (({ l with lastTime := t, lastToken := k } : limiter64).request now n).2.1 ∨
      (({ l with lastTime := t, lastToken := k } : limiter64).request now n).2.1
        = minDuration) ∧
    (∀ k0 c : ℚ, F64.lt l.burst (.fin 9223372036854775808) = true → k = .fin k0 → 0 ≤ k0 →
      t ≤ now → l.rateCoef = .fin c → l.minPartial ≤ 9007199254740992 →
      c * (l.minPartial : ℚ) ≤ 4611686018427387904 →
      0 ≤ (({ l with lastTime := t, lastToken := k } : limiter64).request now n).2.1) := by
  obtain ⟨hmp, hbnn, hcnn, hbr, r, hr, hr0⟩ := set64_ok_facts hset
  generalize hl : ({ l with lastTime := t, lastToken := k } : limiter64) = l'
  have e1 : l'.minPartial = l.minPartial := by rw [← hl]
  have e2 : l'.burst = l.burst := by rw [← hl]
  have e3 : l'.rateCoef = l.rateCoef := by rw [← hl]
  have e4 : l'.rate = l.rate := by rw [← hl]
  have e5 : l'.lastTime = t := by rw [← hl]
  have e6 : l'.lastToken = k := by rw [← hl]
  by_cases hf : n ≤ F64.toInt64 (l'.available now)
  · rw [request64_full l' now n hf]
    exact ⟨hn, le_refl _, fun h => h, fun _ => Or.inl (le_refl _),
      fun _ _ _ _ _ _ _ _ _ => le_refl _⟩
  · by_cases hp : l'.minPartial ≤ F64.toInt64 (l'.available now)
    · rw [request64_partialGrant l' now n hf hp]
      refine ⟨?_, ?_, fun _ => ?_, fun _ => Or.inl (le_refl _),
        fun _ _ _ _ _ _ _ _ _ => le_refl _⟩ <;> dsimp only <;> omega
    · rw [request64_wait l' now n hf hp]
      have hw1 : F64.toInt64 (l'.available now) < min n l'.minPartial := by
        rcases min_choice n l'.minPartial with hc | hc <;> rw [hc] <;> omega
      refine ⟨le_min hn (by omega), min_le_left _ _, fun h => lt_min h (by omega), ?_, ?_⟩
      · intro hb63
        show 0 ≤ F64.toInt64 _ ∨ F64.toInt64 _ = minDuration
        cases hb : l.burst with
        | fin b =>
          rw [hb] at hb63 hbnn
          simp only [F64.lt, decide_eq_true_eq] at hb63
          have hmiss := missing64_notNeg l' now (min n l'.minPartial) b (by rw [e2, hb])
            (hbr b hb) hb63 (le_min hn (by omega)) hw1
          rw [e3]
          exact F64.toInt64_of_notNeg (F64.NotNeg.mul hcnn hmiss)
        | posInf => rw [hb] at hb63; exact absurd hb63 (by simp [F64.lt])
        | negInf => rw [hb] at hbnn; exact absurd hbnn (by simp [F64.NotNeg])
        | nan => rw [hb] at hb63; exact absurd hb63 (by simp [F64.lt])
      · intro k0 c hb63 hk hk0 ht hc hmp53 hcm
        show 0 ≤ F64.toInt64 _
        cases hb : l.burst with
        | fin b =>
          rw [hb] at hb63 hbnn
          simp only [F64.lt, decide_eq_true_eq] at hb63
          simp only [F64.NotNeg] at hbnn
          obtain ⟨a, ha, ha0⟩ := available64_fin_nonneg l' now r k0 b (by rw [e4, hr]) hr0
            (by rw [e6, hk]) hk0 (by rw [e2, hb]) hbnn (by rw [e5]; exact ht)
          have hab := (available64_fin l' now b a (by rw [e2, hb]) (hbr b hb) ha).2
          rw [hc] at hcnn
          simp only [F64.NotNeg] at hcnn
          exact wait64_nonneg l' now a c ha ha0 (lt_of_le_of_lt hab hb63) (by rw [e3, hc]) hcnn
            (by rw [e1]; exact hmp53) (by rw [e1]; exact hcm) _ hw1 (min_le_right _ _)
        | posInf => rw [hb] at hb63; exact absurd hb63 (by simp [F64.lt])
        | negInf => rw [hb] at hbnn; exact absurd hbnn (by simp [F64.NotNeg])
        | nan => rw [hb] at hb63; exact absurd hb63 (by simp [F64.lt])

/-- Witness of C3 amended: the limiter of 16 bit/s, its last request made in
2026 and its bucket empty, asked for 3 bytes at that time: 1 byte is allowed
and the wait is not negative. -/
theorem request64_result_in_range_witness :
    limiter64.zero.set 0 (.fin 16) Second (Millisecond * 500) = .ok limiter64_16 ∧
    (0 : Int) ≤ 3 ∧
    0 ≤ (({ limiter64_16 with lastTime := clock2026, lastToken := .fin 0 } :
      limiter64).request clock2026 3).2.2 ∧
    (({ limiter64_16 with lastTime := clock2026, lastToken := .fin 0 } :
      limiter64).request clock2026 3).2.2 ≤ 3 ∧
    0 < (({ limiter64_16 with lastTime := clock2026, lastToken := .fin 0 } :
      limiter64).request clock2026 3).2.2 ∧
    0 ≤ (({ limiter64_16 with lastTime := clock2026, lastToken := .fin 0 } :
      limiter64).request clock2026 3).2.1 :=
  have h := request64_result_in_range limiter64.zero limiter64_16 0 (.fin 16) Second
    (Millisecond * 500) newLimiter64_16 clock2026 (.fin 0) clock2026 3 (by decide)
  ⟨newLimiter64_16, by decide, h.1, h.2.1, h.2.2.1 (by decide),
    h.2.2.2.2 0 500000000 (by norm_num [F64.lt, limiter64_16]) rfl (le_refl _) (le_refl _) rfl
      (by decide) (by norm_num [limiter64_16])⟩

/-- C4: for every limiter configured by a successful `set` with max-wait
`maxWait`, every `request(now, n)` issued with `now ≥ lastTime` and
`lastToken ≥ 0` returns a wait of at most `maxWait`. -/
theorem request_wait_le_maxWait (l0 l : limiter) (tc0 : Int) (rate : ℚ)
    (resolution maxWait : Int) (hset : l0.set tc0 rate resolution maxWait = .ok l)
    (t : Int) (k : ℚ) (now : Int) (n : Int) (ht : t ≤ now) (hk : 0 ≤ k) :
    (({ l with lastTime := t, lastToken := k } : limiter).request now n).2.1 ≤ maxWait := by
  obtain ⟨h1, -, h3, hrate, hburst, hmp, hcoef, -, hb1⟩ := set_ok_facts hset
  generalize hl : ({ l with lastTime := t, lastToken := k } : limiter) = l'
  have e1 : l'.rate = l.rate := by rw [← hl]
  have e2 : l'.burst = l.burst := by rw [← hl]
  have e3 : l'.minPartial = l.minPartial := by rw [← hl]
  have e4 : l'.rateCoef = l.rateCoef := by rw [← hl]
  have e5 : l'.lastTime = t := by rw [← hl]
  have e6 : l'.lastToken = k := by rw [← hl]
  by_cases hf : n ≤ truncate (l'.available now)
  · rw [request_full l' now n hf]
    exact h3.le
  · by_cases hp : l'.minPartial ≤ truncate (l'.available now)
    · rw [request_partialGrant l' now n hf hp]
      exact h3.le
    · rw [request_wait l' now n hf hp]
      show truncate _ ≤ maxWait
      have hpos := wait_window_pos l' now n hf hp
      have hav : 0 ≤ l'.available now :=
        available_nonneg l' now (by rw [e1, hrate]; positivity) (by rw [e2]; linarith)
          (by rw [e6]; exact hk) (by rw [e5]; exact ht)
      have hc : 0 < l'.rateCoef := by rw [e4, hcoef]; positivity
      have hw : ((min n l'.minPartial : Int) : ℚ) ≤ rate / 8 * ((maxWait : ℚ) / 1000000000) := by
        have hm : min n l'.minPartial ≤ l'.minPartial := min_le_right _ _
        have hm' : ((min n l'.minPartial : Int) : ℚ) ≤ (l'.minPartial : ℚ) := by exact_mod_cast hm
        have ht' : (l'.minPartial : ℚ) ≤ rate / 8 * ((maxWait : ℚ) / 1000000000) := by
          rw [e3, hmp]
          exact truncate_le (by positivity)
        linarith
      have hx : l'.rateCoef * (((min n l'.minPartial : Int) : ℚ) - l'.available now)
          ≤ (maxWait : ℚ) := by
        have hstep : l'.rateCoef * (((min n l'.minPartial : Int) : ℚ) - l'.available now)
            ≤ l'.rateCoef * (rate / 8 * ((maxWait : ℚ) / 1000000000)) :=
          mul_le_mul_of_nonneg_left (by linarith) hc.le
        have heq : l'.rateCoef * (rate / 8 * ((maxWait : ℚ) / 1000000000)) = (maxWait : ℚ) := by
          rw [e4, hcoef]
          field_simp
          ring
        linarith
      have hd := truncate_le (mul_nonneg hc.le hpos.le)
      have : (truncate (l'.rateCoef * (((min n l'.minPartial : Int) : ℚ) - l'.available now)) : ℚ)
          ≤ (maxWait : ℚ) := le_trans hd hx
      exact_mod_cast this


/-- Witness of C4: the 16 bit/s limiter, empty, asked for 3 bytes 100ns after its
last request. -/
theorem request_wait_le_maxWait_witness :
    limiter.zero.set 0 16 Second (Millisecond * 500) = .ok limiter16 ∧
    clock2026 ≤ clock2026 + 100 ∧ (0 : ℚ) ≤ 0 ∧
    (({ limiter16 with lastTime := clock2026, lastToken := 0 } : limiter).request
      (clock2026 + 100) 3).2.1 ≤ Millisecond * 500 :=
  ⟨newLimiter16, by decide, le_refl _,
    request_wait_le_maxWait limiter.zero limiter16 0 16 Second (Millisecond * 500) newLimiter16
      clock2026 0 (clock2026 + 100) 3 (by decide) (le_refl _)⟩

/-- C5: the code at the failing input.  The limiter for 1 kbit/s with the
default configuration (burst 125 bytes, resolution 1s) grants 125 bytes to the
first request and 62 more bytes to a request half a second later: 187 bytes
within a window of half a second, where the claim allows at most the burst of
125 bytes (126 with rounding) within any window of one second. -/
theorem window_total_exceeds_burst :
    newLimiter 1000 Second (Millisecond * 500) = .ok limiter1k ∧
    limiter1k.burst = 125 ∧
    requests limiter1k [(clock2026, 125), (clock2026 + 500000000, 125)]
      = [(clock2026, 125), (clock2026 + 500000000, 62)] ∧
    grantedWithin (requests limiter1k [(clock2026, 125), (clock2026 + 500000000, 125)])
      clock2026 (clock2026 + 500000000) = 187 ∧
    limiter1k.burst + 1 < ((grantedWithin
      (requests limiter1k [(clock2026, 125), (clock2026 + 500000000, 125)])
      clock2026 (clock2026 + 500000000) : Int) : ℚ) := by
  have hr : requests limiter1k [(clock2026, 125), (clock2026 + 500000000, 125)]
      = [(clock2026, 125), (clock2026 + 500000000, 62)] := by
    simp [requests, request1k_fresh, request1k_second, Time.Add]
  have hg : grantedWithin [(clock2026, 125), (clock2026 + 500000000, 62)]
      clock2026 (clock2026 + 500000000) = 187 := by
    simp [grantedWithin, clock2026]
  refine ⟨newLimiter1k, rfl, hr, ?_, ?_⟩
  · rw [hr, hg]
  · rw [hr, hg]
    norm_num [limiter1k]

/-- C6: a fresh limiter for `rate` bit/s is driven from `t0` by back-to-back
requests of `n ≥ 0` bytes (in particular of more bytes than it can grant), each
issued when the wait of the previous one has elapsed.  If the `k`-th grant takes
effect in the window from `t0` to `t0 + D` and the next one after it, then the
grants that take effect in the window are exactly the first `k`, their total
differs from `(rate / 8) × D` by at most `burst + minPartial` bytes plus the
truncation of the `k` waits to whole nanoseconds (less than `rate / 8` bytes per
second times one nanosecond for each wait), and it exceeds
`burst + (rate / 8) × D` by no more than that truncation.  The resolution is a
`time.Duration` and `t0` is a clock reading at least one resolution after the
zero time. -/
theorem backToBack_rate (rate : ℚ) (resolution maxWait : Int) (l : limiter)
    (hset : newLimiter rate resolution maxWait = .ok l) (hres : resolution ≤ maxDuration)
    (t0 : Int) (ht0 : resolution ≤ t0)
    (n : Int) (hn : 0 ≤ n)
    (k : Nat) (D : Int)
    (hD1 : (backToBack n l t0 k).2.1 ≤ t0 + D)
    (hD2 : t0 + D < (backToBack n l t0 (k + 1)).2.1) :
    (∀ j, j ≤ k → (backToBack n l t0 j).2.1 ≤ t0 + D) ∧
    (∀ j, k < j → t0 + D < (backToBack n l t0 j).2.1) ∧
    |(((backToBack n l t0 k).2.2 : Int) : ℚ) - rate / 8 * ((D : ℚ) / 1000000000)|
      ≤ l.burst + (l.minPartial : ℚ) + (k : ℚ) * (rate / 8 / 1000000000) ∧
    (((backToBack n l t0 k).2.2 : Int) : ℚ)
      ≤ l.burst + rate / 8 * ((D : ℚ) / 1000000000) + (k : ℚ) * (rate / 8 / 1000000000) := by
  have hc : Configured l := configured_of_set hset
  obtain ⟨h1, -, -, hrate, -, -, -, hmp, hb⟩ := set_ok_facts hset
  have hA := fresh_available hset hres t0 ht0
  have hA0 : 0 ≤ l.available t0 := by rw [hA]; linarith
  have hm1 : ∀ j, j ≤ k → (backToBack n l t0 j).2.1 ≤ t0 + D := fun j hj =>
    le_trans (backToBack_time_mono n hn l hc t0 hA0 j k hj) hD1
  have hm2 : ∀ j, k < j → t0 + D < (backToBack n l t0 j).2.1 := fun j hj =>
    lt_of_lt_of_le hD2 (backToBack_time_mono n hn l hc t0 hA0 (k + 1) j hj)
  refine ⟨hm1, hm2, ?_⟩
  obtain ⟨i1, i2, i3, i4, i5, i6, i7, i8⟩ := backToBack_inv n hn l hc t0 hA0 k
  rw [backToBack_succ] at hD2
  generalize backToBack n l t0 k = s at i1 i2 i3 i4 i5 i6 i7 i8 hD1 hD2 ⊢
  have hcs : Configured s.1 := by
    unfold Configured
    rw [i1, i2, i3, i4]
    exact hc
  obtain ⟨-, -, -, s4, -, -, s7⟩ := request_step s.1 hcs s.2.1 n hn i5
  dsimp only at hD2
  rw [hA] at i7 i8
  rw [i1] at s7
  rw [i3] at s7
  rw [hrate] at i7 i8 s7
  have hmp' : (1 : ℚ) ≤ (l.minPartial : ℚ) := by exact_mod_cast hmp
  have hr8 : 0 < rate / 8 / 1000000000 := by positivity
  have hD1' : ((s.2.1 - t0 : Int) : ℚ) ≤ (D : ℚ) := by
    have : s.2.1 - t0 ≤ D := by omega
    exact_mod_cast this
  have hk0 : (0 : ℚ) ≤ (k : ℚ) * (rate / 8 / 1000000000) := by positivity
  have hup : rate / 8 * (((s.2.1 - t0 : Int)) : ℚ) / 1000000000
      ≤ rate / 8 * ((D : ℚ) / 1000000000) := by
    rw [mul_div_assoc]
    apply mul_le_mul_of_nonneg_left _ (by positivity)
    linarith
  rcases s7 with s7 | s7
  · omega
  · have hD2' : (D : ℚ) < ((s.2.1 - t0 : Int) : ℚ) + (((s.1.request s.2.1 n).2.1 : Int) : ℚ) := by
      have : D < (s.2.1 - t0) + (s.1.request s.2.1 n).2.1 := by omega
      exact_mod_cast this
    have hlow : rate / 8 * ((D : ℚ) / 1000000000)
        ≤ rate / 8 * (((s.2.1 - t0 : Int)) : ℚ) / 1000000000
          + rate / 8 * (((s.1.request s.2.1 n).2.1 : Int) : ℚ) / 1000000000 := by
      have : rate / 8 * ((D : ℚ) / 1000000000) ≤ rate / 8 * ((((s.2.1 - t0 : Int) : ℚ)
          + (((s.1.request s.2.1 n).2.1 : Int) : ℚ)) / 1000000000) := by
        apply mul_le_mul_of_nonneg_left _ (by positivity)
        linarith
      linarith
    refine ⟨abs_le.mpr ⟨?_, ?_⟩, ?_⟩ <;> linarith


/-- Witness of C6: the 16 bit/s limiter; two grants (2 bytes and 1 byte) take
effect within the first 700ms, the third after one second. -/
theorem backToBack_rate_witness :
    newLimiter 16 Second (Millisecond * 500) = .ok limiter16 ∧
    Second ≤ maxDuration ∧ Second ≤ clock2026 ∧ (0 : Int) ≤ 10 ∧
    (backToBack 10 limiter16 clock2026 2).2.1 ≤ clock2026 + 700000000 ∧
    clock2026 + 700000000 < (backToBack 10 limiter16 clock2026 (2 + 1)).2.1 ∧
    (∀ j, j ≤ 2 → (backToBack 10 limiter16 clock2026 j).2.1 ≤ clock2026 + 700000000) ∧
    (∀ j, 2 < j → clock2026 + 700000000 < (backToBack 10 limiter16 clock2026 j).2.1) ∧
    |(((backToBack 10 limiter16 clock2026 2).2.2 : Int) : ℚ)
        - 16 / 8 * (((700000000 : Int) : ℚ) / 1000000000)|
      ≤ limiter16.burst + (limiter16.minPartial : ℚ) + ((2 : Nat) : ℚ) * (16 / 8 / 1000000000) ∧
    (((backToBack 10 limiter16 clock2026 2).2.2 : Int) : ℚ)
      ≤ limiter16.burst + 16 / 8 * (((700000000 : Int) : ℚ) / 1000000000)
        + ((2 : Nat) : ℚ) * (16 / 8 / 1000000000) :=
  have h1 : (backToBack 10 limiter16 clock2026 2).2.1 ≤ clock2026 + 700000000 := by
    rw [backToBack16.1]
    show clock2026 + 500000000 ≤ clock2026 + 700000000
    omega
  have h2 : clock2026 + 700000000 < (backToBack 10 limiter16 clock2026 (2 + 1)).2.1 := by
    rw [backToBack16.2]
    show clock2026 + 700000000 < clock2026 + 1000000000
    omega
  ⟨newLimiter16, by decide, by decide, by decide, h1, h2,
    backToBack_rate 16 Second (Millisecond * 500) limiter16 newLimiter16 (by decide)
      clock2026 (by decide) 10 (by decide) 2 700000000 h1 h2⟩

/-- C7, counterexample: the 16 bit/s limiter with `lastToken = 0` is asked for
1 byte one second after its last request; the request grants the byte and the
refund of that byte leaves `lastToken = 2`, not the 0 it was before. -/
theorem refund_does_not_restore_lastToken :
    (((limiter16At clock2026 0).request (clock2026 + 1000000000) 1).1.refund
        ((limiter16At clock2026 0).request (clock2026 + 1000000000) 1).2.2).lastToken = 2 ∧
    (limiter16At clock2026 0).lastToken = 0 ∧
    (((limiter16At clock2026 0).request (clock2026 + 1000000000) 1).1.refund
        ((limiter16At clock2026 0).request (clock2026 + 1000000000) 1).2.2).lastToken
      ≠ (limiter16At clock2026 0).lastToken := by
  rw [request16_after_second]
  norm_num [limiter.refund, limiter16At, limiter16]

/-- C7, amended: after `request(now, n)` and the refund of the allowed count,
`lastToken` is the count that was available at the request,
`min(burst, lastToken + rate × (now − lastTime))`, when the request was granted
without a wait (in full or as a partial transfer), and it is the allowed count
when the request had to wait.  When no time has passed since `lastTime` and the
previous `lastToken` was within the burst, the available count is the previous
`lastToken`, so a request granted without a wait and then refunded leaves
`lastToken` as it was. -/
theorem request_refund_lastToken (l : limiter) (now : Int) (n : Int) :
    (((l.request now n).1.refund (l.request now n).2.2).lastToken =
      if n ≤ truncate (l.available now) ∨ l.minPartial ≤ truncate (l.available now) then
        l.available now
      else ((l.request now n).2.2 : ℚ)) ∧
    (now = l.lastTime → l.lastToken ≤ l.burst → l.available now = l.lastToken) ∧
    (now = l.lastTime → l.lastToken ≤ l.burst →
      n ≤ truncate (l.available now) ∨ l.minPartial ≤ truncate (l.available now) →
      ((l.request now n).1.refund (l.request now n).2.2).lastToken = l.lastToken) := by
  have hfirst : ((l.request now n).1.refund (l.request now n).2.2).lastToken =
      if n ≤ truncate (l.available now) ∨ l.minPartial ≤ truncate (l.available now) then
        l.available now
      else ((l.request now n).2.2 : ℚ) := by
    by_cases hf : n ≤ truncate (l.available now)
    · rw [request_full l now n hf, if_pos (Or.inl hf)]
      simp [limiter.refund]
    · by_cases hp : l.minPartial ≤ truncate (l.available now)
      · rw [request_partialGrant l now n hf hp, if_pos (Or.inr hp)]
        simp [limiter.refund]
      · rw [request_wait l now n hf hp, if_neg (by tauto)]
        simp [limiter.refund]
  have hsame : now = l.lastTime → l.lastToken ≤ l.burst → l.available now = l.lastToken := by
    intro ht hk
    unfold limiter.available
    rw [ht, Sub_self]
    simpa using hk
  refine ⟨hfirst, hsame, fun ht hk hg => ?_⟩
  rw [hfirst, if_pos hg]
  exact hsame ht hk


/-- Witness of C7 amended: the full 16 bit/s bucket asked for 5 bytes at the time
of its last request. -/
theorem request_refund_lastToken_witness :
    (((limiter16At clock2026 2).request clock2026 5).1.refund
        ((limiter16At clock2026 2).request clock2026 5).2.2).lastToken
      = (limiter16At clock2026 2).available clock2026 ∧
    (limiter16At clock2026 2).available clock2026 = (limiter16At clock2026 2).lastToken :=
  have h := request_refund_lastToken (limiter16At clock2026 2) clock2026 5
  have ha : (limiter16At clock2026 2).available clock2026 = (limiter16At clock2026 2).lastToken :=
    h.2.1 rfl (le_refl _)
  ⟨by
    have hp : (limiter16At clock2026 2).minPartial
        ≤ truncate ((limiter16At clock2026 2).available clock2026) := by
      rw [ha]
      show (1 : Int) ≤ truncate 2
      rw [truncate_two]
      decide
    rw [h.1, if_pos (Or.inr hp)], ha⟩

/-- C8: the code at the failing input.  The 16 bit/s limiter (2 bytes per
second, burst 2) has served a request at `clock2026` and holds no token; `set`
is called half a second later.  The claim puts `lastToken` at
`min(2, 0 + 2 × 0.5) = 1`; the code overwrites `lastTime` before it takes the
difference, adds nothing and leaves `lastToken = 0`. -/
theorem set_drops_accrued_tokens :
    (limiter16At clock2026 0).set (clock2026 + 500000000) 16 Second (Millisecond * 500)
      = .ok (limiter16At (clock2026 + 500000000) 0) ∧
    min (limiter16At clock2026 0).burst
      ((limiter16At clock2026 0).lastToken + (limiter16At clock2026 0).rate *
        (((Time.Sub (clock2026 + 500000000) (limiter16At clock2026 0).lastTime : Int) : ℚ)
          / 1000000000)) = 1 := by
  constructor
  · rw [set16]
    simp [limiter16At, limiter16, clock2026]
  · simp [limiter16At, limiter16, Sub_add_left]
    norm_num

/-- C9, counterexample: in the scenario of the claim the returned waits add up
to 1.5 seconds, a full second less than the 2.5 seconds of the claim (the
grants do add up to 5 bytes). -/
theorem transfer_waits_total :
    ((transfer 8 (limiter16At clock2026 2) clock2026 5).map Prod.fst).sum = 1500000000 ∧
    ((transfer 8 (limiter16At clock2026 2) clock2026 5).map Prod.snd).sum = 5 ∧
    ¬ (2500000000 - 250000000
      ≤ ((transfer 8 (limiter16At clock2026 2) clock2026 5).map Prod.fst).sum) := by
  have h1 := request16_full clock2026 5 (by decide)
  have h2 := request16_wait clock2026 3 (by decide)
  have h3 := request16_wait (clock2026 + 500000000) 2 (by decide)
  have h4 := request16_wait (clock2026 + 500000000 + 500000000) 1 (by decide)
  simp [transfer, h1, h2, h3, h4, Time.Add]

/-- C9, amended: the 16 bit/s limiter (burst 2 bytes, `minPartial` 1 byte) with
`lastToken = 2` and `lastTime = now` transfers 5 bytes in four requests: 2 bytes
at once, then three times 1 byte after a wait of 500ms each, so the waits add up
to 1.5 seconds.  Four requests always suffice. -/
theorem transfer_five_bytes (now : Int) (fuel : Nat) :
    transfer (fuel + 4) (limiter16At now 2) now 5
      = [(0, 2), (500000000, 1), (500000000, 1), (500000000, 1)] := by
  have h1 := request16_full now 5 (by decide)
  have h2 := request16_wait now 3 (by decide)
  have h3 := request16_wait (now + 500000000) 2 (by decide)
  have h4 := request16_wait (now + 500000000 + 500000000) 1 (by decide)
  cases fuel <;> simp [transfer, h1, h2, h3, h4, Time.Add]

/-- C10: a grant can exceed the burst.  With a resolution of 1s and a max-wait
of 2s, `newLimiter` accepts 16 bit/s and builds a limiter with a burst of 2 bytes
and a minimum partial size of 4 bytes; its first request for 10 bytes takes the
wait branch, which does not cap the grant at the burst, and is granted 4 bytes,
twice the burst. -/
theorem grant_exceeds_burst :
    newLimiter 16 Second (2 * Second) = .ok limiter16Wait2 ∧
    limiter16Wait2.burst = 2 ∧
    (limiter16Wait2.request clock2026 10).2 = (1000000000, 4) ∧
    ¬ (((limiter16Wait2.request clock2026 10).2.2 : ℚ) ≤ limiter16Wait2.burst) := by
  refine ⟨newLimiter16Wait2, rfl, ?_, ?_⟩
  · rw [request16Wait2_fresh]
  · rw [request16Wait2_fresh]
    norm_num [limiter16Wait2]

/-- A grant does not exceed the burst when the configuration keeps the minimum
partial size within it: for every limiter built by a successful `set` whose
max-wait is at most its resolution (or, more generally, whose minimum partial
size is at most its burst), and every request in any state, the allowed byte
count never exceeds the burst. -/
theorem request_allowed_le_burst (l0 l : limiter) (tc0 : Int) (rate : ℚ)
    (resolution maxWait : Int) (hset : l0.set tc0 rate resolution maxWait = .ok l)
    (hmw : maxWait ≤ resolution ∨ (l.minPartial : ℚ) ≤ l.burst)
    (t : Int) (k : ℚ) (now : Int) (n : Int) :
    ((({ l with lastTime := t, lastToken := k } : limiter).request now n).2.2 : ℚ) ≤ l.burst := by
  obtain ⟨h1, -, h3, hrate, hburst, hmp, hcoef, -, hb1⟩ := set_ok_facts hset
  have hmpb : (l.minPartial : ℚ) ≤ l.burst := by
    rcases hmw with hmw | hmw
    · have ht' : (l.minPartial : ℚ) ≤ rate / 8 * ((maxWait : ℚ) / 1000000000) := by
        rw [hmp]
        exact truncate_le (by positivity)
      have hmw' : (maxWait : ℚ) ≤ (resolution : ℚ) := by exact_mod_cast hmw
      have : rate / 8 * ((maxWait : ℚ) / 1000000000)
          ≤ rate / 8 * ((resolution : ℚ) / 1000000000) := by
        apply mul_le_mul_of_nonneg_left _ (by positivity)
        linarith
      rw [hburst]
      linarith
    · exact hmw
  generalize hl : ({ l with lastTime := t, lastToken := k } : limiter) = l'
  have e2 : l'.burst = l.burst := by rw [← hl]
  have e3 : l'.minPartial = l.minPartial := by rw [← hl]
  have ha : (truncate (l'.available now) : ℚ) ≤ l.burst := by
    refine le_trans (truncate_le_max _) (max_le ?_ (by linarith))
    rw [← e2]
    exact available_le_burst l' now
  by_cases hf : n ≤ truncate (l'.available now)
  · rw [request_full l' now n hf]
    have : (n : ℚ) ≤ (truncate (l'.available now) : ℚ) := by exact_mod_cast hf
    exact le_trans this ha
  · by_cases hp : l'.minPartial ≤ truncate (l'.available now)
    · rw [request_partialGrant l' now n hf hp]
      exact ha
    · rw [request_wait l' now n hf hp]
      show ((min n l'.minPartial : Int) : ℚ) ≤ l.burst
      have hm : min n l'.minPartial ≤ l'.minPartial := min_le_right _ _
      have hm' : ((min n l'.minPartial : Int) : ℚ) ≤ (l'.minPartial : ℚ) := by exact_mod_cast hm
      have he : (l'.minPartial : ℚ) = (l.minPartial : ℚ) := by rw [e3]
      linarith

/-- The 16 bit/s limiter with the default configuration asked for 10 bytes: the
grant is within the burst. -/
theorem request_allowed_le_burst_witness :
    limiter.zero.set 0 16 Second (Millisecond * 500) = .ok limiter16 ∧
    (Millisecond * 500 ≤ Second ∨ (limiter16.minPartial : ℚ) ≤ limiter16.burst) ∧
    ((({ limiter16 with lastTime := clock2026, lastToken := 0 } : limiter).request
      clock2026 10).2.2 : ℚ) ≤ limiter16.burst :=
  ⟨newLimiter16, Or.inl (by decide),
    request_allowed_le_burst limiter.zero limiter16 0 16 Second (Millisecond * 500) newLimiter16
      (Or.inl (by decide)) clock2026 0 clock2026 10⟩

/-! ## Validation of the parameters of the meter -/

/-- A call of `newMeter` with acceptable parameters: the meter it returns. -/
theorem newMeter_of_valid {resolution sample : Int} (h1 : MinMeterResolution ≤ resolution)
    (h2 : 0 < sample) (h3 : 2 ≤ Int.tdiv sample resolution) :
    newMeter resolution sample = .ok
      { resolution := resolution, sample := sample,
        size := (Int.tdiv sample resolution).toNat + 1,
        items := fun _ => meterItem.zero, cur := 0, last := none, first := none,
        started := false, closed := false, startedAt := 0, closedAt := 0, totalBytes := 0 } := by
  have h0 : 0 < resolution := by
    unfold MinMeterResolution Millisecond at h1
    omega
  unfold newMeter
  rw [if_neg (by omega), if_neg (by omega), if_neg (by omega)]
  simp only []
  rw [if_neg (by omega)]

theorem newMeter_error_iff (resolution sample : Int) :
    (∃ e, newMeter resolution sample = .error e) ↔
      (resolution < MinMeterResolution ∨ sample ≤ 0 ∨ Int.tdiv sample resolution < 2) := by
  constructor
  · rintro ⟨e, he⟩
    by_contra hn
    push_neg at hn
    rw [newMeter_of_valid hn.1 hn.2.1 hn.2.2] at he
    cases he
  · intro h
    have hmin : (0 : Int) < MinMeterResolution := by decide
    unfold newMeter
    by_cases h1 : resolution ≤ 0
    · rw [if_pos h1]; exact ⟨_, rfl⟩
    rw [if_neg h1]
    by_cases h2 : resolution < MinMeterResolution
    · rw [if_pos h2]; exact ⟨_, rfl⟩
    rw [if_neg h2]
    by_cases h3 : sample ≤ 0
    · rw [if_pos h3]; exact ⟨_, rfl⟩
    rw [if_neg h3]
    simp only []
    by_cases h4 : Int.tdiv sample resolution < 2
    · rw [if_pos h4]; exact ⟨_, rfl⟩
    · exfalso
      rcases h with h | h | h
      · exact h2 h
      · exact h3 h
      · exact h4 h

/-- Every error of `newMeter` wraps `ErrInvalidParameter`. -/
theorem newMeter_error_is {resolution sample : Int} {e : GoError}
    (h : newMeter resolution sample = .error e) : errorsIs e ErrInvalidParameter = true := by
  unfold newMeter at h
  split_ifs at h <;> first
    | (injection h with h; subst h; decide)
    | skip
  simp only [] at h
  split_ifs at h
  · injection h with h; subst h; decide

theorem newMeter_default :
    Int.tdiv DefaultMeterConfig.Sample DefaultMeterConfig.Resolution = 6 ∧
    MinMeterResolution ≤ DefaultMeterConfig.Resolution ∧ 0 < DefaultMeterConfig.Sample := by
  decide

/-! ## The loop of `LimiterWriter.Write` -/

/-- With a minimum partial size of at least one byte, a request for a positive
number of bytes is allowed a positive number of bytes, and no more than
requested. -/
theorem request_allowed_bounds (l : limiter) (hmp : 1 ≤ l.minPartial) (tc n : Int)
    (hn : 0 < n) : 0 < (l.request tc n).2.2 ∧ (l.request tc n).2.2 ≤ n := by
  by_cases hf : n ≤ truncate (l.available tc)
  · rw [request_full l tc n hf]
    exact ⟨hn, le_refl _⟩
  · by_cases hp : l.minPartial ≤ truncate (l.available tc)
    · rw [request_partialGrant l tc n hf hp]
      constructor <;> dsimp only <;> omega
    · rw [request_wait l tc n hf hp]
      exact ⟨lt_min hn (by omega), min_le_left _ _⟩

/-- One iteration of the loop of `Write` on an open writer whose underlying
writer reports no error and at least one byte. -/
theorem writeLoop_step {ω : Type} (wr : ω → List UInt8 → ω × Int × Option GoError)
    (clock : Nat → Int) (fuel : Nat) (w : LimiterWriter ω) (i : Nat) (p : List UInt8)
    (written : Int) (hp : 0 < p.length) (hclosed : w.closed = false)
    (herr : (wr w.wr (p.take (w.lim.request (clock i) (p.length : Int)).2.2.toNat)).2.2 = none)
    (hn : (wr w.wr (p.take (w.lim.request (clock i) (p.length : Int)).2.2.toNat)).2.1 ≠ 0) :
    LimiterWriter.writeLoop wr clock (fuel + 1) w i p written =
      LimiterWriter.writeLoop wr clock fuel
        { w with
          lim :=
            if (wr w.wr (p.take (w.lim.request (clock i) (p.length : Int)).2.2.toNat)).2.1
                < (w.lim.request (clock i) (p.length : Int)).2.2 then
              (w.lim.request (clock i) (p.length : Int)).1.refund
                ((w.lim.request (clock i) (p.length : Int)).2.2
                  - (wr w.wr (p.take (w.lim.request (clock i) (p.length : Int)).2.2.toNat)).2.1)
            else (w.lim.request (clock i) (p.length : Int)).1
          wr := (wr w.wr (p.take (w.lim.request (clock i) (p.length : Int)).2.2.toNat)).1 }
        (i + 1)
        (p.drop (wr w.wr (p.take (w.lim.request (clock i) (p.length : Int)).2.2.toNat)).2.1.toNat)
        (written
          + (wr w.wr (p.take (w.lim.request (clock i) (p.length : Int)).2.2.toNat)).2.1) := by
  rw [LimiterWriter.writeLoop]
  rw [if_pos hp]
  dsimp only
  rw [if_neg (by rw [hclosed]; simp)]
  rw [herr]
  dsimp only
  rw [if_neg hn]

theorem writeLoop_complete {ω : Type} (write : ω → List UInt8 → ω × Int × Option GoError)
    (hwr : ∀ s chunk, chunk ≠ [] →
      (write s chunk).2.2 = none ∧ 1 ≤ (write s chunk).2.1 ∧
        (write s chunk).2.1 ≤ (chunk.length : Int))
    (clock : Nat → Int) (fuel : Nat) :
    ∀ (w : LimiterWriter (ω × List (List UInt8))) (i : Nat) (p : List UInt8) (written : Int),
      p.length < fuel → w.closed = false → 1 ≤ w.lim.minPartial →
      ∃ w', LimiterWriter.writeLoop (logged write) clock fuel w i p written
          = some (w', written + (p.length : Int), none) ∧
        w'.wr.2.flatten = w.wr.2.flatten ++ p ∧
        w'.wr.2.length ≤ w.wr.2.length + p.length := by
  induction fuel with
  | zero =>
    intro w i p written hlen
    omega
  | succ fuel ih =>
    intro w i p written hlen hclosed hmp
    by_cases hp : 0 < p.length
    · have hpI : (0 : Int) < (p.length : Int) := by exact_mod_cast hp
      obtain ⟨ha1, ha2⟩ := request_allowed_bounds w.lim hmp (clock i) (p.length : Int) hpI
      obtain ⟨-, -, c3, -⟩ := request_config w.lim (clock i) (p.length : Int)
      have hk : 1 ≤ (w.lim.request (clock i) (p.length : Int)).2.2.toNat := by omega
      have hchunk : p.take (w.lim.request (clock i) (p.length : Int)).2.2.toNat ≠ [] := by
        intro h
        have := congrArg List.length h
        rw [List.length_take, List.length_nil] at this
        omega
      obtain ⟨e1, e2, e3⟩ :=
        hwr w.wr.1 (p.take (w.lim.request (clock i) (p.length : Int)).2.2.toNat) hchunk
      rw [List.length_take] at e3
      rw [writeLoop_step (logged write) clock fuel w i p written hp hclosed e1
        (by show (write w.wr.1 _).2.1 ≠ 0; omega)]
      generalize hq : w.lim.request (clock i) (p.length : Int) = q at *
      have hn1 : (logged write w.wr (p.take q.2.2.toNat)).2.1
          = (write w.wr.1 (p.take q.2.2.toNat)).2.1 := rfl
      have hlog : (logged write w.wr (p.take q.2.2.toNat)).1.2
          = w.wr.2 ++ [(p.take q.2.2.toNat).take (write w.wr.1 (p.take q.2.2.toNat)).2.1.toNat] :=
        rfl
      rw [hn1]
      generalize hn : (write w.wr.1 (p.take q.2.2.toNat)).2.1 = n at *
      have hnNat : (n.toNat : Int) = n := by omega
      have hdrop : (p.drop n.toNat).length = p.length - n.toNat := List.length_drop _ _
      obtain ⟨w', h1, h2, h3⟩ := ih
        { w with
          lim := if n < q.2.2 then q.1.refund (q.2.2 - n) else q.1
          wr := (logged write w.wr (p.take q.2.2.toNat)).1 }
        (i + 1) (p.drop n.toNat) (written + n)
        (by rw [hdrop]; omega) hclosed
        (by
          show 1 ≤ (if n < q.2.2 then q.1.refund (q.2.2 - n) else q.1).minPartial
          split_ifs
          · show 1 ≤ q.1.minPartial
            omega
          · omega)
      refine ⟨w', ?_, ?_, ?_⟩
      · rw [h1, hdrop]
        have : written + n + ((p.length - n.toNat : Nat) : Int) = written + (p.length : Int) := by
          omega
        rw [this]
      · rw [h2]
        show (logged write w.wr (p.take q.2.2.toNat)).1.2.flatten ++ _ = _
        rw [hlog]
        have htake : (p.take q.2.2.toNat).take n.toNat = p.take n.toNat := by
          rw [List.take_take]
          congr 1
          omega
        rw [htake]
        simp [List.flatten_append, List.append_assoc, List.take_append_drop]
      · refine le_trans h3 ?_
        show (logged write w.wr (p.take q.2.2.toNat)).1.2.length + _ ≤ _
        rw [hlog, hdrop]
        simp
        omega
    · have : p = [] := by
        cases p with
        | nil => rfl
        | cons a t => simp at hp
      subst this
      exact ⟨w, by simp [LimiterWriter.writeLoop], by simp, by simp⟩

/-! ## The meter before its first bucket has closed -/

theorem quotient_finite (x w : ℚ) (hw : w ≠ 0) : BitRate.quotient x w = .finite (x / w) := by
  unfold BitRate.quotient
  rw [if_neg hw]

theorem wrap64_of_range (x : Int) (h1 : minDuration ≤ x) (h2 : x ≤ maxDuration) :
    wrap64 x = x := by
  unfold wrap64
  unfold minDuration at h1
  unfold maxDuration at h2
  omega

theorem record_same_bucket (m : meter) (tc : Int) (b : Nat) (h : tc < (m.items m.cur).end_) :
    m.record tc b =
      { m with
        items := Function.update m.items m.cur
          { m.items m.cur with vol := (m.items m.cur).vol + (b : ℚ) }
        totalBytes := (m.totalBytes + b) % 18446744073709551616 } := by
  unfold meter.record
  rw [if_pos h]

theorem record_next_bucket (m : meter) (tc : Int) (b : Nat) (h : ¬ tc < (m.items m.cur).end_) :
    m.record tc b =
      { m with
        last := some m.cur
        cur := m.next m.cur
        first := match m.first with
          | none => some m.cur
          | some f => if f = m.next m.cur then some (m.next f) else some f
        items := Function.update m.items (m.next m.cur)
          { vol := (b : ℚ)
            start := Int.tdiv (Time.Sub tc m.startedAt) m.resolution * m.resolution
            end_ := Time.Add m.startedAt
              (wrap64 (Int.tdiv (Time.Sub tc m.startedAt) m.resolution * m.resolution
                + m.resolution)) }
        totalBytes := (m.totalBytes + b) % 18446744073709551616 } := by
  unfold meter.record
  rw [if_neg h]
  rfl

/-- Records before the end of the current bucket leave `last` nil and the end of
the bucket where it is. -/
theorem recordAll_first_bucket (records : List (Int × Nat)) :
    ∀ (m : meter), m.last = none → (∀ x ∈ records, x.1 < (m.items m.cur).end_) →
      (m.recordAll records).last = none := by
  induction records with
  | nil => intro m h _; exact h
  | cons x rest ih =>
    intro m h hx
    have hx1 : x.1 < (m.items m.cur).end_ := hx x (List.mem_cons_self _ _)
    show ((m.record x.1 x.2).recordAll rest).last = none
    rw [record_same_bucket m x.1 x.2 hx1]
    apply ih
    · exact h
    · intro y hy
      show y.1 < (Function.update m.items m.cur _ m.cur).end_
      rw [Function.update_same]
      exact hx y (List.mem_cons_of_mem _ hy)

/-! ## Slots of the ring -/

theorem slot_succ (j size : Nat) : (j % size + 1) % size = (j + 1) % size :=
  Nat.mod_add_mod j size 1

theorem slot_pred (j size : Nat) (hj : 1 ≤ j) (hs : 0 < size) :
    (j % size + (size - 1)) % size = (j - 1) % size := by
  rw [Nat.mod_add_mod]
  have : j + (size - 1) = (j - 1) + size := by omega
  rw [this, Nat.add_mod_right]

theorem slot_ne (a b size : Nat) (hab : a < b) (hd : b - a < size) : a % size ≠ b % size := by
  intro h
  have h1 : (b - a) % size = 0 := Nat.sub_mod_eq_zero_of_mod_eq h.symm
  have h2 : (b - a) % size = b - a := Nat.mod_eq_of_lt hd
  omega

theorem slot_eq_iff (a b size : Nat) (hab : a ≤ b) (hd : b - a < size) :
    a % size = b % size ↔ a = b := by
  constructor
  · intro h
    by_contra hne
    exact slot_ne a b size (by omega) hd h
  · intro h
    rw [h]

/-! ## The ring follows the history -/

theorem sim_cur_item {m : meter} {t0 r : Int} {s : Int} {v : ℚ} {rest : List (Int × ℚ)}
    (h : Sim m t0 r ((s, v) :: rest)) :
    m.items m.cur = { vol := v, start := s, end_ := t0 + s + r } := by
  have := h.items_eq 0 (s, v) (by simp) (by have := h.size_ge; omega)
  rw [h.cur_eq]
  simpa using this

theorem sim_same {m : meter} {t0 r : Int} {s : Int} {v : ℚ} {rest : List (Int × ℚ)}
    (h : Sim m t0 r ((s, v) :: rest)) (tc : Int) (b : Nat) (hlt : tc < t0 + s + r) :
    Sim (m.record tc b) t0 r ((s, v + (b : ℚ)) :: rest) := by
  have hcur := sim_cur_item h
  rw [record_same_bucket m tc b (by rw [hcur]; exact hlt)]
  refine ⟨h.size_ge, h.resolution_eq, h.startedAt_eq, by simp, h.cur_eq, h.last_eq, h.first_eq, ?_⟩
  intro k x hx hk
  have hk' : k < m.size := hk
  show Function.update m.items m.cur _ ((((s, v + (b : ℚ)) :: rest).length - 1 - k) % m.size) = _
  cases k with
  | zero =>
    simp only [List.getElem?_cons_zero, Option.some.injEq] at hx
    subst hx
    have : (((s, v + (b : ℚ)) :: rest).length - 1 - 0) % m.size = m.cur := by
      rw [h.cur_eq]
      simp
    rw [this, Function.update_same, hcur]
  | succ k =>
    have hlen : k < rest.length := by
      have := List.getElem?_eq_some_iff.mp hx
      obtain ⟨hk'', -⟩ := this
      simpa using hk''
    have hne : (((s, v + (b : ℚ)) :: rest).length - 1 - (k + 1)) % m.size ≠ m.cur := by
      rw [h.cur_eq]
      simp only [List.length_cons]
      exact slot_ne (rest.length + 1 - 1 - (k + 1)) (rest.length + 1 - 1) m.size
        (by omega) (by omega)
    rw [Function.update_noteq hne]
    have := h.items_eq (k + 1) x (by simpa using hx) hk'
    simpa using this

theorem sim_next {m : meter} {t0 r : Int} {s : Int} {v : ℚ} {rest : List (Int × ℚ)}
    (h : Sim m t0 r ((s, v) :: rest)) (hr : 0 < r) (tc : Int) (b : Nat)
    (hge : ¬ tc < t0 + s + r) (h0 : 0 ≤ tc - t0)
    (hmax : (tc - t0) / r * r + r ≤ maxDuration) :
    Sim (m.record tc b) t0 r (((tc - t0) / r * r, (b : ℚ)) :: (s, v) :: rest) := by
  have hcur := sim_cur_item h
  have hsize := h.size_ge
  rw [record_next_bucket m tc b (by rw [hcur]; exact hge)]
  have hlt : tc - t0 < (tc - t0) / r * r + r := by
    have := Int.lt_ediv_add_one_mul_self (tc - t0) hr
    rw [add_mul, one_mul] at this
    exact this
  have hsub : Time.Sub tc m.startedAt = tc - t0 := by
    rw [h.startedAt_eq]
    unfold Time.Sub
    unfold maxDuration at hmax
    unfold minDuration maxDuration
    rw [if_neg (by omega), if_neg (by omega)]
  have hnext : m.next m.cur = (rest.length + 1) % m.size := by
    unfold meter.next
    rw [h.cur_eq, slot_succ]
    simp
  refine ⟨hsize, h.resolution_eq, h.startedAt_eq, by simp, ?_, ?_, ?_, ?_⟩
  · show m.next m.cur = _
    rw [hnext]
    simp
  · show some m.cur = _
    rw [h.cur_eq]
    simp
  · show (match m.first with
      | none => some m.cur
      | some f => if f = m.next m.cur then some (m.next f) else some f) = _
    rw [h.first_eq, hnext]
    simp only [List.length_cons]
    by_cases hL : 2 ≤ rest.length + 1
    · rw [if_pos hL, if_pos (by omega)]
      dsimp only
      by_cases hw : m.size ≤ rest.length + 1
      · have e1 : min (rest.length + 1) m.size = m.size := min_eq_right hw
        have e2 : min (rest.length + 1 + 1) m.size = m.size := min_eq_right (by omega)
        rw [e1, e2]
        have e3 : (rest.length + 1 - m.size) % m.size = (rest.length + 1) % m.size := by
          conv_rhs => rw [show rest.length + 1 = (rest.length + 1 - m.size) + m.size by omega]
          rw [Nat.add_mod_right]
        rw [if_pos e3]
        unfold meter.next
        rw [slot_succ]
        congr 2
        omega
      · have e1 : min (rest.length + 1) m.size = rest.length + 1 := min_eq_left (by omega)
        have e2 : min (rest.length + 1 + 1) m.size = rest.length + 1 + 1 := min_eq_left (by omega)
        rw [e1, e2]
        have e3 : ¬ (rest.length + 1 - (rest.length + 1)) % m.size = (rest.length + 1) % m.size := by
          rw [Nat.sub_self, Nat.zero_mod, Nat.mod_eq_of_lt (by omega)]
          omega
        rw [if_neg e3]
        simp
    · have hr0 : rest.length = 0 := by omega
      rw [if_neg hL, if_pos (by omega)]
      dsimp only
      have : min 2 m.size = 2 := min_eq_left (by omega)
      rw [h.cur_eq]
      simp [hr0, this]
  · intro k x hx hk
    have hk' : k < m.size := hk
    show Function.update m.items (m.next m.cur) _
      (((((tc - t0) / r * r, (b : ℚ)) :: (s, v) :: rest).length - 1 - k) % m.size) = _
    simp only [List.length_cons]
    cases k with
    | zero =>
      simp only [List.getElem?_cons_zero, Option.some.injEq] at hx
      subst hx
      have : (rest.length + 1 + 1 - 1 - 0) % m.size = m.next m.cur := by
        rw [hnext]
        simp
      rw [this, Function.update_same, hsub, h.resolution_eq, h.startedAt_eq]
      have hdiv : Int.tdiv (tc - t0) r = (tc - t0) / r := Int.tdiv_eq_ediv h0 hr.le
      rw [hdiv]
      have hfl : (tc - t0) / r * r ≤ tc - t0 := Int.ediv_mul_le _ (ne_of_gt hr)
      have hfl0 : 0 ≤ (tc - t0) / r * r := Int.mul_nonneg (Int.ediv_nonneg h0 hr.le) hr.le
      rw [wrap64_of_range _ (by unfold minDuration; omega) (by omega)]
      simp [Time.Add, add_assoc]
    | succ k =>
      have hlen : k < rest.length + 1 := by
        have := List.getElem?_eq_some_iff.mp hx
        obtain ⟨hk'', -⟩ := this
        simpa using hk''
      have hne : (rest.length + 1 + 1 - 1 - (k + 1)) % m.size ≠ m.next m.cur := by
        rw [hnext]
        exact slot_ne (rest.length + 1 + 1 - 1 - (k + 1)) (rest.length + 1) m.size
          (by omega) (by omega)
      rw [Function.update_noteq hne]
      have := h.items_eq k x (by simpa using hx) (by omega)
      have e : rest.length + 1 + 1 - 1 - (k + 1) = ((s, v) :: rest).length - 1 - k := by
        simp only [List.length_cons]
        omega
      rw [e]
      exact this

/-! ## Truncation to a multiple of the resolution -/

theorem floor_multiple_le (x r : Int) (hr : 0 < r) : x / r * r ≤ x :=
  Int.ediv_mul_le x (ne_of_gt hr)

theorem lt_floor_multiple_add (x r : Int) (hr : 0 < r) : x < x / r * r + r := by
  have := Int.lt_ediv_add_one_mul_self x hr
  linarith

theorem le_floor_multiple (x r s : Int) (hr : 0 < r) (hd : r ∣ s) (hs : s ≤ x) :
    s ≤ x / r * r := by
  obtain ⟨q, rfl⟩ := hd
  have h1 : q ≤ x / r := (Int.le_ediv_iff_mul_le hr).mpr (by linarith [mul_comm r q])
  have := mul_le_mul_of_nonneg_right h1 hr.le
  linarith [mul_comm r q]

theorem floor_multiple_lt (x r s : Int) (hr : 0 < r) (hs : x < s) :
    x / r * r < s := by
  have := floor_multiple_le x r hr
  omega

theorem floor_multiple_eq (x r s : Int) (hr : 0 < r) (hd : r ∣ s) (h1 : s ≤ x)
    (h2 : x < s + r) : x / r * r = s := by
  have ha := le_floor_multiple x r s hr hd h1
  have hb := floor_multiple_le x r hr
  obtain ⟨q, rfl⟩ := hd
  obtain ⟨q', hq'⟩ : r ∣ x / r * r := Dvd.intro_left _ rfl
  rw [hq'] at ha hb ⊢
  have h3 : r * q' < r * (q + 1) := by linarith
  have h4 : q' < q + 1 := lt_of_mul_lt_mul_left h3 hr.le
  have h5 : q ≤ q' := le_of_mul_le_mul_left ha hr
  have : q' = q := by omega
  rw [this]

/-! ## One record in the history -/

theorem volSum_cons (P : Int → Bool) (x : Int × ℚ) (rest : List (Int × ℚ)) :
    volSum P (x :: rest) = (if P x.1 then x.2 else 0) + volSum P rest := by
  unfold volSum
  by_cases h : P x.1 = true
  · simp [List.filter_cons, h]
  · simp [List.filter_cons, h]

theorem histRecord_inv {t0 r : Int} {hist : List (Int × ℚ)} {lo : Int}
    (h : HistInv t0 r hist lo) (hne : hist ≠ []) (t : Int) (b : Nat) (ht : lo ≤ t) :
    HistInv t0 r (histRecord t0 r hist (t, b)) t ∧
    histRecord t0 r hist (t, b) ≠ [] ∧
    ∀ P, volSum P (histRecord t0 r hist (t, b))
      = volSum P hist + (if P ((t - t0) / r * r) then (b : ℚ) else 0) := by
  obtain ⟨hr, hchain, hmul, hhead⟩ := h
  cases hist with
  | nil => exact absurd rfl hne
  | cons x rest =>
    obtain ⟨s, v⟩ := x
    have hs := hmul (s, v) (List.mem_cons_self _ _)
    have hlo : t0 + s ≤ lo := hhead (s, v) (by simp)
    unfold histRecord
    dsimp only
    by_cases hlt : t < t0 + s + r
    · rw [if_pos hlt]
      have hoff : (t - t0) / r * r = s :=
        floor_multiple_eq (t - t0) r s hr hs.1 (by omega) (by omega)
      refine ⟨⟨hr, ?_, ?_, ?_⟩, by simp, ?_⟩
      · cases rest with
        | nil => exact List.chain'_singleton _
        | cons y rest' =>
          rw [List.chain'_cons] at hchain ⊢
          exact hchain
      · intro y hy
        rcases List.mem_cons.mp hy with rfl | hy
        · exact hs
        · exact hmul y (List.mem_cons_of_mem _ hy)
      · intro y hy
        simp only [List.head?_cons, Option.mem_def, Option.some.injEq] at hy
        subst hy
        show t0 + s ≤ t
        omega
      · intro P
        rw [volSum_cons, volSum_cons, hoff]
        dsimp only
        split_ifs <;> ring
    · rw [if_neg hlt]
      have hoff : s + r ≤ (t - t0) / r * r :=
        le_floor_multiple (t - t0) r (s + r) hr (Dvd.dvd.add hs.1 (dvd_refl r)) (by omega)
      refine ⟨⟨hr, ?_, ?_, ?_⟩, by simp, ?_⟩
      · rw [List.chain'_cons]
        exact ⟨hoff, hchain⟩
      · intro y hy
        rcases List.mem_cons.mp hy with rfl | hy
        · exact ⟨Dvd.intro_left _ rfl, by show 0 ≤ (t - t0) / r * r; omega⟩
        · exact hmul y hy
      · intro y hy
        simp only [List.head?_cons, Option.mem_def, Option.some.injEq] at hy
        subst hy
        show t0 + (t - t0) / r * r ≤ t
        have := floor_multiple_le (t - t0) r hr
        omega
      · intro P
        rw [volSum_cons]
        exact add_comm _ _

theorem sim_step {m : meter} {t0 r : Int} {hist : List (Int × ℚ)} {lo : Int}
    (h : Sim m t0 r hist) (hi : HistInv t0 r hist lo) (t : Int) (b : Nat) (ht : lo ≤ t)
    (hmax : (t - t0) / r * r + r ≤ maxDuration) :
    Sim (m.record t b) t0 r (histRecord t0 r hist (t, b)) := by
  cases hist with
  | nil => exact absurd h.length_pos (by simp)
  | cons x rest =>
    obtain ⟨s, v⟩ := x
    have hs := hi.multiple (s, v) (List.mem_cons_self _ _)
    have hlo : t0 + s ≤ lo := hi.head_le (s, v) (by simp)
    unfold histRecord
    dsimp only
    by_cases hlt : t < t0 + s + r
    · rw [if_pos hlt]
      exact sim_same h t b hlt
    · rw [if_neg hlt]
      exact sim_next h hi.r_pos t b hlt (by have := hs.2; show 0 ≤ t - t0; omega) hmax

theorem recSum_cons (t0 r : Int) (P : Int → Bool) (x : Int × Nat) (rest : List (Int × Nat)) :
    recSum t0 r P (x :: rest)
      = (if P ((x.1 - t0) / r * r) then (x.2 : ℚ) else 0) + recSum t0 r P rest := by
  unfold recSum
  by_cases h : P ((x.1 - t0) / r * r) = true
  · simp [List.filter_cons, h]
  · simp [List.filter_cons, h]

/-- A sequence of records with non-decreasing times, none before `lo`: the ring
follows the history and the volumes of the history are the bytes recorded. -/
theorem recordAll_sim (t0 r : Int) (records : List (Int × Nat)) :
    ∀ (m : meter) (hist : List (Int × ℚ)) (lo : Int),
      Sim m t0 r hist → HistInv t0 r hist lo →
      List.Chain (fun a b => a ≤ b) lo (records.map Prod.fst) →
      (∀ x ∈ records, (x.1 - t0) / r * r + r ≤ maxDuration) →
      Sim (m.recordAll records) t0 r (records.foldl (histRecord t0 r) hist) ∧
      HistInv t0 r (records.foldl (histRecord t0 r) hist)
        (records.foldl (fun _ x => x.1) lo) ∧
      (∀ P, volSum P (records.foldl (histRecord t0 r) hist)
        = volSum P hist + recSum t0 r P records) := by
  induction records with
  | nil =>
    intro m hist lo h hi _ _
    exact ⟨h, hi, fun P => by simp [recSum]⟩
  | cons x rest ih =>
    intro m hist lo h hi hchain hmax
    rw [List.map_cons, List.chain_cons] at hchain
    have hne : hist ≠ [] := by
      intro e
      have := h.length_pos
      rw [e] at this
      simp at this
    have hstep := sim_step h hi x.1 x.2 hchain.1 (hmax x (List.mem_cons_self _ _))
    obtain ⟨hi', -, hvol⟩ := histRecord_inv hi hne x.1 x.2 hchain.1
    obtain ⟨a1, a2, a3⟩ := ih (m.record x.1 x.2) (histRecord t0 r hist (x.1, x.2)) x.1
      hstep hi' hchain.2 (fun y hy => hmax y (List.mem_cons_of_mem _ hy))
    refine ⟨a1, a2, ?_⟩
    · intro P
      show volSum P (rest.foldl (histRecord t0 r) (histRecord t0 r hist x)) = _
      have := a3 P
      rw [hvol P] at this
      rw [recSum_cons]
      show volSum P (rest.foldl (histRecord t0 r) (histRecord t0 r hist (x.1, x.2))) = _
      rw [this]
      ring

/-! ## The loop of `bitRate` on the history -/

theorem sumLoop_sim {m : meter} {t0 r : Int} {hist : List (Int × ℚ)} (h : Sim m t0 r hist)
    (hL : 2 ≤ hist.length) (ss : Int) (fuel : Nat) :
    ∀ (k : Nat) (acc : ℚ), k ≤ min hist.length m.size - 1 →
      min hist.length m.size - 1 + 1 - k ≤ fuel →
      meter.sumLoop m ss fuel ((hist.length - 1 - k) % m.size) acc
        = some (histLoop ss (min hist.length m.size - 1 + 1 - k) (hist.drop k) acc) := by
  have hsize := h.size_ge
  induction fuel with
  | zero =>
    intro k acc hk hf
    omega
  | succ fuel ih =>
    intro k acc hk hf
    have hkL : k < hist.length := by
      have := min_le_left hist.length m.size
      omega
    have hkS : k < m.size := by
      have := min_le_right hist.length m.size
      omega
    have hdrop : hist.drop k = hist[k] :: hist.drop (k + 1) := List.drop_eq_getElem_cons hkL
    have hitem := h.items_eq k hist[k] (List.getElem?_eq_getElem hkL) hkS
    have hfirst : m.first = some ((hist.length - 1 - (min hist.length m.size - 1)) % m.size) := by
      rw [h.first_eq, if_pos hL]
      congr 2
      have := min_le_left hist.length m.size
      omega
    have hbud : min hist.length m.size - 1 + 1 - k = (min hist.length m.size - 1 - k) + 1 := by
      omega
    rw [meter.sumLoop, hitem, hdrop, hbud, histLoop]
    dsimp only
    by_cases hss : ss ≤ hist[k].1
    · rw [if_pos hss, if_pos hss]
      by_cases hkf : k = min hist.length m.size - 1
      · have e1 : some ((hist.length - 1 - k) % m.size) = m.first := by
          rw [hfirst, hkf]
        have e2 : min hist.length m.size - 1 - k = 0 := by omega
        rw [if_pos e1, if_pos e2]
      · have e1 : ¬ some ((hist.length - 1 - k) % m.size) = m.first := by
          rw [hfirst]
          intro he
          injection he with he
          have := (slot_eq_iff (hist.length - 1 - (min hist.length m.size - 1))
            (hist.length - 1 - k) m.size (by omega) (by omega)).mp he.symm
          omega
        have e2 : ¬ min hist.length m.size - 1 - k = 0 := by omega
        rw [if_neg e1, if_neg e2]
        have hprev : m.prev ((hist.length - 1 - k) % m.size)
            = (hist.length - 1 - (k + 1)) % m.size := by
          unfold meter.prev
          rw [slot_pred _ _ (by omega) (by omega)]
          congr 1
        rw [hprev, ih (k + 1) _ (by omega) (by omega)]
        congr 2
        omega
    · rw [if_neg hss, if_neg hss]

theorem chain_lt_head (r : Int) (hr : 0 < r) (y : Int × ℚ) (l : List (Int × ℚ))
    (hc : List.Chain' (fun a b => b.1 + r ≤ a.1) (y :: l)) : ∀ x ∈ l, x.1 < y.1 := by
  induction l generalizing y with
  | nil => intro x hx; simp at hx
  | cons z rest ih =>
    intro x hx
    rw [List.chain'_cons] at hc
    rcases List.mem_cons.mp hx with rfl | hx
    · omega
    · have := ih z hc.2 x hx
      omega

theorem chain_gap (r : Int) (l : List (Int × ℚ))
    (hc : List.Chain' (fun a b => b.1 + r ≤ a.1) l) :
    ∀ (k : Nat) (x y : Int × ℚ), l[0]? = some y → l[k]? = some x → x.1 + (k : Int) * r ≤ y.1 := by
  induction l with
  | nil => intro k x y hy; simp at hy
  | cons z rest ih =>
    intro k x y hy hx
    simp only [List.getElem?_cons_zero, Option.some.injEq] at hy
    subst hy
    cases k with
    | zero =>
      simp only [List.getElem?_cons_zero, Option.some.injEq] at hx
      subst hx
      simp
    | succ k =>
      simp only [List.getElem?_cons_succ] at hx
      cases rest with
      | nil => simp at hx
      | cons w rest' =>
        rw [List.chain'_cons] at hc
        have := ih hc.2 k x w (by simp) hx
        push_cast
        have h1 := hc.1
        linarith

theorem volSum_eq_zero (P : Int → Bool) (l : List (Int × ℚ)) (h : ∀ x ∈ l, P x.1 = false) :
    volSum P l = 0 := by
  induction l with
  | nil => simp [volSum]
  | cons x rest ih =>
    rw [volSum_cons, h x (List.mem_cons_self _ _), ih (fun y hy => h y (List.mem_cons_of_mem _ hy))]
    simp

theorem volSum_congr (P Q : Int → Bool) (l : List (Int × ℚ)) (h : ∀ x ∈ l, P x.1 = Q x.1) :
    volSum P l = volSum Q l := by
  induction l with
  | nil => simp [volSum]
  | cons x rest ih =>
    rw [volSum_cons, volSum_cons, h x (List.mem_cons_self _ _),
      ih (fun y hy => h y (List.mem_cons_of_mem _ hy))]

theorem histLoop_eq (r : Int) (hr : 0 < r) (ss : Int) (l : List (Int × ℚ)) :
    ∀ (budget : Nat) (acc : ℚ), List.Chain' (fun a b => b.1 + r ≤ a.1) l →
      (∀ x ∈ l.drop budget, x.1 < ss) →
      histLoop ss budget l acc = acc + volSum (fun s => decide (ss ≤ s)) l := by
  induction l with
  | nil =>
    intro budget acc _ _
    cases budget <;> simp [histLoop, volSum]
  | cons x rest ih =>
    intro budget acc hc hd
    cases budget with
    | zero =>
      rw [histLoop, volSum_eq_zero]
      · simp
      · intro y hy
        have := hd y (by simpa using hy)
        simp
        exact this
    | succ n =>
      rw [histLoop, volSum_cons]
      have hc' : List.Chain' (fun a b => b.1 + r ≤ a.1) rest := hc.tail
      by_cases hss : ss ≤ x.1
      · rw [if_pos hss]
        simp only [hss, decide_True, if_true]
        by_cases hn : n = 0
        · rw [if_pos hn, volSum_eq_zero]
          · ring
          · intro y hy
            subst hn
            have := hd y (by simpa using hy)
            simp
            exact this
        · rw [if_neg hn, ih n _ hc' (by simpa using hd)]
          ring
      · rw [if_neg hss]
        have hx : decide (ss ≤ x.1) = false := by simpa using hss
        rw [hx, volSum_eq_zero]
        · simp
        · intro y hy
          have := chain_lt_head r hr x rest hc y hy
          simp
          omega

/-- The bit rate of a meter whose ring follows a history with a closed bucket,
queried not before the last record: the volumes of the buckets of the window. -/
theorem bitRate_sim {m : meter} {t0 r : Int} {hist : List (Int × ℚ)} {lo : Int}
    (h : Sim m t0 r hist) (hi : HistInv t0 r hist lo) (hL : 2 ≤ hist.length)
    (N : Nat) (hN : m.sample = (N : Int) * r) (hsz : m.size = N + 1)
    (hsample : m.sample ≤ maxDuration)
    (tc : Int) (hlo : lo ≤ tc) (hmax : tc - t0 ≤ maxDuration) (fuel : Nat)
    (hf : m.size ≤ fuel) :
    meter.bitRate fuel m tc = some (.finite
      (volSum (fun s => decide ((tc - t0) / r * r - min m.sample ((tc - t0) / r * r) ≤ s ∧
          s < (tc - t0) / r * r)) hist
        * bpscoef / ((min m.sample ((tc - t0) / r * r) : Int) : ℚ))) := by
  have hr := hi.r_pos
  have hsize := h.size_ge
  obtain ⟨x0, tl, rfl⟩ : ∃ x0 tl, hist = x0 :: tl := by
    cases hist with
    | nil => simp at hL
    | cons a b => exact ⟨a, b, rfl⟩
  obtain ⟨x1, rest, rfl⟩ : ∃ x1 rest, tl = x1 :: rest := by
    cases tl with
    | nil => simp at hL
    | cons a b => exact ⟨a, b, rfl⟩
  obtain ⟨s0, v0⟩ := x0
  have hcur := sim_cur_item h
  have hs0 := hi.multiple (s0, v0) (List.mem_cons_self _ _)
  have hlo0 : t0 + s0 ≤ lo := hi.head_le (s0, v0) (by simp)
  have hchain := hi.chain
  have hc01 : x1.1 + r ≤ s0 := (List.chain'_cons.mp hchain).1
  have hctl : List.Chain' (fun a b => b.1 + r ≤ a.1) (x1 :: rest) := hchain.tail
  have hs1 := hi.multiple x1 (by simp)
  have h0 : 0 ≤ tc - t0 := by omega
  generalize hE : (tc - t0) / r * r = E
  have hEle : E ≤ tc - t0 := by rw [← hE]; exact floor_multiple_le _ _ hr
  have hEdvd : r ∣ E := by rw [← hE]; exact Dvd.intro_left _ rfl
  have hNpos : (0 : Int) ≤ (N : Int) * r := by positivity
  -- the window
  have hW : min m.sample E = if E - m.sample < 0 then E else m.sample := by
    split_ifs with hc
    · exact min_eq_right (by omega)
    · exact min_eq_left (by omega)
  have hSS : E - min m.sample E = if E - m.sample < 0 then 0 else E - m.sample := by
    rw [hW]
    split_ifs <;> omega
  have hkf : min ((s0, v0) :: x1 :: rest).length m.size - 1 + 1
      = min ((s0, v0) :: x1 :: rest).length m.size := by
    have : 2 ≤ min ((s0, v0) :: x1 :: rest).length m.size := le_min hL (by omega)
    omega
  have hEr : r ≤ E := by
    have h1 : s0 ≤ E := by
      rw [← hE]
      exact le_floor_multiple (tc - t0) r s0 hr hs0.1 (by omega)
    have := hs1.2
    omega
  have hwrap : wrap64 (E - m.sample) = E - m.sample := by
    apply wrap64_of_range
    · unfold minDuration
      unfold maxDuration at hsample
      omega
    · omega
  have hWne : (((min m.sample E : Int) : ℚ)) ≠ 0 := by
    have hN2 : (2 : Int) ≤ (N : Int) := by
      have : 2 ≤ N := by omega
      exact_mod_cast this
    have hs : 0 < m.sample := by
      rw [hN]
      exact Int.mul_pos (by omega) hr
    have : 0 < min m.sample E := lt_min hs (by omega)
    exact_mod_cast this.ne'
  -- buckets the ring no longer holds lie before the window
  have hold : ∀ (k0 : Nat) (y : Int × ℚ), k0 ≤ 1 → ((s0, v0) :: x1 :: rest)[k0]? = some y →
      y.1 + r ≤ E →
      ∀ x ∈ (((s0, v0) :: x1 :: rest).drop k0).drop
        (min ((s0, v0) :: x1 :: rest).length m.size - k0),
        x.1 < E - min m.sample E := by
    intro k0 y hk0 hy hyE x hx
    rw [List.drop_drop] at hx
    obtain ⟨j, hjx⟩ := List.mem_iff_getElem?.mp hx
    rw [List.getElem?_drop] at hjx
    have hjlen : k0 + (min ((s0, v0) :: x1 :: rest).length m.size - k0) + j
        < ((s0, v0) :: x1 :: rest).length := by
      have := List.getElem?_eq_some_iff.mp hjx
      obtain ⟨hlt, -⟩ := this
      exact hlt
    have hmin : min ((s0, v0) :: x1 :: rest).length m.size = m.size := by
      apply min_eq_right
      have := min_le_left ((s0, v0) :: x1 :: rest).length m.size
      by_contra hcon
      push_neg at hcon
      have : min ((s0, v0) :: x1 :: rest).length m.size = ((s0, v0) :: x1 :: rest).length :=
        min_eq_left hcon.le
      omega
    rw [hmin] at hjx hjlen
    have hgap := chain_gap r (((s0, v0) :: x1 :: rest).drop k0) (List.Chain'.drop hchain k0)
      (m.size - k0 + j) x y (by rw [List.getElem?_drop]; simpa using hy)
      (by
        rw [List.getElem?_drop]
        have e : k0 + (m.size - k0 + j) = k0 + (m.size - k0) + j := by omega
        rw [e]
        exact hjx)
    have hge : (N : Int) ≤ ((m.size - k0 + j : Nat) : Int) := by
      have : N ≤ m.size - k0 + j := by omega
      exact_mod_cast this
    have hmul : (N : Int) * r ≤ ((m.size - k0 + j : Nat) : Int) * r :=
      mul_le_mul_of_nonneg_right hge hr.le
    have hWle : min m.sample E ≤ m.sample := min_le_left _ _
    rw [hN] at hWle
    omega
  unfold meter.bitRate
  rw [h.last_eq, if_pos hL]
  dsimp only
  rw [hcur]
  dsimp only
  by_cases hin : tc < t0 + s0 + r
  · -- the query falls in the current bucket
    have hE0 : E = s0 := by
      rw [← hE]
      exact floor_multiple_eq (tc - t0) r s0 hr hs0.1 (by omega) (by omega)
    simp only [hin, not_true_eq_false, if_false]
    subst hE0
    have hloop := sumLoop_sim h hL (E - min m.sample E) fuel 1 0
      (by have : 2 ≤ min ((E, v0) :: x1 :: rest).length m.size := le_min hL (by omega); omega)
      (by have := min_le_right ((E, v0) :: x1 :: rest).length m.size; omega)
    have e1 : (((E, v0) :: x1 :: rest).length - 1 - 1) = ((E, v0) :: x1 :: rest).length - 2 := by
      omega
    rw [e1, hkf] at hloop
    have key : histLoop (E - min m.sample E)
        (min ((E, v0) :: x1 :: rest).length m.size - 1) (((E, v0) :: x1 :: rest).drop 1) 0
        = volSum (fun s => decide (E - min m.sample E ≤ s ∧ s < E)) ((E, v0) :: x1 :: rest) := by
      rw [histLoop_eq r hr _ _ _ _ (List.Chain'.drop hchain 1)
        (hold 1 x1 (le_refl _) (by simp) (by omega))]
      rw [zero_add]
      show volSum _ (x1 :: rest) = _
      rw [volSum_cons (fun s => decide (E - min m.sample E ≤ s ∧ s < E)) (E, v0)]
      have hhead : decide (E - min m.sample E ≤ (E, v0).1 ∧ (E, v0).1 < E) = false := by
        simp
      rw [hhead]
      simp only [Bool.false_eq_true, if_false, zero_add]
      apply volSum_congr
      intro x hx
      have hxlt : x.1 < E := by
        rcases List.mem_cons.mp hx with rfl | hx'
        · omega
        · have := chain_lt_head r hr x1 rest hctl x hx'
          omega
      simp [hxlt]
    rw [hwrap, ← hW, ← hSS, hloop, key]
    exact congrArg some (quotient_finite _ _ hWne)
  · -- the query falls after the current bucket
    have hsub : Time.Sub tc m.startedAt = tc - t0 := by
      rw [h.startedAt_eq]
      unfold Time.Sub
      unfold maxDuration at hmax
      unfold minDuration maxDuration
      rw [if_neg (by omega), if_neg (by omega)]
    have hE0 : s0 + r ≤ E := by
      rw [← hE]
      exact le_floor_multiple (tc - t0) r (s0 + r) hr (Dvd.dvd.add hs0.1 (dvd_refl r)) (by omega)
    simp only [hin, not_false_eq_true, if_true]
    have hloop := sumLoop_sim h hL (E - min m.sample E) fuel 0 0 (by omega)
      (by have := min_le_right ((s0, v0) :: x1 :: rest).length m.size; omega)
    rw [Nat.sub_zero, Nat.sub_zero, hkf, List.drop_zero] at hloop
    have key : histLoop (E - min m.sample E)
        (min ((s0, v0) :: x1 :: rest).length m.size) ((s0, v0) :: x1 :: rest) 0
        = volSum (fun s => decide (E - min m.sample E ≤ s ∧ s < E)) ((s0, v0) :: x1 :: rest) := by
      rw [histLoop_eq r hr _ _ _ _ hchain
        (by
          have := hold 0 (s0, v0) (by omega) (by simp) hE0
          simpa using this)]
      rw [zero_add]
      apply volSum_congr
      intro x hx
      have hxlt : x.1 < E := by
        rcases List.mem_cons.mp hx with rfl | hx'
        · show s0 < E
          omega
        · have := chain_lt_head r hr (s0, v0) (x1 :: rest) hchain x hx'
          show x.1 < E
          have h2 : x.1 < s0 := this
          omega
      simp [hxlt]
    rw [hsub, h.resolution_eq, Int.tdiv_eq_ediv h0 hr.le, hE, hwrap, ← hW, ← hSS, h.cur_eq,
      hloop, key]
    exact congrArg some (quotient_finite _ _ hWne)

/-! ## A meter fresh from `newMeter` and `start` -/

theorem start_fresh {m : meter} {resolution sample : Int}
    (h : newMeter resolution sample = .ok m) (t0 : Int) :
    m.start t0 =
      { resolution := resolution, sample := sample,
        size := (Int.tdiv sample resolution).toNat + 1,
        items := Function.update (fun _ => meterItem.zero) 0
          { vol := 0, start := 0, end_ := t0 + resolution },
        cur := 0, last := none, first := none,
        started := true, closed := false, startedAt := t0, closedAt := 0, totalBytes := 0 } ∧
    MinMeterResolution ≤ resolution ∧ 0 < sample ∧ 2 ≤ Int.tdiv sample resolution := by
  have hv : ¬ (resolution < MinMeterResolution ∨ sample ≤ 0 ∨ Int.tdiv sample resolution < 2) := by
    intro hbad
    obtain ⟨e, he⟩ := (newMeter_error_iff resolution sample).mpr hbad
    rw [he] at h
    cases h
  push_neg at hv
  rw [newMeter_of_valid hv.1 hv.2.1 hv.2.2] at h
  injection h with h
  subst h
  refine ⟨?_, hv.1, hv.2.1, hv.2.2⟩
  simp [meter.start, Time.Add, meterItem.zero]

theorem start_sim {m : meter} {resolution sample : Int}
    (h : newMeter resolution sample = .ok m) (t0 : Int) :
    Sim (m.start t0) t0 resolution [(0, 0)] ∧ HistInv t0 resolution [(0, 0)] t0 := by
  obtain ⟨hs, h1, h2, h3⟩ := start_fresh h t0
  have hr : 0 < resolution := by
    unfold MinMeterResolution Millisecond at h1
    omega
  rw [hs]
  constructor
  · refine ⟨?_, rfl, rfl, by simp, ?_, ?_, ?_, ?_⟩
    · show 3 ≤ (Int.tdiv sample resolution).toNat + 1
      omega
    · simp
    · simp
    · simp
    · intro k x hx hk
      cases k with
      | zero =>
        simp only [List.getElem?_cons_zero, Option.some.injEq] at hx
        subst hx
        have e : ([((0 : Int), (0 : ℚ))].length - 1 - 0) % ((Int.tdiv sample resolution).toNat + 1)
            = 0 := Nat.zero_mod _
        dsimp only
        rw [e, Function.update_same]
        simp
      | succ k => simp at hx
  · refine ⟨hr, List.chain'_singleton _, ?_, ?_⟩
    · intro x hx
      simp only [List.mem_singleton] at hx
      subst hx
      simp
    · intro x hx
      simp only [List.head?_cons, Option.mem_def, Option.some.injEq] at hx
      subst hx
      simp

theorem foldl_last_time (records : List (Int × Nat)) :
    ∀ lo : Int, records.foldl (fun _ x => x.1) lo = lo ∨
      ∃ x ∈ records, records.foldl (fun _ x => x.1) lo = x.1 := by
  induction records with
  | nil => intro lo; exact Or.inl rfl
  | cons y rest ih =>
    intro lo
    right
    rcases ih y.1 with h | ⟨x, hx, h⟩
    · exact ⟨y, List.mem_cons_self _ _, h⟩
    · exact ⟨x, List.mem_cons_of_mem _ hx, h⟩

/-- A fresh meter started at `t0` and fed records with non-decreasing times from
`t0` on: the ring follows a history whose volumes are the bytes recorded. -/
theorem records_sim {m : meter} {resolution sample : Int}
    (h : newMeter resolution sample = .ok m) (t0 : Int) (records : List (Int × Nat))
    (hsorted : List.Chain (fun a b => a ≤ b) t0 (records.map Prod.fst))
    (tc : Int) (ht0 : t0 ≤ tc) (htc : ∀ x ∈ records, x.1 ≤ tc)
    (hmax : (tc - t0) / resolution * resolution + resolution ≤ maxDuration) :
    ∃ hist lo, lo ≤ tc ∧ Sim ((m.start t0).recordAll records) t0 resolution hist ∧
      HistInv t0 resolution hist lo ∧
      (∀ P, volSum P hist = recSum t0 resolution P records) := by
  obtain ⟨hsim, hinv⟩ := start_sim h t0
  obtain ⟨a1, a2, a3⟩ := recordAll_sim t0 resolution records (m.start t0) [(0, 0)] t0 hsim hinv
    hsorted (fun x hx => by
      have h1 : (x.1 - t0) / resolution ≤ (tc - t0) / resolution :=
        Int.ediv_le_ediv hinv.r_pos (by have := htc x hx; omega)
      have h2 := Int.mul_le_mul_of_nonneg_right h1 hinv.r_pos.le
      omega)
  refine ⟨_, _, ?_, a1, a2, ?_⟩
  · rcases foldl_last_time records t0 with h | ⟨x, hx, h⟩
    · rw [h]; exact ht0
    · rw [h]; exact htc x hx
  · intro P
    rw [a3 P, volSum_cons]
    simp [volSum]

/-- `record` changes neither the configuration of the meter nor its start and
close marks. -/
theorem record_config (m : meter) (tc : Int) (b : Nat) :
    (m.record tc b).resolution = m.resolution ∧ (m.record tc b).sample = m.sample ∧
    (m.record tc b).size = m.size ∧ (m.record tc b).startedAt = m.startedAt ∧
    (m.record tc b).started = m.started ∧ (m.record tc b).closed = m.closed ∧
    (m.record tc b).closedAt = m.closedAt := by
  unfold meter.record
  split_ifs <;> exact ⟨rfl, rfl, rfl, rfl, rfl, rfl, rfl⟩

theorem recordAll_config (records : List (Int × Nat)) :
    ∀ m : meter,
      (m.recordAll records).resolution = m.resolution ∧
      (m.recordAll records).sample = m.sample ∧
      (m.recordAll records).size = m.size ∧ (m.recordAll records).startedAt = m.startedAt ∧
      (m.recordAll records).started = m.started ∧ (m.recordAll records).closed = m.closed ∧
      (m.recordAll records).closedAt = m.closedAt := by
  induction records with
  | nil => intro m; exact ⟨rfl, rfl, rfl, rfl, rfl, rfl, rfl⟩
  | cons x rest ih =>
    intro m
    obtain ⟨a1, a2, a3, a4, a5, a6, a7⟩ := ih (m.record x.1 x.2)
    obtain ⟨b1, b2, b3, b4, b5, b6, b7⟩ := record_config m x.1 x.2
    show ((m.record x.1 x.2).recordAll rest).resolution = _ ∧ _
    exact ⟨a1.trans b1, a2.trans b2, a3.trans b3, a4.trans b4, a5.trans b5, a6.trans b6,
      a7.trans b7⟩

theorem tdiv_multiple (N : Nat) (r : Int) (hr : 0 < r) : Int.tdiv ((N : Int) * r) r = (N : Int) := by
  rw [Int.tdiv_eq_ediv (by positivity) hr.le]
  exact Int.mul_ediv_cancel _ (ne_of_gt hr)

/-- The size of the ring of a fresh meter whose sample is `N` resolutions. -/
theorem fresh_size {m : meter} {resolution sample : Int}
    (h : newMeter resolution sample = .ok m) (N : Nat) (hN : sample = (N : Int) * resolution)
    (t0 : Int) (records : List (Int × Nat)) :
    ((m.start t0).recordAll records).size = N + 1 ∧
    ((m.start t0).recordAll records).sample = sample ∧ 2 ≤ N := by
  obtain ⟨hs, h1, h2, h3⟩ := start_fresh h t0
  have hr : 0 < resolution := by
    unfold MinMeterResolution Millisecond at h1
    omega
  obtain ⟨-, a2, a3, -⟩ := recordAll_config records (m.start t0)
  rw [a2, a3, hs]
  dsimp only
  rw [hN, tdiv_multiple N resolution hr] at h3 ⊢
  refine ⟨by simp, rfl, by exact_mod_cast h3⟩

/-! ## The window in terms of the records -/

/-- A bound that is a multiple of the resolution separates the records as it
separates their buckets. -/
theorem recSum_window (t0 r : Int) (hr : 0 < r) (lo hi : Int) (hlo : r ∣ lo) (hhi : r ∣ hi)
    (records : List (Int × Nat)) :
    recSum t0 r (fun s => decide (lo ≤ s ∧ s < hi)) records
      = ((records.filter (fun x => decide (lo ≤ x.1 - t0 ∧ x.1 - t0 < hi))).map
          (fun x => (x.2 : ℚ))).sum := by
  unfold recSum
  congr 2
  apply List.filter_congr
  intro x _
  have h1 : lo ≤ (x.1 - t0) / r * r ↔ lo ≤ x.1 - t0 :=
    ⟨fun h => le_trans h (floor_multiple_le _ _ hr), fun h => le_floor_multiple _ _ _ hr hlo h⟩
  have h2 : (x.1 - t0) / r * r < hi ↔ x.1 - t0 < hi := by
    constructor
    · intro h
      by_contra hcon
      have := le_floor_multiple (x.1 - t0) r hi hr hhi (not_lt.mp hcon)
      omega
    · intro h
      exact floor_multiple_lt _ _ _ hr h
  simp only [h1, h2]

theorem min_multiple (r sample E : Int) (N : Nat) (hN : sample = (N : Int) * r) (hE : r ∣ E) :
    r ∣ min sample E ∧ r ∣ E - min sample E := by
  have hs : r ∣ sample := by rw [hN]; exact Dvd.intro_left _ rfl
  rcases le_total sample E with h | h
  · rw [min_eq_left h]
    exact ⟨hs, Dvd.dvd.sub hE hs⟩
  · rw [min_eq_right h]
    exact ⟨hE, by simp⟩

/-! ## A constant number of bytes in every interval -/

theorem window_split (t0 : Int) (lo mid hi : Int) (h1 : lo ≤ mid) (h2 : mid ≤ hi)
    (records : List (Int × Nat)) :
    ((records.filter (fun x => decide (lo ≤ x.1 - t0 ∧ x.1 - t0 < hi))).map
        (fun x => (x.2 : ℚ))).sum
      = ((records.filter (fun x => decide (lo ≤ x.1 - t0 ∧ x.1 - t0 < mid))).map
          (fun x => (x.2 : ℚ))).sum
        + ((records.filter (fun x => decide (mid ≤ x.1 - t0 ∧ x.1 - t0 < hi))).map
          (fun x => (x.2 : ℚ))).sum := by
  induction records with
  | nil => simp
  | cons x rest ih =>
    rw [List.filter_cons, List.filter_cons, List.filter_cons]
    by_cases ha : lo ≤ x.1 - t0 ∧ x.1 - t0 < mid
    · have hb : lo ≤ x.1 - t0 ∧ x.1 - t0 < hi := ⟨ha.1, by omega⟩
      have hc : ¬ (mid ≤ x.1 - t0 ∧ x.1 - t0 < hi) := by omega
      rw [if_pos (decide_eq_true hb), if_pos (decide_eq_true ha),
        if_neg (by rw [decide_eq_true_eq]; exact hc)]
      rw [List.map_cons, List.map_cons, List.sum_cons, List.sum_cons, ih]
      ring
    · by_cases hc : mid ≤ x.1 - t0 ∧ x.1 - t0 < hi
      · have hb : lo ≤ x.1 - t0 ∧ x.1 - t0 < hi := ⟨by omega, hc.2⟩
        rw [if_pos (decide_eq_true hb), if_neg (by rw [decide_eq_true_eq]; exact ha),
          if_pos (decide_eq_true hc)]
        rw [List.map_cons, List.map_cons, List.sum_cons, List.sum_cons, ih]
        ring
      · have hb : ¬ (lo ≤ x.1 - t0 ∧ x.1 - t0 < hi) := by omega
        rw [if_neg (by rw [decide_eq_true_eq]; exact hb),
          if_neg (by rw [decide_eq_true_eq]; exact ha),
          if_neg (by rw [decide_eq_true_eq]; exact hc)]
        exact ih

theorem window_interval (resolution t0 : Int) (records : List (Int × Nat)) (k : Nat) :
    ((records.filter (fun x => decide ((k : Int) * resolution ≤ x.1 - t0 ∧
        x.1 - t0 < ((k : Int) + 1) * resolution))).map (fun x => (x.2 : ℚ))).sum
      = (intervalBytes resolution t0 records k : ℚ) := by
  unfold intervalBytes
  rw [Nat.cast_list_sum, List.map_map]
  have : (records.filter (fun x => decide ((k : Int) * resolution ≤ x.1 - t0 ∧
        x.1 - t0 < ((k : Int) + 1) * resolution)))
      = (records.filter (fun x => decide (t0 + (k : Int) * resolution ≤ x.1 ∧
        x.1 < t0 + ((k : Int) + 1) * resolution))) := by
    apply List.filter_congr
    intro x _
    have : ((k : Int) * resolution ≤ x.1 - t0 ∧ x.1 - t0 < ((k : Int) + 1) * resolution)
        ↔ (t0 + (k : Int) * resolution ≤ x.1 ∧ x.1 < t0 + ((k : Int) + 1) * resolution) := by
      constructor <;> rintro ⟨h1, h2⟩ <;> constructor <;> linarith
    simp only [this]
  rw [this]
  rfl

/-- The bytes of `j` whole intervals, each of which received `B` bytes. -/
theorem window_constant (resolution t0 : Int) (hr : 0 < resolution) (records : List (Int × Nat))
    (B : Nat) (a : Nat) :
    ∀ j : Nat, (∀ k, a ≤ k → k < a + j → intervalBytes resolution t0 records k = B) →
      ((records.filter (fun x => decide ((a : Int) * resolution ≤ x.1 - t0 ∧
          x.1 - t0 < ((a + j : Nat) : Int) * resolution))).map (fun x => (x.2 : ℚ))).sum
        = (j : ℚ) * (B : ℚ) := by
  intro j
  induction j with
  | zero =>
    intro _
    have : (records.filter (fun x => decide ((a : Int) * resolution ≤ x.1 - t0 ∧
          x.1 - t0 < ((a + 0 : Nat) : Int) * resolution))) = [] := by
      apply List.filter_eq_nil_iff.mpr
      intro x _
      simp only [Nat.add_zero, decide_eq_true_eq]
      omega
    rw [this]
    simp
  | succ j ih =>
    intro hB
    have hmid : (a : Int) * resolution ≤ ((a + j : Nat) : Int) * resolution := by
      apply mul_le_mul_of_nonneg_right _ hr.le
      exact_mod_cast Nat.le_add_right a j
    have hhi : ((a + j : Nat) : Int) * resolution ≤ ((a + (j + 1) : Nat) : Int) * resolution := by
      apply mul_le_mul_of_nonneg_right _ hr.le
      exact_mod_cast (by omega : a + j ≤ a + (j + 1))
    rw [window_split t0 _ _ _ hmid hhi, ih (fun k h1 h2 => hB k h1 (by omega))]
    have hk := window_interval resolution t0 records (a + j)
    have e : (((a + j : Nat) : Int) + 1) = ((a + (j + 1) : Nat) : Int) := by push_cast; ring
    rw [e] at hk
    rw [hk, hB (a + j) (by omega) (by omega)]
    push_cast
    ring

/-! ## A meter that has closed no bucket -/

theorem record_last_some (m : meter) (tc : Int) (b : Nat) (h : m.last ≠ none) :
    (m.record tc b).last ≠ none := by
  unfold meter.record
  split_ifs
  · exact h
  · simp

theorem recordAll_last_some (records : List (Int × Nat)) :
    ∀ m : meter, m.last ≠ none → (m.recordAll records).last ≠ none := by
  induction records with
  | nil => intro m h; exact h
  | cons x rest ih =>
    intro m h
    exact ih (m.record x.1 x.2) (record_last_some m x.1 x.2 h)

/-- A meter that still has no closed bucket has seen no record at or after the
end of its current bucket. -/
theorem recordAll_last_none (records : List (Int × Nat)) :
    ∀ m : meter, (m.recordAll records).last = none →
      ∀ x ∈ records, x.1 < (m.items m.cur).end_ := by
  induction records with
  | nil => intro m _ x hx; simp at hx
  | cons y rest ih =>
    intro m h x hx
    have hy : y.1 < (m.items m.cur).end_ := by
      by_contra hcon
      have : (m.record y.1 y.2).last ≠ none := by
        rw [record_next_bucket m y.1 y.2 hcon]
        simp
      exact recordAll_last_some rest _ this h
    rcases List.mem_cons.mp hx with rfl | hx'
    · exact hy
    · have := ih (m.record y.1 y.2) h x hx'
      rw [record_same_bucket m y.1 y.2 hy] at this
      simpa using this

/-! ## The concrete meter and streams -/

theorem newMeter1s3s : newMeter Second (Second * 3) = .ok meter1s3s := by
  rw [newMeter_of_valid (by decide) (by decide) (by decide)]
  rfl

theorem newReader16 : NewLimiterReader (0 : Nat) 16 = .ok reader16 := by
  have h : newLimiter 16 DefaultLimiterConfig.Resolution DefaultLimiterConfig.MaxWait
      = .ok limiter16 := newLimiter16
  unfold NewLimiterReader NewLimiterReaderWithConfig
  dsimp only
  rw [h]
  rfl

theorem newWriter16 :
    NewLimiterWriter ((0 : Nat), ([] : List (List UInt8))) 16 = .ok writer16 := by
  have h : newLimiter 16 DefaultLimiterConfig.Resolution DefaultLimiterConfig.MaxWait
      = .ok limiter16 := newLimiter16
  unfold NewLimiterWriter NewLimiterWriterWithConfig
  dsimp only
  rw [h]
  rfl

theorem configured16 : Configured limiter16 := by
  unfold Configured limiter16
  norm_num

/-- The `uint64` counter of a meter after a sequence of records: the bytes
recorded, modulo `2^64`. -/
theorem recordAll_totalBytes (records : List (Int × Nat)) :
    ∀ m : meter, m.totalBytes < 18446744073709551616 →
      (m.recordAll records).totalBytes
        = (m.totalBytes + (records.map Prod.snd).sum) % 18446744073709551616 := by
  induction records with
  | nil =>
    intro m hm
    simp only [meter.recordAll, List.foldl_nil, List.map_nil, List.sum_nil, Nat.add_zero]
    exact (Nat.mod_eq_of_lt hm).symm
  | cons x rest ih =>
    intro m _
    have h : (m.record x.1 x.2).totalBytes = (m.totalBytes + x.2) % 18446744073709551616 := by
      by_cases hlt : x.1 < (m.items m.cur).end_
      · rw [record_same_bucket m x.1 x.2 hlt]
      · rw [record_next_bucket m x.1 x.2 hlt]
    have hlt : (m.record x.1 x.2).totalBytes < 18446744073709551616 := by
      rw [h]
      exact Nat.mod_lt _ (by decide)
    have := ih (m.record x.1 x.2) hlt
    unfold meter.recordAll at this ⊢
    rw [List.foldl_cons, this, h, List.map_cons, List.sum_cons]
    omega

/-! ## The bit rate in terms of the records -/

theorem bitRate_window (resolution sample : Int) (N : Nat)
    (hN : sample = (N : Int) * resolution) (m : meter)
    (hnew : newMeter resolution sample = .ok m) (t0 : Int) (records : List (Int × Nat))
    (hsorted : List.Chain (fun a b => a ≤ b) t0 (records.map Prod.fst))
    (hclosed : ((m.start t0).recordAll records).last ≠ none)
    (hsmax : sample ≤ maxDuration)
    (tc : Int) (htc : ∀ x ∈ records, x.1 ≤ tc)
    (hmax : (tc - t0) / resolution * resolution + resolution ≤ maxDuration)
    (fuel : Nat) (hfuel : N + 1 ≤ fuel) :
    meter.bitRate fuel ((m.start t0).recordAll records) tc
      = some (.finite (((records.filter (fun x => decide
            ((tc - t0) / resolution * resolution
                - min sample ((tc - t0) / resolution * resolution) ≤ x.1 - t0 ∧
              x.1 - t0 < (tc - t0) / resolution * resolution))).map
            (fun x => (x.2 : ℚ))).sum
          * bpscoef / ((min sample ((tc - t0) / resolution * resolution) : Int) : ℚ))) := by
  obtain ⟨hs, h1, h2, h3⟩ := start_fresh hnew t0
  have hr : 0 < resolution := by unfold MinMeterResolution Millisecond at h1; omega
  have hne : records ≠ [] := by
    intro h
    apply hclosed
    rw [h, hs]
    rfl
  have ht0 : t0 ≤ tc := by
    cases records with
    | nil => exact absurd rfl hne
    | cons x rest =>
      have h1 : t0 ≤ x.1 := by
        simp only [List.map_cons, List.chain_cons] at hsorted
        exact hsorted.1
      have h2 := htc x (List.mem_cons_self _ _)
      omega
  obtain ⟨hist, lo, hlo, hsim, hinv, hvol⟩ := records_sim hnew t0 records hsorted tc ht0 htc hmax
  have hL : 2 ≤ hist.length := by
    by_contra hcon
    apply hclosed
    rw [hsim.last_eq, if_neg hcon]
  obtain ⟨hsz, hsample, -⟩ := fresh_size hnew N hN t0 records
  have hlt := lt_floor_multiple_add (tc - t0) resolution hr
  rw [bitRate_sim hsim hinv hL N (by rw [hsample]; exact hN) hsz (by rw [hsample]; exact hsmax)
    tc hlo (by omega) fuel (by omega)]
  rw [hvol, hsample]
  have hE : resolution ∣ (tc - t0) / resolution * resolution := Dvd.intro_left _ rfl
  obtain ⟨hW, hEW⟩ := min_multiple resolution sample _ N hN hE
  rw [recSum_window t0 resolution hr _ _ hEW hE records]

theorem sorted_two_records :
    List.Chain (fun a b => a ≤ b) clock2026
      (([(clock2026 + 100000000, 1250), (clock2026 + 1100000000, 1250)] :
        List (Int × Nat)).map Prod.fst) :=
  List.Chain.cons (by decide) (List.Chain.cons (by decide) List.Chain.nil)

theorem last_two_records :
    ((meter1s3s.start clock2026).recordAll
      [(clock2026 + 100000000, 1250), (clock2026 + 1100000000, 1250)]).last ≠ none := by
  decide

/-! ## The claims about the meter and the streams -/

/-- C11: `newMeter(resolution, sample)` returns an error if and only if the
resolution is below `MinMeterResolution` (100ms, which every non-positive
resolution is), or the sample is not positive, or the integer quotient
`sample / resolution` is less than 2; every error it returns matches
`ErrInvalidParameter` under `errors.Is`, and in every other case it returns a
meter.  The default configuration (500ms, 3s) is accepted, so `NewMeterReader`
and `NewMeterWriter` return a stream and do not panic. -/
theorem newMeter_fails_iff :
    (∀ (resolution sample : Int),
      ((∃ e, newMeter resolution sample = .error e) ↔
        (resolution < MinMeterResolution ∨ sample ≤ 0 ∨ Int.tdiv sample resolution < 2)) ∧
      ((∃ m, newMeter resolution sample = .ok m) ↔
        ¬ (resolution < MinMeterResolution ∨ sample ≤ 0 ∨ Int.tdiv sample resolution < 2)) ∧
      (∀ e, newMeter resolution sample = .error e → errorsIs e ErrInvalidParameter = true)) ∧
    MinMeterResolution = 100000000 ∧
    (∀ resolution : Int, resolution ≤ 0 → resolution < MinMeterResolution) ∧
    DefaultMeterConfig = { Resolution := 500000000, Sample := 3000000000 } ∧
    (∃ m, newMeter DefaultMeterConfig.Resolution DefaultMeterConfig.Sample = .ok m) ∧
    (∀ (ρ : Type) (rd : ρ), ∃ r, NewMeterReader rd = .ok r) ∧
    (∀ (ω : Type) (wr : ω), ∃ w, NewMeterWriter wr = .ok w) := by
  obtain ⟨d1, d2, d3⟩ := newMeter_default
  have hd := newMeter_of_valid d2 d3 (by rw [d1]; decide)
  refine ⟨fun resolution sample => ⟨newMeter_error_iff resolution sample, ?_,
      fun e he => newMeter_error_is he⟩, by decide, ?_, by decide, ⟨_, hd⟩, ?_, ?_⟩
  · rw [← newMeter_error_iff]
    cases h : newMeter resolution sample with
    | error e => simp
    | ok m => simp
  · intro resolution h
    unfold MinMeterResolution Millisecond
    omega
  · intro ρ rd
    unfold NewMeterReader NewMeterReaderWithConfig
    dsimp only
    rw [hd]
    exact ⟨_, rfl⟩
  · intro ω wr
    unfold NewMeterWriter NewMeterWriterWithConfig
    dsimp only
    rw [hd]
    exact ⟨_, rfl⟩

/-- C12: a meter is started at `t0` and fed a sequence of `record` calls.  Once
a call has closed a bucket, the byte count `total` returns is the sum of the
byte counts recorded so far as the `uint64` counter holds it, that is modulo
`2^64` (the exact sum while it is below `2^64`).  As long as every call so far
has a timestamp before `t0 + resolution`, `total` returns `(0, 0, 0)` whatever
was recorded: the byte count is not the sum of the recorded byte counts. -/
theorem total_bytes_of_records (resolution sample : Int) (m : meter)
    (hnew : newMeter resolution sample = .ok m) (t0 : Int) (records : List (Int × Nat))
    (tc : Int) :
    (((m.start t0).recordAll records).last ≠ none →
      (((m.start t0).recordAll records).total tc).1
        = (records.map Prod.snd).sum % 18446744073709551616 ∧
      ((records.map Prod.snd).sum < 18446744073709551616 →
        (((m.start t0).recordAll records).total tc).1 = (records.map Prod.snd).sum)) ∧
    ((∀ x ∈ records, x.1 < t0 + resolution) →
      ((m.start t0).recordAll records).total tc = (0, 0, .finite 0)) := by
  obtain ⟨hs, -, -, -⟩ := start_fresh hnew t0
  constructor
  · intro hlast
    have h0 : (m.start t0).totalBytes = 0 := by rw [hs]
    have htot := recordAll_totalBytes records (m.start t0) (by rw [h0]; decide)
    rw [h0, Nat.zero_add] at htot
    have hmod : (((m.start t0).recordAll records).total tc).1
        = (records.map Prod.snd).sum % 18446744073709551616 := by
      unfold meter.total
      cases hl : ((m.start t0).recordAll records).last with
      | none => exact absurd hl hlast
      | some l =>
        dsimp only
        split_ifs with hb <;> first | exact htot | exact (hb.symm.trans htot)
    exact ⟨hmod, fun hlt => by rw [hmod, Nat.mod_eq_of_lt hlt]⟩
  · intro hrec
    have hl : ((m.start t0).recordAll records).last = none := by
      apply recordAll_first_bucket records (m.start t0)
      · rw [hs]
      · intro x hx
        rw [hs]
        simpa using hrec x hx
    unfold meter.total
    rw [hl]

/-- Witness of C12: the meter of 1s / 3s, started and given 1250 bytes 100ms
later: `total` returns `(0, 0, 0)`, and the bytes recorded are 1250. -/
theorem total_bytes_of_records_witness :
    newMeter Second (Second * 3) = .ok meter1s3s ∧
    ((meter1s3s.start clock2026).recordAll [(clock2026 + 100000000, 1250)]).total
      (clock2026 + 200000000) = (0, 0, .finite 0) ∧
    (([(clock2026 + 100000000, 1250)] : List (Int × Nat)).map Prod.snd).sum = 1250 :=
  ⟨newMeter1s3s,
    (total_bytes_of_records Second (Second * 3) meter1s3s newMeter1s3s clock2026
      [(clock2026 + 100000000, 1250)] (clock2026 + 200000000)).2
      (by
        intro x hx
        rw [List.mem_singleton] at hx
        subst hx
        show clock2026 + 100000000 < clock2026 + Second
        unfold Second
        omega),
    by decide⟩

/-- C13: after `close(t)` on a meter that was not closed, `total` returns the
same triple at every query time and a later `close(t')` changes nothing.  When a
bucket has closed before, the elapsed time of the triple is `t - startedAt`;
when no bucket has closed, the triple is `(0, 0, 0)`: for the meter of 1s / 3s
started at `t0`, given 1250 bytes at `t0 + 100ms` and closed at `t0 + 400ms`,
the elapsed time is 0 and not 400ms. -/
theorem total_after_close :
    (∀ (m : meter) (t t' t1 t2 : Int),
      (m.close t).total t1 = (m.close t).total t2 ∧
      (m.close t).close t' = m.close t ∧
      (m.closed = false → m.last ≠ none →
        ((m.close t).total t1).2.1 = Time.Sub t m.startedAt) ∧
      (m.last = none → (m.close t).total t1 = (0, 0, .finite 0))) ∧
    newMeter Second (Second * 3) = .ok meter1s3s ∧
    (∀ t1 : Int,
      (((meter1s3s.start clock2026).recordAll [(clock2026 + 100000000, 1250)]).close
        (clock2026 + 400000000)).total t1 = (0, 0, .finite 0)) ∧
    Time.Sub (clock2026 + 400000000)
      ((meter1s3s.start clock2026).recordAll [(clock2026 + 100000000, 1250)]).startedAt
        = 400000000 := by
  have hclosed : ∀ (m : meter) (t : Int), (m.close t).closed = true := by
    intro m t
    unfold meter.close
    by_cases h : m.closed = true
    · rw [if_pos h]; exact h
    · rw [if_neg h]
  have hlastc : ∀ (m : meter) (t : Int), (m.close t).last = m.last := by
    intro m t
    unfold meter.close
    split_ifs <;> rfl
  have hnone : ∀ (m : meter) (t t1 : Int), m.last = none →
      (m.close t).total t1 = (0, 0, .finite 0) := by
    intro m t t1 h
    unfold meter.total
    rw [hlastc, h]
  refine ⟨fun m t t' t1 t2 => ⟨?_, ?_, ?_, hnone m t t1⟩, newMeter1s3s, ?_, ?_⟩
  · unfold meter.total
    rw [hclosed]
    simp only [if_true]
  · have := hclosed m t
    unfold meter.close at this ⊢
    by_cases h : m.closed = true
    · rw [if_pos h, if_pos h]
    · rw [if_neg h] at this ⊢
      rw [if_pos this]
  · intro hc hl
    unfold meter.total
    rw [hlastc]
    cases hl' : m.last with
    | none => exact absurd hl' hl
    | some l =>
      dsimp only
      rw [hclosed, if_pos rfl]
      have e : (m.close t).closedAt = t ∧ (m.close t).startedAt = m.startedAt := by
        unfold meter.close
        rw [hc]
        exact ⟨rfl, rfl⟩
      rw [e.1, e.2]
      split_ifs <;> rfl
  · intro t1
    apply hnone
    apply recordAll_first_bucket
    · rw [(start_fresh newMeter1s3s clock2026).1]
    · intro x hx
      rw [List.mem_singleton] at hx
      subst hx
      rw [(start_fresh newMeter1s3s clock2026).1]
      show clock2026 + 100000000 < (Function.update (fun _ => meterItem.zero) 0
        ({ vol := 0, start := 0, end_ := clock2026 + Second } : meterItem) 0).end_
      rw [Function.update_same]
      show clock2026 + 100000000 < clock2026 + Second
      unfold Second
      omega
  · rw [(recordAll_config _ _).2.2.2.1, (start_fresh newMeter1s3s clock2026).1]
    exact Sub_add_left clock2026 400000000 (by decide) (by decide)

/-- C14: a meter is started at `t0`; as long as every `record` call so far has a
timestamp before `t0 + resolution`, `bitRate` returns 0 at every query time,
whatever byte counts were recorded. -/
theorem bitRate_zero_before_first_close (resolution sample : Int) (m : meter)
    (hnew : newMeter resolution sample = .ok m) (t0 : Int) (records : List (Int × Nat))
    (hrec : ∀ x ∈ records, x.1 < t0 + resolution) (fuel : Nat) (tc : Int) :
    meter.bitRate fuel ((m.start t0).recordAll records) tc = some (.finite 0) := by
  obtain ⟨hs, -, -, -⟩ := start_fresh hnew t0
  have hl : ((m.start t0).recordAll records).last = none := by
    apply recordAll_first_bucket records (m.start t0)
    · rw [hs]
    · intro x hx
      rw [hs]
      simpa using hrec x hx
  unfold meter.bitRate
  rw [hl]

/-- Witness of C14: the meter of 1s / 3s with 1250 bytes recorded 100ms and
990ms after its start, queried five seconds after its start. -/
theorem bitRate_zero_before_first_close_witness :
    newMeter Second (Second * 3) = .ok meter1s3s ∧
    (∀ x ∈ ([(clock2026 + 100000000, 1250), (clock2026 + 990000000, 1250)] : List (Int × Nat)),
      x.1 < clock2026 + Second) ∧
    meter.bitRate 0
      ((meter1s3s.start clock2026).recordAll
        [(clock2026 + 100000000, 1250), (clock2026 + 990000000, 1250)])
      (clock2026 + 5000000000) = some (.finite 0) :=
  have h : ∀ x ∈ ([(clock2026 + 100000000, 1250), (clock2026 + 990000000, 1250)] :
      List (Int × Nat)), x.1 < clock2026 + Second := by
    intro x hx
    simp only [List.mem_cons, List.mem_singleton, List.not_mem_nil, or_false] at hx
    unfold Second
    rcases hx with rfl | rfl <;> dsimp only <;> omega
  ⟨newMeter1s3s, h,
    bitRate_zero_before_first_close Second (Second * 3) meter1s3s newMeter1s3s clock2026 _ h 0 _⟩

/-! ## Evaluating `bitRate` step by step -/

theorem bitRate_of_last (fuel : Nat) (m : meter) (tc : Int) (last : Nat)
    (h : m.last = some last) :
    meter.bitRate fuel m tc =
      (meter.sumLoop m (m.sampleStart tc) fuel (m.newest tc last) 0).map
        (fun sum => BitRate.quotient (sum * bpscoef) ((m.sampleWidth tc : Int) : ℚ)) := by
  unfold meter.bitRate
  rw [h]
  rfl

theorem sumLoop_first (m : meter) (ss : Int) (fuel i : Nat) (sum : ℚ)
    (h1 : ss ≤ (m.items i).start) (h2 : some i = m.first) :
    meter.sumLoop m ss (fuel + 1) i sum = some (sum + (m.items i).vol) := by
  rw [meter.sumLoop, if_pos h1, if_pos h2]

theorem sumLoop_prev (m : meter) (ss : Int) (fuel i : Nat) (sum : ℚ)
    (h1 : ss ≤ (m.items i).start) (h2 : ¬ some i = m.first) :
    meter.sumLoop m ss (fuel + 1) i sum
      = meter.sumLoop m ss fuel (m.prev i) (sum + (m.items i).vol) := by
  rw [meter.sumLoop, if_pos h1, if_neg h2]

theorem sumLoop_stop (m : meter) (ss : Int) (fuel i : Nat) (sum : ℚ)
    (h1 : ¬ ss ≤ (m.items i).start) :
    meter.sumLoop m ss (fuel + 1) i sum = some sum := by
  rw [meter.sumLoop, if_neg h1]

theorem newMeter4e18 :
    newMeter 4000000000000000000 8000000000000000000 = .ok meter4e18 := by
  rw [newMeter_of_valid (by decide) (by decide) (by decide)]
  rfl

/-- The volume of the bucket a `record` labels. -/
theorem record_next_vol (m : meter) (tc : Int) (b : Nat) (h : ¬ tc < (m.items m.cur).end_) :
    ((m.record tc b).items (m.next m.cur)).vol = (b : ℚ) ∧
    ∀ i, i ≠ m.next m.cur → ((m.record tc b).items i).vol = (m.items i).vol := by
  rw [record_next_bucket m tc b h]
  dsimp only
  refine ⟨by rw [Function.update_same], fun i hi => by rw [Function.update_noteq hi]⟩

theorem record_same_vol (m : meter) (tc : Int) (b : Nat) (h : tc < (m.items m.cur).end_) :
    ((m.record tc b).items m.cur).vol = (m.items m.cur).vol + (b : ℚ) ∧
    ∀ i, i ≠ m.cur → ((m.record tc b).items i).vol = (m.items i).vol := by
  rw [record_same_bucket m tc b h]
  dsimp only
  refine ⟨by rw [Function.update_same], fun i hi => by rw [Function.update_noteq hi]⟩

/-- C15, counterexample: a meter of resolution `4e18` ns and sample `8e18` ns
(`N = 2`) is started at `T` and receives 100 bytes at `T + 1e18`, `T + 5e18` and
`T + 9e18`: exactly 100 bytes in each of the intervals `k = 0, 1, 2`.  The end of
the third bucket, `12e18` ns after `T`, exceeds the largest `int64` and wraps
around to a time before `T`, so `bitRate` queried at the time of the last record
counts the open bucket too: it returns `3 / 10000000` bit/s, while
`B x 8 / (r in seconds)` is `2 / 10000000`. -/
theorem long_resolution_counts_open_bucket :
    newMeter 4000000000000000000 8000000000000000000 = .ok meter4e18 ∧
    (8000000000000000000 : Int) = ((2 : Nat) : Int) * 4000000000000000000 ∧
    List.Chain (fun a b => a ≤ b) clock2026
      (([(clock2026 + 1000000000000000000, 100), (clock2026 + 5000000000000000000, 100),
        (clock2026 + 9000000000000000000, 100)] :
        List (Int × Nat)).map Prod.fst) ∧
    (∀ k, k ≤ 2 → intervalBytes 4000000000000000000 clock2026
      [(clock2026 + 1000000000000000000, 100), (clock2026 + 5000000000000000000, 100),
        (clock2026 + 9000000000000000000, 100)] k = 100) ∧
    (clock2026 + ((2 : Nat) : Int) * 4000000000000000000 ≤ clock2026 + 9000000000000000000 ∧
      clock2026 + 9000000000000000000
        < clock2026 + (((2 : Nat) : Int) + 1) * 4000000000000000000) ∧
    clock2026 + 9000000000000000000 - clock2026 ≤ maxDuration ∧
    meter.bitRate 3 ((meter4e18.start clock2026).recordAll
      [(clock2026 + 1000000000000000000, 100), (clock2026 + 5000000000000000000, 100),
        (clock2026 + 9000000000000000000, 100)])
      (clock2026 + 9000000000000000000) = some (.finite (3 / 10000000)) ∧
    ((100 : Nat) : ℚ) * 8 / (((4000000000000000000 : Int) : ℚ) / 1000000000)
      = 2 / 10000000 := by
  refine ⟨newMeter4e18, by decide,
    List.Chain.cons (by decide) (List.Chain.cons (by decide)
      (List.Chain.cons (by decide) List.Chain.nil)), by decide, by decide, by decide, ?_,
    by norm_num⟩
  have hsame : clock2026 + 1000000000000000000
      < ((meter4e18.start clock2026).items (meter4e18.start clock2026).cur).end_ := by decide
  have hadv2 : ¬ clock2026 + 5000000000000000000
      < (((meter4e18.start clock2026).record (clock2026 + 1000000000000000000) 100).items
        ((meter4e18.start clock2026).record (clock2026 + 1000000000000000000) 100).cur).end_ := by
    decide
  have hadv3 : ¬ clock2026 + 9000000000000000000
      < ((((meter4e18.start clock2026).record (clock2026 + 1000000000000000000) 100).record (clock2026 + 5000000000000000000) 100).items
        (((meter4e18.start clock2026).record (clock2026 + 1000000000000000000) 100).record (clock2026 + 5000000000000000000) 100).cur).end_ := by
    decide
  have hM : (meter4e18.start clock2026).recordAll
      [(clock2026 + 1000000000000000000, 100), (clock2026 + 5000000000000000000, 100),
        (clock2026 + 9000000000000000000, 100)]
      = ((((meter4e18.start clock2026).record (clock2026 + 1000000000000000000) 100).record (clock2026 + 5000000000000000000) 100).record (clock2026 + 9000000000000000000) 100) := rfl
  have v2 : (((((meter4e18.start clock2026).record (clock2026 + 1000000000000000000) 100).record (clock2026 + 5000000000000000000) 100).record (clock2026 + 9000000000000000000) 100).items 2).vol = ((100 : Nat) : ℚ) :=
    (record_next_vol _ _ 100 hadv3).1
  have v1 : (((((meter4e18.start clock2026).record (clock2026 + 1000000000000000000) 100).record (clock2026 + 5000000000000000000) 100).record (clock2026 + 9000000000000000000) 100).items 1).vol = ((100 : Nat) : ℚ) :=
    ((record_next_vol _ _ 100 hadv3).2 1 (by decide)).trans (record_next_vol _ _ 100 hadv2).1
  have v0 : (((((meter4e18.start clock2026).record (clock2026 + 1000000000000000000) 100).record (clock2026 + 5000000000000000000) 100).record (clock2026 + 9000000000000000000) 100).items 0).vol = 0 + ((100 : Nat) : ℚ) :=
    ((record_next_vol _ _ 100 hadv3).2 0 (by decide)).trans
      (((record_next_vol _ _ 100 hadv2).2 0 (by decide)).trans
        (record_same_vol _ _ 100 hsame).1)
  rw [← hM] at v0 v1 v2
  rw [bitRate_of_last 3 _ _ 1 (by decide)]
  have e1 : meter.sampleStart ((meter4e18.start clock2026).recordAll
      [(clock2026 + 1000000000000000000, 100), (clock2026 + 5000000000000000000, 100),
        (clock2026 + 9000000000000000000, 100)])
      (clock2026 + 9000000000000000000) = 0 := by decide
  have e2 : meter.newest ((meter4e18.start clock2026).recordAll
      [(clock2026 + 1000000000000000000, 100), (clock2026 + 5000000000000000000, 100),
        (clock2026 + 9000000000000000000, 100)])
      (clock2026 + 9000000000000000000) 1 = 2 := by decide
  have e3 : meter.sampleWidth ((meter4e18.start clock2026).recordAll
      [(clock2026 + 1000000000000000000, 100), (clock2026 + 5000000000000000000, 100),
        (clock2026 + 9000000000000000000, 100)])
      (clock2026 + 9000000000000000000) = 8000000000000000000 := by decide
  have e4 : meter.prev ((meter4e18.start clock2026).recordAll
      [(clock2026 + 1000000000000000000, 100), (clock2026 + 5000000000000000000, 100),
        (clock2026 + 9000000000000000000, 100)]) 2 = 1 := by decide
  have e5 : meter.prev ((meter4e18.start clock2026).recordAll
      [(clock2026 + 1000000000000000000, 100), (clock2026 + 5000000000000000000, 100),
        (clock2026 + 9000000000000000000, 100)]) 1 = 0 := by decide
  rw [e1, e2, e3, sumLoop_prev _ _ 2 2 0 (by decide) (by decide), e4,
    sumLoop_prev _ _ 1 1 _ (by decide) (by decide), e5,
    sumLoop_first _ _ 0 0 _ (by decide) (by decide), v0, v1, v2]
  show some (BitRate.quotient _ _) = _
  rw [quotient_finite _ _ (by norm_num)]
  unfold bpscoef Second
  norm_num

/-- C15, amended: a meter whose sample is `N` times its resolution `r` (so
`N ≥ 2`) and fits a `time.Duration` is started at `t0` and fed `record` calls
with non-decreasing timestamps from `t0` on, a total of exactly `B` bytes inside
each interval from `t0 + k * r` to `t0 + (k + 1) * r` for `k = 0, ..., K`, where
`K ≥ 1` and the end of interval `K` is within a `time.Duration` of `t0`
(`(K + 1) * r` is at most the largest `int64`).  Queried at a time `tc` inside
interval `K` that is not earlier than the last record, the loop of `bitRate`
ends within `N + 1` iterations and `bitRate(tc)` is exactly
`B x 8 / (r in seconds)`. -/
theorem bitRate_constant_stream (resolution sample : Int) (N : Nat)
    (hN : sample = (N : Int) * resolution) (m : meter)
    (hnew : newMeter resolution sample = .ok m) (t0 : Int) (records : List (Int × Nat))
    (hsorted : List.Chain (fun a b => a ≤ b) t0 (records.map Prod.fst))
    (K : Nat) (hK : 1 ≤ K) (B : Nat)
    (hB : ∀ k, k ≤ K → intervalBytes resolution t0 records k = B)
    (tc : Int) (htc : ∀ x ∈ records, x.1 ≤ tc)
    (hin : t0 + (K : Int) * resolution ≤ tc ∧ tc < t0 + ((K : Int) + 1) * resolution)
    (hsmax : sample ≤ maxDuration) (hmax : ((K : Int) + 1) * resolution ≤ maxDuration)
    (fuel : Nat) (hfuel : N + 1 ≤ fuel) :
    meter.bitRate fuel ((m.start t0).recordAll records) tc
      = some (.finite ((B : ℚ) * 8 / ((resolution : ℚ) / 1000000000))) := by
  obtain ⟨hs, h1, h2, h3⟩ := start_fresh hnew t0
  have hr : 0 < resolution := by unfold MinMeterResolution Millisecond at h1; omega
  have hrq : (resolution : ℚ) ≠ 0 := by exact_mod_cast hr.ne.symm
  by_cases hlast : ((m.start t0).recordAll records).last = none
  · have hB0 : B = 0 := by
      rw [← hB 1 hK]
      unfold intervalBytes
      have hall := recordAll_last_none records (m.start t0) hlast
      rw [hs] at hall
      have : records.filter (fun x => decide (t0 + ((1 : Nat) : Int) * resolution ≤ x.1 ∧
          x.1 < t0 + (((1 : Nat) : Int) + 1) * resolution)) = [] := by
        apply List.filter_eq_nil_iff.mpr
        intro x hx
        have := hall x hx
        simp only [Function.update_same] at this
        simp only [decide_eq_true_eq, not_and, not_lt]
        intro hge
        push_cast at hge
        omega
      rw [this]
      rfl
    unfold meter.bitRate
    rw [hlast, hB0]
    simp
  · obtain ⟨hsz, hsample, hN2⟩ := fresh_size hnew N hN t0 records
    have hE : (tc - t0) / resolution * resolution = (K : Int) * resolution := by
      apply floor_multiple_eq _ _ _ hr (Dvd.intro_left _ rfl) <;> linarith [hin.1, hin.2]
    rw [bitRate_window resolution sample N hN m hnew t0 records hsorted hlast hsmax tc htc
      (by rw [hE]; linarith) fuel hfuel]
    congr 2
    rw [hE]
    have hW : min sample ((K : Int) * resolution) = ((min N K : Nat) : Int) * resolution := by
      rw [hN]
      rcases Nat.le_total N K with h | h
      · rw [Nat.min_eq_left h, min_eq_left]
        exact mul_le_mul_of_nonneg_right (by exact_mod_cast h) hr.le
      · rw [Nat.min_eq_right h, min_eq_right]
        exact mul_le_mul_of_nonneg_right (by exact_mod_cast h) hr.le
    rw [hW]
    have hlo : (K : Int) * resolution - ((min N K : Nat) : Int) * resolution
        = ((K - min N K : Nat) : Int) * resolution := by
      rw [Nat.cast_sub (Nat.min_le_right N K)]
      ring
    have key := window_constant resolution t0 hr records B (K - min N K) (min N K)
      (fun k _ h2 => hB k (by have := Nat.min_le_right N K; omega))
    rw [Nat.sub_add_cancel (Nat.min_le_right N K)] at key
    rw [hlo, key]
    have hj : ((min N K : Nat) : ℚ) ≠ 0 := by
      have : 1 ≤ min N K := by
        rcases Nat.le_total N K with h | h
        · rw [Nat.min_eq_left h]; omega
        · rw [Nat.min_eq_right h]; omega
      exact_mod_cast (by omega : min N K ≠ 0)
    unfold bpscoef Second
    push_cast
    push_cast at hj
    field_simp
    ring

/-- Witness of C15 amended: the meter of 1s / 3s, 1250 bytes recorded in each
of the first two seconds, queried at the time of the second record:
10 kbit/s. -/
theorem bitRate_constant_stream_witness :
    Second * 3 = ((3 : Nat) : Int) * Second ∧
    newMeter Second (Second * 3) = .ok meter1s3s ∧
    List.Chain (fun a b => a ≤ b) clock2026
      (([(clock2026 + 100000000, 1250), (clock2026 + 1100000000, 1250)] :
        List (Int × Nat)).map Prod.fst) ∧
    (∀ k, k ≤ 1 → intervalBytes Second clock2026
      [(clock2026 + 100000000, 1250), (clock2026 + 1100000000, 1250)] k = 1250) ∧
    meter.bitRate 4
      ((meter1s3s.start clock2026).recordAll
        [(clock2026 + 100000000, 1250), (clock2026 + 1100000000, 1250)])
      (clock2026 + 1100000000)
      = some (.finite (((1250 : Nat) : ℚ) * 8 / (((Second : Int) : ℚ) / 1000000000))) :=
  have h1 : Second * 3 = ((3 : Nat) : Int) * Second := by decide
  have h2 := sorted_two_records
  have h3 : ∀ k, k ≤ 1 → intervalBytes Second clock2026
      [(clock2026 + 100000000, 1250), (clock2026 + 1100000000, 1250)] k = 1250 := by decide
  ⟨h1, newMeter1s3s, h2, h3,
    bitRate_constant_stream Second (Second * 3) 3 h1 meter1s3s newMeter1s3s clock2026 _ h2
      1 (by decide) 1250 h3 (clock2026 + 1100000000) (by decide) (by decide) (by decide)
      (by decide) 4 (by decide)⟩

/-- C16, counterexample: the meter of 1s / 3s is started at `T` and receives
`record(T + 9223372036.5s, 10)` twice.  The end of the bucket the first call
labels wraps around to a time before `T`, so the second call opens another
bucket with the same start; `bitRate` queried at the time of the records takes
the query to lie after the open bucket and counts both buckets: it returns
`160 / 3` bit/s, while no record has its offset in `[E - W, E)` and the formula
of the claim gives 0.  (The hypotheses of the claim hold: the sample is 3 times
the resolution, the timestamps do not decrease, a bucket has closed and the
query is not earlier than the records.) -/
theorem far_records_count_open_bucket :
    newMeter Second (Second * 3) = .ok meter1s3s ∧
    Second * 3 = ((3 : Nat) : Int) * Second ∧
    List.Chain (fun a b => a ≤ b) clock2026
      (([(clock2026 + 9223372036500000000, 10), (clock2026 + 9223372036500000000, 10)] :
        List (Int × Nat)).map Prod.fst) ∧
    ((meter1s3s.start clock2026).recordAll
      [(clock2026 + 9223372036500000000, 10), (clock2026 + 9223372036500000000, 10)]).last
        ≠ none ∧
    clock2026 + 9223372036500000000 - clock2026 ≤ maxDuration ∧
    meter.bitRate 4
      ((meter1s3s.start clock2026).recordAll
        [(clock2026 + 9223372036500000000, 10), (clock2026 + 9223372036500000000, 10)])
      (clock2026 + 9223372036500000000) = some (.finite (160 / 3)) ∧
    bitRateSpec Second (Second * 3) clock2026
      [(clock2026 + 9223372036500000000, 10), (clock2026 + 9223372036500000000, 10)]
      (clock2026 + 9223372036500000000) = 0 := by
  refine ⟨newMeter1s3s, by decide,
    List.Chain.cons (by decide) (List.Chain.cons (by decide) List.Chain.nil), by decide,
    by decide, ?_, ?_⟩
  · have hadv1 : ¬ clock2026 + 9223372036500000000
        < ((meter1s3s.start clock2026).items (meter1s3s.start clock2026).cur).end_ := by decide
    have hadv2 : ¬ clock2026 + 9223372036500000000
        < (((meter1s3s.start clock2026).record (clock2026 + 9223372036500000000) 10).items
          ((meter1s3s.start clock2026).record (clock2026 + 9223372036500000000) 10).cur).end_ := by
      decide
    have hM : (meter1s3s.start clock2026).recordAll
        [(clock2026 + 9223372036500000000, 10), (clock2026 + 9223372036500000000, 10)]
        = ((meter1s3s.start clock2026).record (clock2026 + 9223372036500000000) 10).record
            (clock2026 + 9223372036500000000) 10 := rfl
    have v2 : ((((meter1s3s.start clock2026).record (clock2026 + 9223372036500000000) 10).record
        (clock2026 + 9223372036500000000) 10).items 2).vol = ((10 : Nat) : ℚ) :=
      (record_next_vol _ _ 10 hadv2).1
    have v1 : ((((meter1s3s.start clock2026).record (clock2026 + 9223372036500000000) 10).record
        (clock2026 + 9223372036500000000) 10).items 1).vol = ((10 : Nat) : ℚ) :=
      ((record_next_vol _ _ 10 hadv2).2 1 (by decide)).trans (record_next_vol _ _ 10 hadv1).1
    rw [← hM] at v1 v2
    rw [bitRate_of_last 4 _ _ 1 (by decide)]
    have e1 : meter.sampleStart ((meter1s3s.start clock2026).recordAll
        [(clock2026 + 9223372036500000000, 10), (clock2026 + 9223372036500000000, 10)])
        (clock2026 + 9223372036500000000) = 9223372033000000000 := by decide
    have e2 : meter.newest ((meter1s3s.start clock2026).recordAll
        [(clock2026 + 9223372036500000000, 10), (clock2026 + 9223372036500000000, 10)])
        (clock2026 + 9223372036500000000) 1 = 2 := by decide
    have e3 : meter.sampleWidth ((meter1s3s.start clock2026).recordAll
        [(clock2026 + 9223372036500000000, 10), (clock2026 + 9223372036500000000, 10)])
        (clock2026 + 9223372036500000000) = 3000000000 := by decide
    have e4 : meter.prev ((meter1s3s.start clock2026).recordAll
        [(clock2026 + 9223372036500000000, 10), (clock2026 + 9223372036500000000, 10)]) 2
        = 1 := by decide
    have e5 : meter.prev ((meter1s3s.start clock2026).recordAll
        [(clock2026 + 9223372036500000000, 10), (clock2026 + 9223372036500000000, 10)]) 1
        = 0 := by decide
    rw [e1, e2, e3, sumLoop_prev _ _ 3 2 0 (by decide) (by decide), e4,
      sumLoop_prev _ _ 2 1 _ (by decide) (by decide), e5,
      sumLoop_stop _ _ 1 0 _ (by decide), v1, v2]
    show some (BitRate.quotient _ _) = _
    rw [quotient_finite _ _ (by norm_num)]
    unfold bpscoef Second
    norm_num
  · have hf : ([(clock2026 + 9223372036500000000, 10), (clock2026 + 9223372036500000000, 10)] :
        List (Int × Nat)).filter (fun x =>
          decide ((clock2026 + 9223372036500000000 - clock2026) / Second * Second
              - min (Second * 3)
                ((clock2026 + 9223372036500000000 - clock2026) / Second * Second)
                ≤ x.1 - clock2026
            ∧ x.1 - clock2026
              < (clock2026 + 9223372036500000000 - clock2026) / Second * Second)) = [] := by
      decide
    unfold bitRateSpec
    simp only [hf]
    simp

/-- C16, amended: a meter whose sample is `N` times its resolution and fits a
`time.Duration` is started at `t0` and fed `record` calls with non-decreasing
timestamps from `t0` on, of which at least one closed a bucket.  Let `E` be
`tc - t0` truncated down to a multiple of the resolution.  For every query time
`tc` that is not earlier than the last record and whose bucket ends within a
`time.Duration` of `t0` (`E + resolution` is at most the largest `int64`), the
loop of `bitRate` ends within `N + 1` iterations and `bitRate(tc)` is
`8 x S / W` with `W` in seconds, where `W = min(sample, E)` and `S` is the sum
of the byte counts of exactly the records whose offset from `t0` lies in
`[E - W, E)` (`bitRateSpec`). -/
theorem bitRate_eq_bitRateSpec (resolution sample : Int) (N : Nat)
    (hN : sample = (N : Int) * resolution) (m : meter)
    (hnew : newMeter resolution sample = .ok m) (t0 : Int) (records : List (Int × Nat))
    (hsorted : List.Chain (fun a b => a ≤ b) t0 (records.map Prod.fst))
    (hclosed : ((m.start t0).recordAll records).last ≠ none)
    (hsmax : sample ≤ maxDuration) (tc : Int) (htc : ∀ x ∈ records, x.1 ≤ tc)
    (hmax : (tc - t0) / resolution * resolution + resolution ≤ maxDuration)
    (fuel : Nat) (hfuel : N + 1 ≤ fuel) :
    meter.bitRate fuel ((m.start t0).recordAll records) tc
      = some (.finite (bitRateSpec resolution sample t0 records tc)) := by
  rw [bitRate_window resolution sample N hN m hnew t0 records hsorted hclosed hsmax tc htc hmax
    fuel hfuel]
  congr 2
  unfold bitRateSpec
  dsimp only
  rw [div_div_eq_mul_div]
  unfold bpscoef Second
  push_cast
  ring

/-- Witness of C16 amended: the meter of 1s / 3s, 1250 bytes recorded 100ms and
1100ms after its start, queried at the time of the second record. -/
theorem bitRate_eq_bitRateSpec_witness :
    Second * 3 = ((3 : Nat) : Int) * Second ∧
    newMeter Second (Second * 3) = .ok meter1s3s ∧
    List.Chain (fun a b => a ≤ b) clock2026
      (([(clock2026 + 100000000, 1250), (clock2026 + 1100000000, 1250)] :
        List (Int × Nat)).map Prod.fst) ∧
    ((meter1s3s.start clock2026).recordAll
      [(clock2026 + 100000000, 1250), (clock2026 + 1100000000, 1250)]).last ≠ none ∧
    (∀ x ∈ ([(clock2026 + 100000000, 1250), (clock2026 + 1100000000, 1250)] :
      List (Int × Nat)), x.1 ≤ clock2026 + 1100000000) ∧
    Second * 3 ≤ maxDuration ∧
    (clock2026 + 1100000000 - clock2026) / Second * Second + Second ≤ maxDuration ∧
    meter.bitRate 4
      ((meter1s3s.start clock2026).recordAll
        [(clock2026 + 100000000, 1250), (clock2026 + 1100000000, 1250)])
      (clock2026 + 1100000000)
      = some (.finite (bitRateSpec Second (Second * 3) clock2026
          [(clock2026 + 100000000, 1250), (clock2026 + 1100000000, 1250)]
          (clock2026 + 1100000000))) :=
  have h1 : Second * 3 = ((3 : Nat) : Int) * Second := by decide
  have h2 := sorted_two_records
  have h3 : ∀ x ∈ ([(clock2026 + 100000000, 1250), (clock2026 + 1100000000, 1250)] :
      List (Int × Nat)), x.1 ≤ clock2026 + 1100000000 := by decide
  have h4 : (clock2026 + 1100000000 - clock2026) / Second * Second + Second ≤ maxDuration := by
    decide
  have h5 : Second * 3 ≤ maxDuration := by decide
  ⟨h1, newMeter1s3s, h2, last_two_records, h3, h5, h4,
    bitRate_eq_bitRateSpec Second (Second * 3) 3 h1 meter1s3s newMeter1s3s clock2026 _ h2
      last_two_records h5 _ h3 h4 4 (by decide)⟩

/-- C17: for every underlying writer that, on each non-empty call, accepts at
least one byte (and at most what it is given) and returns no error, every clock
and every byte slice `p`: `LimiterWriter.Write(p)` on a writer that is not
closed, whose limiter is configured and whose log is empty, returns within
`len(p) + 1` iterations of its loop; it returns `(len(p), nil)`, the underlying
writer was called at most `len(p)` times, and the bytes it accepted, in the
order of the calls, are exactly `p`. -/
theorem Write_hands_over_all {ω : Type} (write : ω → List UInt8 → ω × Int × Option GoError)
    (hwr : ∀ s chunk, chunk ≠ [] →
      (write s chunk).2.2 = none ∧ 1 ≤ (write s chunk).2.1 ∧
        (write s chunk).2.1 ≤ (chunk.length : Int))
    (clock : Nat → Int) (w : LimiterWriter (ω × List (List UInt8)))
    (hc : Configured w.lim) (hclosed : w.closed = false) (hlog : w.wr.2 = [])
    (p : List UInt8) (fuel : Nat) (hfuel : p.length < fuel) :
    ∃ w', LimiterWriter.Write (logged write) clock fuel w p = some (w', (p.length : Int), none) ∧
      w'.wr.2.flatten = p ∧ w'.wr.2.length ≤ p.length := by
  obtain ⟨w', h1, h2, h3⟩ :=
    writeLoop_complete write hwr clock fuel w 0 p 0 hfuel hclosed hc.2.2.1
  refine ⟨w', ?_, ?_, ?_⟩
  · unfold LimiterWriter.Write
    rw [h1, zero_add]
  · rw [h2, hlog]
    rfl
  · rw [hlog] at h3
    simpa using h3

/-- Witness of C17: the 16 bit/s writer over the counting writer, a clock that
stands still, and three bytes. -/
theorem Write_hands_over_all_witness :
    Configured writer16.lim ∧ writer16.closed = false ∧ writer16.wr.2 = [] ∧
    ∃ w', LimiterWriter.Write (logged countingWrite) (fun _ => clock2026) 4 writer16 [1, 2, 3]
        = some (w', 3, none) ∧
      w'.wr.2.flatten = [1, 2, 3] ∧ w'.wr.2.length ≤ 3 :=
  ⟨configured16, rfl, rfl,
    Write_hands_over_all countingWrite
      (by
        intro s chunk hne
        refine ⟨rfl, ?_, le_rfl⟩
        show 1 ≤ (chunk.length : Int)
        have := List.length_pos.mpr hne
        omega)
      (fun _ => clock2026) writer16 configured16 rfl rfl [1, 2, 3] 4 (by decide)⟩

/-- C18: streams that have been closed still transfer.  The 16 bit/s reader over
the counting reader, closed by `CloseSingle` and then asked to read five bytes,
finds two tokens, calls the underlying reader and returns `(2, nil)`.  The
16 bit/s writer, closed by `CloseSingle` and then asked to write five bytes,
hands two bytes to the underlying writer, and when it has to wait for the third
it returns an error that is built by `fmt.Errorf` and does not match `ErrClosed`
under `errors.Is`.  Only a closed reader that has to wait returns `ErrClosed`
without calling the underlying reader. -/
theorem closed_stream_transfers :
    NewLimiterReader (0 : Nat) 16 = .ok reader16 ∧
    (LimiterReader.CloseSingle none reader16).1.closed = true ∧
    LimiterReader.Read countingRead (LimiterReader.CloseSingle none reader16).1 clock2026 5
      = ({ rd := 1, rate := 16, resolution := 1000000000, maxWait := 500000000,
           lim := limiter16At clock2026 0, closed := true }, 2, none) ∧
    NewLimiterWriter ((0 : Nat), ([] : List (List UInt8))) 16 = .ok writer16 ∧
    (LimiterWriter.CloseSingle none writer16).1.closed = true ∧
    LimiterWriter.Write (logged countingWrite) (fun _ => clock2026) 2
        (LimiterWriter.CloseSingle none writer16).1 [1, 2, 3, 4, 5]
      = some ({ wr := (1, [[1, 2]]), rate := 16, resolution := 1000000000,
                maxWait := 500000000, lim := limiter16At (clock2026 + 500000000) 0,
                closed := true }, 2, some (.errorf .writerClosed)) ∧
    errorsIs (.errorf .writerClosed) ErrClosed = false ∧
    (∀ (ρ : Type) (read : ρ → Nat → ρ × Int × Option GoError) (r : LimiterReader ρ) (tc : Int)
        (len : Nat), r.closed = true → 0 < (r.lim.request tc (len : Int)).2.1 →
      (LimiterReader.Read read r tc len).2 = (0, some ErrClosed) ∧
      (LimiterReader.Read read r tc len).1.rd = r.rd) := by
  have hr : (LimiterReader.CloseSingle none reader16).1 = { reader16 with closed := true } := rfl
  have hw : (LimiterWriter.CloseSingle none writer16).1 = { writer16 with closed := true } := rfl
  refine ⟨newReader16, rfl, ?_, newWriter16, rfl, ?_, rfl, ?_⟩
  · rw [hr]
    unfold LimiterReader.Read
    have hq : ({ reader16 with closed := true } : LimiterReader Nat).lim.request clock2026
        ((5 : Nat) : Int) = (limiter16At clock2026 0, 0, 2) := request16_fresh 5 (by decide)
    dsimp only
    rw [hq]
    rfl
  · rw [hw]
    have hq1 : ({ writer16 with closed := true } :
        LimiterWriter (Nat × List (List UInt8))).lim.request clock2026
        ((([1, 2, 3, 4, 5] : List UInt8).length : Nat) : Int) = (limiter16At clock2026 0, 0, 2) :=
      request16_fresh 5 (by decide)
    have hq2 : (limiter16At clock2026 0).request clock2026
        ((([3, 4, 5] : List UInt8).length : Nat) : Int)
          = (limiter16At (clock2026 + 500000000) 0, 500000000, 1) :=
      request16_wait clock2026 3 (by decide)
    unfold LimiterWriter.Write
    rw [LimiterWriter.writeLoop]
    rw [if_pos (by decide)]
    dsimp only
    rw [hq1]
    dsimp only
    rw [if_neg (by decide)]
    have hio : logged countingWrite writer16.wr (List.take (Int.toNat 2) [1, 2, 3, 4, 5])
        = ((1, [[1, 2]]), 2, none) := rfl
    rw [hio]
    dsimp only
    rw [if_neg (by decide), if_neg (by decide)]
    have hdrop : List.drop (Int.toNat 2) ([1, 2, 3, 4, 5] : List UInt8) = [3, 4, 5] := rfl
    rw [hdrop, LimiterWriter.writeLoop, if_pos (by decide)]
    dsimp only
    rw [hq2]
    dsimp only
    rw [if_pos ⟨by decide, rfl⟩]
    rfl
  · intro ρ read r tc len hc hwait
    unfold LimiterReader.Read
    dsimp only
    rw [if_pos ⟨hwait, hc⟩]
    exact ⟨rfl, rfl⟩

/-- C19: the errors of `limiter.set`, and so those of `newLimiter`,
`NewLimiterReader` and `NewLimiterWriter`, are built by `fmt.Errorf` without
`%w`: none of them matches `ErrInvalidParameter` under `errors.Is`, while the
errors of `newMeter` do.  For a rate of 0 bit/s with the default configuration
`newLimiter` returns such an error. -/
theorem set_error_not_invalidParameter :
    (∀ (l : limiter) (tc : Int) (rate : ℚ) (resolution maxWait : Int) (e : LimiterError),
      l.set tc rate resolution maxWait = .error e →
        errorsIs e.toError ErrInvalidParameter = false) ∧
    (∀ (rate : ℚ) (resolution maxWait : Int) (e : LimiterError),
      newLimiter rate resolution maxWait = .error e →
        errorsIs e.toError ErrInvalidParameter = false) ∧
    (∃ e, newLimiter 0 Second (Millisecond * 500) = .error e ∧
      errorsIs e.toError ErrInvalidParameter = false) ∧
    (∃ e, NewLimiterReader (0 : Nat) 0 = .error e ∧
      errorsIs e.toError ErrInvalidParameter = false) ∧
    (∃ e, NewLimiterWriter (0 : Nat) 0 = .error e ∧
      errorsIs e.toError ErrInvalidParameter = false) ∧
    (∃ e, newMeter 0 (Second * 3) = .error e ∧ errorsIs e ErrInvalidParameter = true) := by
  have h : ∀ e : LimiterError, errorsIs e.toError ErrInvalidParameter = false := by
    intro e
    cases e <;> rfl
  have hz : ∃ e, newLimiter 0 Second (Millisecond * 500) = .error e :=
    (set_error_iff_rejected _ _ _ _ _).mpr (Or.inl le_rfl)
  obtain ⟨e, he⟩ := hz
  have he' : newLimiter 0 DefaultLimiterConfig.Resolution DefaultLimiterConfig.MaxWait
      = .error e := he
  refine ⟨fun _ _ _ _ _ e _ => h e, fun _ _ _ e _ => h e, ⟨e, he, h e⟩, ⟨e, ?_, h e⟩,
    ⟨e, ?_, h e⟩, ?_⟩
  · unfold NewLimiterReader NewLimiterReaderWithConfig
    dsimp only
    rw [he']
  · unfold NewLimiterWriter NewLimiterWriterWithConfig
    dsimp only
    rw [he']
  · obtain ⟨e', he'⟩ := (newMeter_error_iff 0 (Second * 3)).mpr (Or.inl (by decide))
    exact ⟨e', he', newMeter_error_is he'⟩

/-- C20, counterexample: the meter of 1s / 3s is started at `T` and receives
`record(T + 9223372036.5s, 10)`.  The ring advances, the new `cur` gets the start
`9223372036s`, and the `int64` sum of this start and the resolution wraps around:
the end of the new `cur` is `9223372036.709551616s` before `T`, not
`startedAt + start + resolution`.  After records of `2^64 - 1` bytes and of 2
bytes `totalBytes` is 1: it has not grown by 2. -/
theorem record_end_wraps :
    newMeter Second (Second * 3) = .ok meter1s3s ∧
    (((meter1s3s.start clock2026).record (clock2026 + 9223372036500000000) 10).items
      ((meter1s3s.start clock2026).record (clock2026 + 9223372036500000000) 10).cur).start
        = 9223372036000000000 ∧
    (((meter1s3s.start clock2026).record (clock2026 + 9223372036500000000) 10).items
      ((meter1s3s.start clock2026).record (clock2026 + 9223372036500000000) 10).cur).end_
        = clock2026 - 9223372036709551616 ∧
    (((meter1s3s.start clock2026).record (clock2026 + 9223372036500000000) 10).items
      ((meter1s3s.start clock2026).record (clock2026 + 9223372036500000000) 10).cur).end_
        ≠ ((meter1s3s.start clock2026).record (clock2026 + 9223372036500000000) 10).startedAt
          + 9223372036000000000 + 1000000000 ∧
    ((meter1s3s.start clock2026).record (clock2026 + 100000000) 18446744073709551615).totalBytes
      = 18446744073709551615 ∧
    (((meter1s3s.start clock2026).record (clock2026 + 100000000)
      18446744073709551615).record (clock2026 + 200000000) 2).totalBytes = 1 := by
  refine ⟨newMeter1s3s, ?_, ?_, ?_, ?_, ?_⟩ <;> decide

/-- C20, amended: `record(now, b)` on any meter.  If `now` is before the end of
`cur`, `b` is added to the volume of `cur`, `totalBytes` becomes
`totalBytes + b` modulo `2^64`, and `cur`, `last`, `first` and the labels of
every bucket are unchanged.  Otherwise the ring advances by exactly one slot,
however far `now` is past the end of `cur`: `last` becomes the old `cur`, `cur`
its successor, the new `cur` gets the start
`(now - startedAt) / resolution * resolution`, the end
`startedAt + (start + resolution)` with the sum wrapped around as an `int64`,
and the volume `b`, no other bucket changes, and `totalBytes` becomes
`totalBytes + b` modulo `2^64`.  For a positive resolution, a `now` not before
`startedAt` and a `start + resolution` that fits a `time.Duration`, the start is
the largest multiple of the resolution that is at most `now - startedAt` and
the end is `startedAt + start + resolution`.  While `totalBytes + b` is below
`2^64`, `totalBytes` grows by `b`. -/
theorem record_step (m : meter) (now : Int) (b : Nat) :
    (now < (m.items m.cur).end_ →
      (m.record now b).cur = m.cur ∧ (m.record now b).last = m.last ∧
      (m.record now b).first = m.first ∧
      ((m.record now b).items m.cur).vol = (m.items m.cur).vol + (b : ℚ) ∧
      (∀ i, ((m.record now b).items i).start = (m.items i).start ∧
        ((m.record now b).items i).end_ = (m.items i).end_) ∧
      (∀ i, i ≠ m.cur → (m.record now b).items i = m.items i)) ∧
    (¬ now < (m.items m.cur).end_ →
      (m.record now b).last = some m.cur ∧ (m.record now b).cur = m.next m.cur ∧
      ((m.record now b).items (m.record now b).cur).start
        = Int.tdiv (Time.Sub now m.startedAt) m.resolution * m.resolution ∧
      ((m.record now b).items (m.record now b).cur).end_
        = m.startedAt
          + wrap64 (((m.record now b).items (m.record now b).cur).start + m.resolution) ∧
      ((m.record now b).items (m.record now b).cur).vol = (b : ℚ) ∧
      (∀ i, i ≠ m.next m.cur → (m.record now b).items i = m.items i) ∧
      (0 < m.resolution → m.startedAt ≤ now →
        ((m.record now b).items (m.record now b).cur).start + m.resolution ≤ maxDuration →
        m.resolution ∣ ((m.record now b).items (m.record now b).cur).start ∧
        ((m.record now b).items (m.record now b).cur).start ≤ now - m.startedAt ∧
        now - m.startedAt
          < ((m.record now b).items (m.record now b).cur).start + m.resolution ∧
        ((m.record now b).items (m.record now b).cur).end_
          = m.startedAt + ((m.record now b).items (m.record now b).cur).start
            + m.resolution)) ∧
    (m.record now b).totalBytes = (m.totalBytes + b) % 18446744073709551616 ∧
    (m.totalBytes + b < 18446744073709551616 →
      (m.record now b).totalBytes = m.totalBytes + b) := by
  have htot : (m.record now b).totalBytes = (m.totalBytes + b) % 18446744073709551616 := by
    by_cases h : now < (m.items m.cur).end_
    · rw [record_same_bucket m now b h]
    · rw [record_next_bucket m now b h]
  refine ⟨?_, ?_, htot, fun hlt => by rw [htot]; exact Nat.mod_eq_of_lt hlt⟩
  · intro h
    rw [record_same_bucket m now b h]
    refine ⟨rfl, rfl, rfl, ?_, ?_, ?_⟩
    · dsimp only
      rw [Function.update_same]
    · intro i
      dsimp only
      by_cases hi : i = m.cur
      · subst hi
        rw [Function.update_same]
        exact ⟨rfl, rfl⟩
      · rw [Function.update_noteq hi]
        exact ⟨rfl, rfl⟩
    · intro i hi
      dsimp only
      rw [Function.update_noteq hi]
  · intro h
    rw [record_next_bucket m now b h]
    dsimp only
    rw [Function.update_same]
    refine ⟨rfl, rfl, rfl, rfl, rfl, ?_, ?_⟩
    · intro i hi
      rw [Function.update_noteq hi]
    · intro hr h0 hfit
      dsimp only at hfit ⊢
      have hsub : Time.Sub now m.startedAt = now - m.startedAt := by
        by_contra hne
        have hsat : Time.Sub now m.startedAt = maxDuration := by
          unfold Time.Sub at hne ⊢
          unfold minDuration maxDuration at hne ⊢
          split_ifs at hne ⊢ <;> omega
        rw [hsat, Int.tdiv_eq_ediv (by decide) hr.le] at hfit
        have := lt_floor_multiple_add maxDuration m.resolution hr
        omega
      rw [hsub, Int.tdiv_eq_ediv (by omega) hr.le] at hfit ⊢
      have hle := floor_multiple_le (now - m.startedAt) m.resolution hr
      have h0' : 0 ≤ (now - m.startedAt) / m.resolution * m.resolution :=
        Int.mul_nonneg (Int.ediv_nonneg (by omega) hr.le) hr.le
      refine ⟨Dvd.intro_left _ rfl, hle, lt_floor_multiple_add _ _ hr, ?_⟩
      rw [wrap64_of_range _ (by unfold minDuration; omega) hfit]
      unfold Time.Add
      ring

/-! ## The tokens along a sequence of calls -/

theorem refund_config (l : limiter) (bc : Int) :
    (l.refund bc).rate = l.rate ∧ (l.refund bc).burst = l.burst ∧
    (l.refund bc).minPartial = l.minPartial ∧ (l.refund bc).rateCoef = l.rateCoef ∧
    (l.refund bc).lastTime = l.lastTime :=
  ⟨rfl, rfl, rfl, rfl, rfl⟩

theorem request_in_turn (l : limiter) (hc : Configured l) (h0 : 0 ≤ l.lastToken) (tc n : Int)
    (ht : l.lastTime ≤ tc) (hn : 0 ≤ n) :
    0 ≤ (l.request tc n).1.lastToken ∧ (l.request tc n).1.lastToken ≤ l.burst ∧
    l.lastTime ≤ (l.request tc n).1.lastTime ∧ Configured (l.request tc n).1 := by
  have ha : 0 ≤ l.available tc := available_nonneg l tc hc.1.le hc.2.2.2.le h0 ht
  obtain ⟨h1, h2, h3, h4, -⟩ := request_step l hc tc n hn ha
  obtain ⟨c1, c2, c3, c4⟩ := request_config l tc n
  refine ⟨h2, h3, by omega, ?_⟩
  unfold Configured
  rw [c1, c2, c3, c4]
  exact hc

/-- Calls made in turn keep the configuration, the burst and a count of tokens
that is not negative. -/
theorem calls_in_turn (cs : List LimiterCall) :
    ∀ l : limiter, Configured l → 0 ≤ l.lastToken → l.InTurn cs →
      Configured (l.calls cs) ∧ 0 ≤ (l.calls cs).lastToken ∧ (l.calls cs).burst = l.burst := by
  induction cs with
  | nil => intro l hc h0 _; exact ⟨hc, h0, rfl⟩
  | cons c rest ih =>
    intro l hc h0 ht
    cases c with
    | request tc n =>
      obtain ⟨t1, t2, t3⟩ := ht
      obtain ⟨r1, -, -, r4⟩ := request_in_turn l hc h0 tc n t1 t2
      obtain ⟨a, b, c⟩ := ih (l.request tc n).1 r4 r1 t3
      exact ⟨a, b, c.trans (request_config l tc n).2.1⟩
    | refund k =>
      obtain ⟨t1, t2⟩ := ht
      have hk : (0 : ℚ) ≤ (k : ℚ) := by exact_mod_cast t1
      have h0' : 0 ≤ (l.refund k).lastToken := by
        show 0 ≤ l.lastToken + (k : ℚ)
        linarith
      obtain ⟨a, b, c⟩ := ih (l.refund k) hc h0' t2
      exact ⟨a, b, c⟩

theorem inTurn_append (cs : List LimiterCall) (ds : List LimiterCall) :
    ∀ l : limiter, l.InTurn (cs ++ ds) → l.InTurn cs ∧ (l.calls cs).InTurn ds := by
  induction cs with
  | nil => intro l h; exact ⟨trivial, h⟩
  | cons c rest ih =>
    intro l h
    cases c with
    | request tc n =>
      obtain ⟨t1, t2, t3⟩ := h
      obtain ⟨a, b⟩ := ih _ t3
      exact ⟨⟨t1, t2, a⟩, b⟩
    | refund k =>
      obtain ⟨t1, t2⟩ := h
      obtain ⟨a, b⟩ := ih _ t2
      exact ⟨⟨t1, a⟩, b⟩

/-- After any `request` the tokens are at most the burst, and after a
`request` of at least one byte they are not negative. -/
theorem request_token_bounds (l : limiter) (hc : Configured l) (tc n : Int) (hn : 0 ≤ n) :
    (l.request tc n).1.lastToken ≤ l.burst ∧ (1 ≤ n → 0 ≤ (l.request tc n).1.lastToken) := by
  obtain ⟨hr, hcoef, hmp, hb⟩ := hc
  have hab := available_le_burst l tc
  have hnq : (0 : ℚ) ≤ (n : ℚ) := by exact_mod_cast hn
  have hpos : ∀ k : Int, 1 ≤ k → k ≤ truncate (l.available tc) →
      (k : ℚ) ≤ l.available tc := by
    intro k hk hle
    have ha : 0 ≤ l.available tc := by
      by_contra hcon
      have := truncate_nonpos (not_le.mp hcon).le
      omega
    have h1 : (k : ℚ) ≤ (truncate (l.available tc) : ℚ) := by exact_mod_cast hle
    exact h1.trans (truncate_le ha)
  by_cases hf : n ≤ truncate (l.available tc)
  · rw [request_full l tc n hf]
    refine ⟨?_, fun h1 => ?_⟩
    · show l.available tc - (n : ℚ) ≤ l.burst
      linarith
    · show 0 ≤ l.available tc - (n : ℚ)
      have := hpos n h1 hf
      linarith
  · by_cases hp : l.minPartial ≤ truncate (l.available tc)
    · rw [request_partialGrant l tc n hf hp]
      have h1 := hpos l.minPartial hmp hp
      have hmq : (1 : ℚ) ≤ (l.minPartial : ℚ) := by exact_mod_cast hmp
      have ha : 0 ≤ l.available tc := by linarith
      have h2 := truncate_le ha
      have h3 : (0 : ℚ) ≤ (truncate (l.available tc) : ℚ) := by exact_mod_cast truncate_nonneg ha
      refine ⟨?_, fun _ => ?_⟩
      · show l.available tc - (truncate (l.available tc) : ℚ) ≤ l.burst
        linarith
      · show 0 ≤ l.available tc - (truncate (l.available tc) : ℚ)
        linarith
    · rw [request_wait l tc n hf hp]
      exact ⟨hb.le, fun _ => le_refl _⟩

/-! ## Records in any order -/

theorem histRecord_ord {t0 r : Int} {hist : List (Int × ℚ)} (h : HistOrd r hist)
    (hne : hist ≠ []) (t : Int) (b : Nat) (hmax : (t - t0) / r * r + r ≤ maxDuration) :
    HistOrd r (histRecord t0 r hist (t, b)) ∧ histRecord t0 r hist (t, b) ≠ [] := by
  obtain ⟨hr, hchain, hmul, hvol⟩ := h
  cases hist with
  | nil => exact absurd rfl hne
  | cons x rest =>
    obtain ⟨s, v⟩ := x
    have hs := hmul (s, v) (List.mem_cons_self _ _)
    have hv : 0 ≤ v := hvol (s, v) (List.mem_cons_self _ _)
    have hb : (0 : ℚ) ≤ (b : ℚ) := Nat.cast_nonneg b
    unfold histRecord
    dsimp only
    by_cases hlt : t < t0 + s + r
    · rw [if_pos hlt]
      refine ⟨⟨hr, ?_, ?_, ?_⟩, by simp⟩
      · cases rest with
        | nil => exact List.chain'_singleton _
        | cons y rest' =>
          rw [List.chain'_cons] at hchain ⊢
          exact hchain
      · intro y hy
        rcases List.mem_cons.mp hy with rfl | hy
        · exact hs
        · exact hmul y (List.mem_cons_of_mem _ hy)
      · intro y hy
        rcases List.mem_cons.mp hy with rfl | hy
        · show 0 ≤ v + (b : ℚ)
          linarith
        · exact hvol y (List.mem_cons_of_mem _ hy)
    · rw [if_neg hlt]
      have hoff : s + r ≤ (t - t0) / r * r :=
        le_floor_multiple (t - t0) r (s + r) hr (Dvd.dvd.add hs.1 (dvd_refl r)) (by omega)
      have hle := floor_multiple_le (t - t0) r hr
      refine ⟨⟨hr, ?_, ?_, ?_⟩, by simp⟩
      · rw [List.chain'_cons]
        exact ⟨hoff, hchain⟩
      · intro y hy
        rcases List.mem_cons.mp hy with rfl | hy
        · refine ⟨Dvd.intro_left _ rfl, ?_, ?_⟩
          · show 0 ≤ (t - t0) / r * r
            omega
          · show (t - t0) / r * r + r ≤ maxDuration
            exact hmax
        · exact hmul y hy
      · intro y hy
        rcases List.mem_cons.mp hy with rfl | hy
        · exact hb
        · exact hvol y hy

theorem sim_step_any {m : meter} {t0 r : Int} {hist : List (Int × ℚ)}
    (h : Sim m t0 r hist) (hi : HistOrd r hist) (t : Int) (b : Nat)
    (hmax : (t - t0) / r * r + r ≤ maxDuration) :
    Sim (m.record t b) t0 r (histRecord t0 r hist (t, b)) := by
  cases hist with
  | nil => exact absurd h.length_pos (by simp)
  | cons x rest =>
    obtain ⟨s, v⟩ := x
    have hs := hi.multiple (s, v) (List.mem_cons_self _ _)
    have hr := hi.r_pos
    unfold histRecord
    dsimp only
    by_cases hlt : t < t0 + s + r
    · rw [if_pos hlt]
      exact sim_same h t b hlt
    · rw [if_neg hlt]
      exact sim_next h hr t b hlt (by have := hs.2.1; show 0 ≤ t - t0; omega) hmax

theorem recordAll_sim_any (t0 r : Int) (records : List (Int × Nat)) :
    ∀ (m : meter) (hist : List (Int × ℚ)),
      Sim m t0 r hist → HistOrd r hist →
      (∀ x ∈ records, (x.1 - t0) / r * r + r ≤ maxDuration) →
      Sim (m.recordAll records) t0 r (records.foldl (histRecord t0 r) hist) ∧
      HistOrd r (records.foldl (histRecord t0 r) hist) := by
  induction records with
  | nil =>
    intro m hist h hi _
    exact ⟨h, hi⟩
  | cons x rest ih =>
    intro m hist h hi hmax
    have hne : hist ≠ [] := by
      intro e
      have := h.length_pos
      rw [e] at this
      simp at this
    have hx := hmax x (List.mem_cons_self _ _)
    have hstep := sim_step_any h hi x.1 x.2 hx
    obtain ⟨hi', -⟩ := histRecord_ord hi hne x.1 x.2 hx
    exact ih (m.record x.1 x.2) (histRecord t0 r hist (x.1, x.2)) hstep hi'
      (fun y hy => hmax y (List.mem_cons_of_mem _ hy))

/-- A meter fresh from `newMeter` and `start`, fed records in any order, holds
the newest buckets of an ordered history. -/
theorem records_sim_any {m : meter} {resolution sample : Int}
    (h : newMeter resolution sample = .ok m) (hres : resolution ≤ maxDuration) (t0 : Int)
    (records : List (Int × Nat))
    (hmax : ∀ x ∈ records,
      (x.1 - t0) / resolution * resolution + resolution ≤ maxDuration) :
    ∃ hist, Sim ((m.start t0).recordAll records) t0 resolution hist ∧
      HistOrd resolution hist := by
  obtain ⟨hsim, hinv⟩ := start_sim h t0
  have hord : HistOrd resolution [((0 : Int), (0 : ℚ))] := by
    refine ⟨hinv.r_pos, List.chain'_singleton _, ?_, ?_⟩
    · intro x hx
      simp only [List.mem_singleton] at hx
      subst hx
      exact ⟨dvd_zero _, le_refl _, by simpa using hres⟩
    · intro x hx
      simp only [List.mem_singleton] at hx
      subst hx
      exact le_refl _
  exact ⟨_, recordAll_sim_any t0 resolution records _ _ hsim hord hmax⟩

theorem histLoop_nonneg (ss : Int) :
    ∀ (budget : Nat) (l : List (Int × ℚ)) (acc : ℚ), (∀ x ∈ l, 0 ≤ x.2) → 0 ≤ acc →
      0 ≤ histLoop ss budget l acc := by
  intro budget
  induction budget with
  | zero => intro l acc _ h; unfold histLoop; exact h
  | succ n ih =>
    intro l acc hl h
    cases l with
    | nil => unfold histLoop; exact h
    | cons x rest =>
      have hx := hl x (List.mem_cons_self _ _)
      unfold histLoop
      split_ifs
      · linarith
      · exact ih rest _ (fun y hy => hl y (List.mem_cons_of_mem _ hy)) (by linarith)
      · exact h

theorem iterate_next (m : meter) (a : Nat) :
    ∀ i : Nat, (m.next)^[i] (a % m.size) = (a + i) % m.size := by
  intro i
  induction i with
  | zero => rfl
  | succ i ih =>
    rw [Function.iterate_succ_apply', ih]
    unfold meter.next
    rw [slot_succ]
    rfl

/-! ## The claims about the invariants -/

/-- C21, counterexample: the limiter `newLimiter` builds for 16 bit/s with the
default configuration receives `request(T, 5)`, `request(T, 3)` and
`request(T + 100ms, 0)`: the timestamps do not decrease and no byte count is
negative.  The second call has to wait and puts `lastTime` at `T + 500ms`; the
third call finds `-0.8` tokens available, grants its zero bytes at once, and
leaves `lastToken = -0.8` and `lastTime = T + 100ms`, earlier than before the
call. -/
theorem zero_request_breaks_range :
    newLimiter 16 Second (Millisecond * 500) = .ok limiter16 ∧
    (limiter16.calls [.request clock2026 5, .request clock2026 3]).lastTime
      = clock2026 + 500000000 ∧
    (limiter16.calls [.request clock2026 5, .request clock2026 3,
      .request (clock2026 + 100000000) 0]).lastToken = -4 / 5 ∧
    (limiter16.calls [.request clock2026 5, .request clock2026 3,
      .request (clock2026 + 100000000) 0]).lastTime = clock2026 + 100000000 ∧
    ¬ (0 ≤ (limiter16.calls [.request clock2026 5, .request clock2026 3,
      .request (clock2026 + 100000000) 0]).lastToken) ∧
    ¬ ((limiter16.calls [.request clock2026 5, .request clock2026 3]).lastTime
      ≤ (limiter16.calls [.request clock2026 5, .request clock2026 3,
          .request (clock2026 + 100000000) 0]).lastTime) := by
  have h1 := request16_fresh 5 (by decide)
  have h2 := request16_wait clock2026 3 (by decide)
  have hv : (limiter16At (clock2026 + 500000000) 0).available (clock2026 + 100000000)
      = -4 / 5 := by
    have hs : Time.Sub (clock2026 + 100000000) (clock2026 + 500000000) = -400000000 := by
      unfold Time.Sub minDuration maxDuration
      rw [if_neg (by omega), if_neg (by omega)]
      omega
    unfold limiter.available
    simp only [limiter16At, limiter16]
    rw [hs]
    norm_num
  have ha : truncate (-4 / 5 : ℚ) = 0 := by
    have e : (-4 / 5 : ℚ) = -(4 / 5) := by norm_num
    have h45 : truncate (4 / 5 : ℚ) = 0 :=
      truncate_eq_of_bounds (by norm_num) (by norm_num) (by norm_num)
    rw [e, truncate_neg, h45]
    rfl
  have h3 : (limiter16At (clock2026 + 500000000) 0).request (clock2026 + 100000000) 0
      = ({ limiter16At (clock2026 + 500000000) 0 with
            lastTime := clock2026 + 100000000, lastToken := -4 / 5 - ((0 : Int) : ℚ) }, 0, 0) :=
    request_of_full hv ha (le_refl _)
  have e2 : limiter16.calls [.request clock2026 5, .request clock2026 3]
      = limiter16At (clock2026 + 500000000) 0 := by
    simp only [limiter.calls, List.foldl, limiter.call, h1, h2]
  have e3 : limiter16.calls [.request clock2026 5, .request clock2026 3,
      .request (clock2026 + 100000000) 0]
      = { limiter16At (clock2026 + 500000000) 0 with
            lastTime := clock2026 + 100000000, lastToken := -4 / 5 - ((0 : Int) : ℚ) } := by
    simp only [limiter.calls, List.foldl, limiter.call, h1, h2, h3]
  rw [e2, e3]
  refine ⟨newLimiter16, rfl, ?_, rfl, ?_, ?_⟩
  · show (-4 / 5 - ((0 : Int) : ℚ) : ℚ) = -4 / 5
    norm_num
  · show ¬ (0 ≤ (-4 / 5 - ((0 : Int) : ℚ) : ℚ))
    norm_num
  · show ¬ (clock2026 + 500000000 ≤ clock2026 + 100000000)
    omega

/-- C21, amended: a limiter configured by a successful `set`, with a count of
tokens that is not negative, receives a sequence of calls made in turn: every
`request` asks for a non-negative number of bytes at a time not earlier than
the `lastTime` the limiter has at that moment, and `refund` calls of
non-negative counts are interleaved.  After every `request` of the sequence
`0 ≤ lastToken ≤ burst` holds and `lastTime` is not earlier than it was before
the call.  Whatever the time of the call, after a `request` of a non-negative
number of bytes `lastToken ≤ burst` holds, and after a `request` of at least
one byte `0 ≤ lastToken` holds. -/
theorem calls_keep_token_range (l : limiter) (hc : Configured l) (h0 : 0 ≤ l.lastToken)
    (pre : List LimiterCall) (tc n : Int) (hturn : l.InTurn (pre ++ [.request tc n])) :
    (0 ≤ ((l.calls pre).request tc n).1.lastToken ∧
      ((l.calls pre).request tc n).1.lastToken ≤ l.burst ∧
      (l.calls pre).lastTime ≤ ((l.calls pre).request tc n).1.lastTime) ∧
    (∀ (s : limiter) (t k : Int), Configured s → 0 ≤ k →
      (s.request t k).1.lastToken ≤ s.burst ∧ (1 ≤ k → 0 ≤ (s.request t k).1.lastToken)) := by
  obtain ⟨hpre, hlast⟩ := inTurn_append pre [.request tc n] l hturn
  obtain ⟨hc', h0', hb⟩ := calls_in_turn pre l hc h0 hpre
  obtain ⟨ht, hn, -⟩ := hlast
  obtain ⟨r1, r2, r3, -⟩ := request_in_turn (l.calls pre) hc' h0' tc n ht hn
  rw [hb] at r2
  exact ⟨⟨r1, r2, r3⟩, fun s t k hs hk => request_token_bounds s hs t k hk⟩

/-- Witness of C21 amended: the fresh 16 bit/s limiter asked for five bytes and
then, at the same time, for three more. -/
theorem calls_keep_token_range_witness :
    Configured limiter16 ∧ 0 ≤ limiter16.lastToken ∧
    limiter16.InTurn ([.request clock2026 5] ++ [.request clock2026 3]) ∧
    0 ≤ ((limiter16.calls [.request clock2026 5]).request clock2026 3).1.lastToken ∧
    ((limiter16.calls [.request clock2026 5]).request clock2026 3).1.lastToken
      ≤ limiter16.burst ∧
    (limiter16.calls [.request clock2026 5]).lastTime
      ≤ ((limiter16.calls [.request clock2026 5]).request clock2026 3).1.lastTime :=
  have h0 : 0 ≤ limiter16.lastToken := le_refl _
  have hturn : limiter16.InTurn ([.request clock2026 5] ++ [.request clock2026 3]) := by
    have h1 := request16_fresh 5 (by decide)
    refine ⟨by decide, by decide, ?_, by decide, trivial⟩
    rw [h1]
    exact le_refl _
  ⟨configured16, h0, hturn,
    (calls_keep_token_range limiter16 configured16 h0 [.request clock2026 5] clock2026 3
      hturn).1⟩

/-- C22, counterexample: the meter of 1s / 3s is started at `T` and receives
`record(T + 9223372036.5s, 10)` twice.  The first call labels a bucket with the
start `9223372036s`, whose end wraps around to a time before `T`; the second
call therefore advances the ring again and labels the next bucket with the same
start: it is not at least the previous start plus the resolution, the end of
`cur` is before `T + resolution`, and from `first` to `cur` the starts are
`0s, 9223372036s, 9223372036s`, not strictly increasing. -/
theorem far_record_repeats_start :
    newMeter Second (Second * 3) = .ok meter1s3s ∧
    ((meter1s3s.start clock2026).recordAll
      [(clock2026 + 9223372036500000000, 10), (clock2026 + 9223372036500000000, 10)]).first
        = some 0 ∧
    ((meter1s3s.start clock2026).recordAll
      [(clock2026 + 9223372036500000000, 10), (clock2026 + 9223372036500000000, 10)]).last
        = some 1 ∧
    ((meter1s3s.start clock2026).recordAll
      [(clock2026 + 9223372036500000000, 10), (clock2026 + 9223372036500000000, 10)]).cur
        = 2 ∧
    (((meter1s3s.start clock2026).recordAll
      [(clock2026 + 9223372036500000000, 10), (clock2026 + 9223372036500000000, 10)]).items
        1).start = 9223372036000000000 ∧
    (((meter1s3s.start clock2026).recordAll
      [(clock2026 + 9223372036500000000, 10), (clock2026 + 9223372036500000000, 10)]).items
        2).start = 9223372036000000000 ∧
    (((meter1s3s.start clock2026).recordAll
      [(clock2026 + 9223372036500000000, 10), (clock2026 + 9223372036500000000, 10)]).items
        2).end_ < clock2026 + Second := by
  refine ⟨newMeter1s3s, ?_, ?_, ?_, ?_, ?_, ?_⟩ <;> decide

/-- C22, amended: a meter whose resolution fits a `time.Duration` is started at
`t0` and fed `record` calls in any order of their timestamps, the bucket of
every record ending within a `time.Duration` of `t0` (the time since `t0`
truncated down to a multiple of the resolution, plus the resolution, is at most
the largest `int64`).  The start of `cur` is a multiple of the resolution and
not negative, and the end of `cur` is `t0 + start + resolution`, so it is at
least `t0 + resolution`.  A further such `record` that advances the ring sets
the start of the new `cur` to a multiple of the resolution that is at least the
start of the previous `cur` plus the resolution.  Once `first` is set, `cur` is
reached from `first` in fewer steps than the ring has slots, and along these
steps the starts of the buckets are strictly increasing. -/
theorem record_starts_increase (resolution sample : Int) (m : meter)
    (hnew : newMeter resolution sample = .ok m) (hres : resolution ≤ maxDuration) (t0 : Int)
    (records : List (Int × Nat))
    (hmax : ∀ x ∈ records,
      (x.1 - t0) / resolution * resolution + resolution ≤ maxDuration) :
    (resolution ∣ (((m.start t0).recordAll records).items
        ((m.start t0).recordAll records).cur).start ∧
      0 ≤ (((m.start t0).recordAll records).items
        ((m.start t0).recordAll records).cur).start ∧
      (((m.start t0).recordAll records).items ((m.start t0).recordAll records).cur).end_
        = t0 + (((m.start t0).recordAll records).items
            ((m.start t0).recordAll records).cur).start + resolution ∧
      t0 + resolution
        ≤ (((m.start t0).recordAll records).items
            ((m.start t0).recordAll records).cur).end_) ∧
    (∀ (now : Int) (b : Nat),
      (now - t0) / resolution * resolution + resolution ≤ maxDuration →
      ¬ now < (((m.start t0).recordAll records).items
          ((m.start t0).recordAll records).cur).end_ →
      resolution ∣ ((((m.start t0).recordAll records).record now b).items
          (((m.start t0).recordAll records).record now b).cur).start ∧
      (((m.start t0).recordAll records).items ((m.start t0).recordAll records).cur).start
          + resolution
        ≤ ((((m.start t0).recordAll records).record now b).items
            (((m.start t0).recordAll records).record now b).cur).start) ∧
    (∀ f, ((m.start t0).recordAll records).first = some f →
      ∃ n, 1 ≤ n ∧ n ≤ ((m.start t0).recordAll records).size ∧
        (((m.start t0).recordAll records).next)^[n - 1] f
          = ((m.start t0).recordAll records).cur ∧
        ∀ i j, i < j → j < n →
          (((m.start t0).recordAll records).items
              ((((m.start t0).recordAll records).next)^[i] f)).start
            < (((m.start t0).recordAll records).items
              ((((m.start t0).recordAll records).next)^[j] f)).start) := by
  obtain ⟨hist, hsim, hord⟩ := records_sim_any hnew hres t0 records hmax
  generalize (m.start t0).recordAll records = M at hsim ⊢
  have hr := hord.r_pos
  obtain ⟨x0, rest, rfl⟩ : ∃ x0 rest, hist = x0 :: rest := by
    cases hist with
    | nil => exact absurd hsim.length_pos (by simp)
    | cons a b => exact ⟨a, b, rfl⟩
  obtain ⟨s0, v0⟩ := x0
  have hcur := sim_cur_item hsim
  have hs0 := hord.multiple (s0, v0) (List.mem_cons_self _ _)
  refine ⟨?_, ?_, ?_⟩
  · rw [hcur]
    refine ⟨hs0.1, hs0.2.1, rfl, ?_⟩
    show t0 + resolution ≤ t0 + s0 + resolution
    have := hs0.2.1
    omega
  · intro now b hnow hadv
    rw [hcur] at hadv
    have hadv' : ¬ now < t0 + s0 + resolution := hadv
    have hstep := sim_step_any hsim hord now b hnow
    obtain ⟨hord', -⟩ := @histRecord_ord t0 resolution _ hord (by simp) now b hnow
    unfold histRecord at hstep hord'
    dsimp only at hstep hord'
    rw [if_neg hadv'] at hstep hord'
    rw [sim_cur_item hstep, hcur]
    exact ⟨Dvd.intro_left _ rfl, (List.chain'_cons.mp hord'.chain).1⟩
  · intro f hf
    rw [hsim.first_eq] at hf
    by_cases hL : 2 ≤ ((s0, v0) :: rest).length
    · rw [if_pos hL] at hf
      have hf' : f = (((s0, v0) :: rest).length - min ((s0, v0) :: rest).length M.size)
          % M.size := (Option.some.inj hf).symm
      have hsize := hsim.size_ge
      generalize hlen : ((s0, v0) :: rest).length = len at hL hf'
      generalize hn : min len M.size = n at hf'
      have hn1 : n ≤ len := by rw [← hn]; exact min_le_left _ _
      have hn2 : n ≤ M.size := by rw [← hn]; exact min_le_right _ _
      have hn3 : 2 ≤ n := by rw [← hn]; exact le_min hL (by omega)
      refine ⟨n, by omega, hn2, ?_, ?_⟩
      · rw [hf', iterate_next, hsim.cur_eq, hlen]
        congr 1
        omega
      · intro i j hij hjn
        rw [hf', iterate_next, iterate_next]
        have hi : n - 1 - i < ((s0, v0) :: rest).length := by omega
        have hj : n - 1 - j < ((s0, v0) :: rest).length := by omega
        have gi := hsim.items_eq (n - 1 - i) _ (List.getElem?_eq_getElem hi) (by omega)
        have gj := hsim.items_eq (n - 1 - j) _ (List.getElem?_eq_getElem hj) (by omega)
        rw [hlen] at gi gj
        have ei : len - 1 - (n - 1 - i) = len - n + i := by omega
        have ej : len - 1 - (n - 1 - j) = len - n + j := by omega
        rw [ei] at gi
        rw [ej] at gj
        rw [gi, gj]
        dsimp only
        have hgap := chain_gap resolution (((s0, v0) :: rest).drop (n - 1 - j))
          (List.Chain'.drop hord.chain _) (j - i)
          (((s0, v0) :: rest)[n - 1 - i]) (((s0, v0) :: rest)[n - 1 - j])
          (by
            rw [List.getElem?_drop]
            exact List.getElem?_eq_getElem hj)
          (by
            rw [List.getElem?_drop]
            have e : n - 1 - j + (j - i) = n - 1 - i := by omega
            rw [e]
            exact List.getElem?_eq_getElem hi)
        have hpos : (1 : Int) ≤ ((j - i : Nat) : Int) := by
          have : 1 ≤ j - i := by omega
          exact_mod_cast this
        have : resolution ≤ ((j - i : Nat) : Int) * resolution := by
          have := mul_le_mul_of_nonneg_right hpos hr.le
          linarith
        omega
    · rw [if_neg hL] at hf
      exact absurd hf (by simp)

/-- Witness of C22 amended: the meter of 1s / 3s, started and given a record
1100ms after its start and then one 100ms after its start. -/
theorem record_starts_increase_witness :
    newMeter Second (Second * 3) = .ok meter1s3s ∧ Second ≤ maxDuration ∧
    (∀ x ∈ ([(clock2026 + 1100000000, 1250), (clock2026 + 100000000, 1250)] :
      List (Int × Nat)), (x.1 - clock2026) / Second * Second + Second ≤ maxDuration) ∧
    clock2026 + Second
      ≤ (((meter1s3s.start clock2026).recordAll
            [(clock2026 + 1100000000, 1250), (clock2026 + 100000000, 1250)]).items
          ((meter1s3s.start clock2026).recordAll
            [(clock2026 + 1100000000, 1250), (clock2026 + 100000000, 1250)]).cur).end_ :=
  have h : ∀ x ∈ ([(clock2026 + 1100000000, 1250), (clock2026 + 100000000, 1250)] :
      List (Int × Nat)), (x.1 - clock2026) / Second * Second + Second ≤ maxDuration := by
    decide
  ⟨newMeter1s3s, by decide, h,
    (record_starts_increase Second (Second * 3) meter1s3s newMeter1s3s (by decide) clock2026 _
      h).1.2.2.2⟩

/-- C23, counterexample: the meter of 1s / 3s is started at `T` and receives
`record(T + 9223372036.5s, b)`.  The end of the bucket this call labels wraps
around to a time before `T`, so `bitRate(T)` takes the query to lie after `cur`,
its window ends at offset 0, and it divides by a window width of 0: the result
is `+Inf` for `b = 10` and the NaN for `b = 0`. -/
theorem far_record_divides_by_zero :
    newMeter Second (Second * 3) = .ok meter1s3s ∧
    ((meter1s3s.start clock2026).record (clock2026 + 9223372036500000000) 10).last = some 0 ∧
    ((meter1s3s.start clock2026).record (clock2026 + 9223372036500000000) 10).sampleWidth
      clock2026 = 0 ∧
    meter.bitRate 4 ((meter1s3s.start clock2026).record (clock2026 + 9223372036500000000) 10)
      clock2026 = some .posInf ∧
    meter.bitRate 4 ((meter1s3s.start clock2026).record (clock2026 + 9223372036500000000) 0)
      clock2026 = some .nan := by
  refine ⟨newMeter1s3s, by decide, by decide, ?_, ?_⟩
  · have hadv : ¬ clock2026 + 9223372036500000000
        < ((meter1s3s.start clock2026).items (meter1s3s.start clock2026).cur).end_ := by decide
    have v1 : (((meter1s3s.start clock2026).record (clock2026 + 9223372036500000000) 10).items 1).vol
        = ((10 : Nat) : ℚ) := (record_next_vol _ _ 10 hadv).1
    have v0 : (((meter1s3s.start clock2026).record (clock2026 + 9223372036500000000) 10).items 0).vol
        = 0 := (record_next_vol _ _ 10 hadv).2 0 (by decide)
    have e1 : meter.sampleStart
        ((meter1s3s.start clock2026).record (clock2026 + 9223372036500000000) 10) clock2026
        = 0 := by decide
    have e2 : meter.newest
        ((meter1s3s.start clock2026).record (clock2026 + 9223372036500000000) 10) clock2026 0
        = 1 := by decide
    have e3 : meter.sampleWidth
        ((meter1s3s.start clock2026).record (clock2026 + 9223372036500000000) 10) clock2026
        = 0 := by decide
    have e4 : meter.prev
        ((meter1s3s.start clock2026).record (clock2026 + 9223372036500000000) 10) 1 = 0 := by
      decide
    rw [bitRate_of_last 4 _ clock2026 0 (by decide), e1, e2, e3,
      sumLoop_prev _ 0 3 1 0 (by decide) (by decide), e4,
      sumLoop_first _ 0 2 0 _ (by decide) (by decide), v1, v0]
    show some (BitRate.quotient _ _) = _
    unfold BitRate.quotient bpscoef Second
    norm_num
  · have hadv : ¬ clock2026 + 9223372036500000000
        < ((meter1s3s.start clock2026).items (meter1s3s.start clock2026).cur).end_ := by decide
    have v1 : (((meter1s3s.start clock2026).record (clock2026 + 9223372036500000000) 0).items 1).vol
        = ((0 : Nat) : ℚ) := (record_next_vol _ _ 0 hadv).1
    have v0 : (((meter1s3s.start clock2026).record (clock2026 + 9223372036500000000) 0).items 0).vol
        = 0 := (record_next_vol _ _ 0 hadv).2 0 (by decide)
    have e1 : meter.sampleStart
        ((meter1s3s.start clock2026).record (clock2026 + 9223372036500000000) 0) clock2026
        = 0 := by decide
    have e2 : meter.newest
        ((meter1s3s.start clock2026).record (clock2026 + 9223372036500000000) 0) clock2026 0
        = 1 := by decide
    have e3 : meter.sampleWidth
        ((meter1s3s.start clock2026).record (clock2026 + 9223372036500000000) 0) clock2026
        = 0 := by decide
    have e4 : meter.prev
        ((meter1s3s.start clock2026).record (clock2026 + 9223372036500000000) 0) 1 = 0 := by
      decide
    rw [bitRate_of_last 4 _ clock2026 0 (by decide), e1, e2, e3,
      sumLoop_prev _ 0 3 1 0 (by decide) (by decide), e4,
      sumLoop_first _ 0 2 0 _ (by decide) (by decide), v1, v0]
    show some (BitRate.quotient _ _) = _
    unfold BitRate.quotient bpscoef Second
    norm_num

/-- C23, amended: a meter whose sample fits a `time.Duration` is started at `t0`
and fed `record` calls in any order of their timestamps, the bucket of every
record ending within a `time.Duration` of `t0` (the time since `t0` truncated
down to a multiple of the resolution, plus the resolution, is at most the
largest `int64`); then `bitRate` is queried at any time `tc`.  With as many
iterations as the ring has slots, the call returns a finite rate that is not
negative.  When no bucket has closed it returns 0 without dividing.  When a
bucket has closed, the walk back over the ring ends with a sum that is not
negative, the window width the sum is divided by (`sampleWidth`: the sample, or
the end of the window when its start is clamped to 0) is strictly positive, and
the result is the sum times `bpscoef` over this width. -/
theorem bitRate_width_pos (resolution sample : Int) (m : meter)
    (hnew : newMeter resolution sample = .ok m) (hsmax : sample ≤ maxDuration) (t0 : Int)
    (records : List (Int × Nat))
    (hmax : ∀ x ∈ records,
      (x.1 - t0) / resolution * resolution + resolution ≤ maxDuration)
    (tc : Int) (fuel : Nat) (hfuel : m.size ≤ fuel) :
    (∃ rate, meter.bitRate fuel ((m.start t0).recordAll records) tc = some (.finite rate) ∧
      0 ≤ rate) ∧
    (((m.start t0).recordAll records).last = none →
      meter.bitRate fuel ((m.start t0).recordAll records) tc = some (.finite 0)) ∧
    (∀ last, ((m.start t0).recordAll records).last = some last →
      0 < ((m.start t0).recordAll records).sampleWidth tc ∧
      ∃ sum, 0 ≤ sum ∧
        meter.sumLoop ((m.start t0).recordAll records)
          (((m.start t0).recordAll records).sampleStart tc) fuel
          (((m.start t0).recordAll records).newest tc last) 0 = some sum ∧
        meter.bitRate fuel ((m.start t0).recordAll records) tc
          = some (.finite (sum * bpscoef
              / ((((m.start t0).recordAll records).sampleWidth tc : Int) : ℚ)))) := by
  obtain ⟨hs, h1, h2, h3⟩ := start_fresh hnew t0
  have hres : resolution ≤ maxDuration := by
    have hr : 0 < resolution := by unfold MinMeterResolution Millisecond at h1; omega
    rw [Int.tdiv_eq_ediv h2.le hr.le] at h3
    have := floor_multiple_le sample resolution hr
    have h4 : 2 * resolution ≤ sample / resolution * resolution :=
      Int.mul_le_mul_of_nonneg_right h3 hr.le
    omega
  obtain ⟨hist, hsim, hord⟩ := records_sim_any hnew hres t0 records hmax
  have hsz : ((m.start t0).recordAll records).size = m.size := by
    rw [(recordAll_config records (m.start t0)).2.2.1]
    unfold meter.start
    split_ifs <;> rfl
  have hsample : ((m.start t0).recordAll records).sample = sample := by
    rw [(recordAll_config records (m.start t0)).2.1, hs]
  generalize (m.start t0).recordAll records = M at hsim hsz hsample ⊢
  have hr := hord.r_pos
  have hnone : M.last = none → meter.bitRate fuel M tc = some (.finite 0) := by
    intro hl
    unfold meter.bitRate
    rw [hl]
  have hsome : ∀ last, M.last = some last →
      0 < M.sampleWidth tc ∧
      ∃ sum, 0 ≤ sum ∧
        meter.sumLoop M (M.sampleStart tc) fuel (M.newest tc last) 0 = some sum ∧
        meter.bitRate fuel M tc
          = some (.finite (sum * bpscoef / ((M.sampleWidth tc : Int) : ℚ))) := by
    intro last hl
    have hL : 2 ≤ hist.length := by
      by_contra hcon
      rw [hsim.last_eq, if_neg hcon] at hl
      exact absurd hl (by simp)
    have hlast : last = (hist.length - 2) % M.size := by
      rw [hsim.last_eq, if_pos hL] at hl
      exact (Option.some.inj hl).symm
    have hsize := hsim.size_ge
    obtain ⟨x0, tl, rfl⟩ : ∃ x0 tl, hist = x0 :: tl := by
      cases hist with
      | nil => simp at hL
      | cons a b => exact ⟨a, b, rfl⟩
    obtain ⟨x1, rest, rfl⟩ : ∃ x1 rest, tl = x1 :: rest := by
      cases tl with
      | nil => simp at hL
      | cons a b => exact ⟨a, b, rfl⟩
    obtain ⟨s0, v0⟩ := x0
    have hcur := sim_cur_item hsim
    have hs0 := hord.multiple (s0, v0) (List.mem_cons_self _ _)
    have hs1 := hord.multiple x1 (by simp)
    have hc01 : x1.1 + resolution ≤ s0 := (List.chain'_cons.mp hord.chain).1
    have hs0r : resolution ≤ s0 := by have := hs1.2.1; omega
    -- the end of the window is positive
    have hend : 0 < M.sampleEnd tc := by
      unfold meter.sampleEnd
      rw [hcur]
      dsimp only
      by_cases hin : tc < t0 + s0 + resolution
      · rw [if_neg (not_not.mpr hin)]
        omega
      · rw [if_pos hin, hsim.startedAt_eq, hsim.resolution_eq]
        have hsub : resolution ≤ Time.Sub tc t0 := by
          have := hs0.2.2
          unfold Time.Sub minDuration maxDuration
          unfold maxDuration at this
          split_ifs <;> omega
        rw [Int.tdiv_eq_ediv (by omega) hr.le]
        have := le_floor_multiple (Time.Sub tc t0) resolution resolution hr (dvd_refl _) hsub
        omega
    have hwidth : 0 < M.sampleWidth tc := by
      unfold meter.sampleWidth
      split_ifs
      · exact hend
      · rw [hsample]
        exact h2
    -- the walk over the ring
    have hmin : 2 ≤ min ((s0, v0) :: x1 :: rest).length M.size := le_min hL (by omega)
    have hle : min ((s0, v0) :: x1 :: rest).length M.size ≤ fuel := by
      have := min_le_right ((s0, v0) :: x1 :: rest).length M.size
      omega
    have hloop : ∃ sum, 0 ≤ sum ∧
        meter.sumLoop M (M.sampleStart tc) fuel (M.newest tc last) 0 = some sum := by
      unfold meter.newest
      rw [hcur]
      dsimp only
      by_cases hin : tc < t0 + s0 + resolution
      · rw [if_neg (not_not.mpr hin), hlast]
        have hl1 := sumLoop_sim hsim hL (M.sampleStart tc) fuel 1 0 (by omega) (by omega)
        have e1 : ((s0, v0) :: x1 :: rest).length - 1 - 1
            = ((s0, v0) :: x1 :: rest).length - 2 := by omega
        rw [e1] at hl1
        exact ⟨_, histLoop_nonneg _ _ _ _
          (fun x hx => hord.vol_nonneg x (List.mem_of_mem_drop hx)) (le_refl _), hl1⟩
      · rw [if_pos hin, hsim.cur_eq]
        have hl0 := sumLoop_sim hsim hL (M.sampleStart tc) fuel 0 0 (by omega) (by omega)
        rw [Nat.sub_zero] at hl0
        exact ⟨_, histLoop_nonneg _ _ _ _
          (fun x hx => hord.vol_nonneg x (List.mem_of_mem_drop hx)) (le_refl _), hl0⟩
    obtain ⟨sum, hsum0, hsum⟩ := hloop
    refine ⟨hwidth, sum, hsum0, hsum, ?_⟩
    rw [bitRate_of_last fuel M tc last hl, hsum]
    have hwq : ((M.sampleWidth tc : Int) : ℚ) ≠ 0 := by exact_mod_cast hwidth.ne'
    exact congrArg some (quotient_finite _ _ hwq)
  refine ⟨?_, hnone, hsome⟩
  cases hl : M.last with
  | none => exact ⟨0, hnone hl, le_refl _⟩
  | some last =>
    obtain ⟨hw, sum, hsum0, -, hrate⟩ := hsome last hl
    refine ⟨_, hrate, ?_⟩
    have hwq : (0 : ℚ) < ((M.sampleWidth tc : Int) : ℚ) := by exact_mod_cast hw
    have hb : (0 : ℚ) < bpscoef := by
      unfold bpscoef Second
      norm_num
    positivity

/-- Witness of C23 amended: the meter of 1s / 3s, started and given a record
1100ms after its start and then one 100ms after its start, queried at the time
of its start. -/
theorem bitRate_width_pos_witness :
    newMeter Second (Second * 3) = .ok meter1s3s ∧ Second * 3 ≤ maxDuration ∧
    (∀ x ∈ ([(clock2026 + 1100000000, 1250), (clock2026 + 100000000, 1250)] :
      List (Int × Nat)), (x.1 - clock2026) / Second * Second + Second ≤ maxDuration) ∧
    meter1s3s.size ≤ 4 ∧
    ∃ rate, meter.bitRate 4 ((meter1s3s.start clock2026).recordAll
        [(clock2026 + 1100000000, 1250), (clock2026 + 100000000, 1250)]) clock2026
      = some (.finite rate) ∧ 0 ≤ rate :=
  have h : ∀ x ∈ ([(clock2026 + 1100000000, 1250), (clock2026 + 100000000, 1250)] :
      List (Int × Nat)), (x.1 - clock2026) / Second * Second + Second ≤ maxDuration := by
    decide
  ⟨newMeter1s3s, by decide, h, le_refl _,
    (bitRate_width_pos Second (Second * 3) meter1s3s newMeter1s3s (by decide) clock2026 _ h
      clock2026 4 (le_refl _)).1⟩

end speedio
